import Mathlib

/-!
# The `TraditionFormatter` of `logrus` (tradition_formatter.go)

A shallow embedding of the formatter and the properties of its rendered line.

Go strings are byte sequences, so a string is a list of bytes here; `range` over
a string and `%q` work on the runes that UTF-8 decoding finds in those bytes.
What the formatter takes from other files of the package (level names, default
keys, colour constants, the terminal check) is gathered in `Package`; what it
takes from the operating system and the Go run time (environment variables,
time layout, the goroutine's stack header, Unicode tables) in `Env`.
-/

namespace Logrus

/-! ## Bytes and strings -/

/-- A Go `byte`. -/
abbrev Byte := Fin 256

/-- A Go `string`: any sequence of bytes, valid UTF-8 or not. -/
abbrev GoString := List Byte

/-- The byte of an ASCII character. -/
def ch (c : Char) : Byte := Fin.ofNat c.toNat

/-- An ASCII literal as a Go string. -/
def asc (s : String) : GoString := s.toList.map ch

/-- The line feed. -/
def LF : Byte := 0x0A

/-- The space. -/
def SP : Byte := 0x20

/-- The double quote. -/
def DQ : Byte := 0x22

/-- The backslash. -/
def BSL : Byte := 0x5C

/-- The escape character that opens an ANSI colour sequence. -/
def ESC : Byte := 0x1B

/-! ## unicode/utf8 -/

/-- `utf8.RuneError`. -/
def RuneError : Nat := 0xFFFD

/-- `utf8.RuneSelf`: bytes below it are runes of their own. -/
def RuneSelf : Nat := 0x80

/-- `utf8.MaxRune`. -/
def MaxRune : Nat := 0x10FFFF

/-- The table `first` of unicode/utf8: what the first byte of an encoding says
about it (`as` = 0xF0 ASCII, `xx` = 0xF1 invalid, otherwise the accept range in
the high nibble and the size in the low one). -/
def first (b : Nat) : Nat :=
  if b < 0x80 then 0xF0
  else if b < 0xC2 then 0xF1
  else if b < 0xE0 then 0x02
  else if b = 0xE0 then 0x13
  else if b < 0xED then 0x03
  else if b = 0xED then 0x23
  else if b < 0xF0 then 0x03
  else if b = 0xF0 then 0x34
  else if b < 0xF4 then 0x04
  else if b = 0xF4 then 0x44
  else 0xF1

/-- The table `acceptRanges` of unicode/utf8: bounds `(lo, hi)` of the second byte. -/
def acceptRanges (i : Nat) : Nat × Nat :=
  match i with
  | 0 => (0x80, 0xBF)
  | 1 => (0xA0, 0xBF)
  | 2 => (0x80, 0x9F)
  | 3 => (0x90, 0xBF)
  | 4 => (0x80, 0x8F)
  | _ => (0, 0)

/-- The byte `s[i]` as a number (read after the length check that guards it). -/
def byteAt (s : GoString) (i : Nat) : Nat := (s.getD i 0).val

/-- `utf8.DecodeRuneInString`: the first rune of `s` and its width in bytes;
`(RuneError, 1)` for an invalid encoding and `(RuneError, 0)` for the empty string.
The masks `s0 & 0x1F`, `& 0x3F`, `& 0x0F`, `& 0x07` are remainders and the shifted
parts, having no bit in common, are added. -/
def DecodeRuneInString (s : GoString) : Nat × Nat :=
  let n := s.length
  if n < 1 then (RuneError, 0)
  else
    let s0 := byteAt s 0
    let x := first s0
    if x ≥ 0xF0 then
      (if x % 2 = 1 then RuneError else s0, 1)
    else
      let sz := x % 8
      let accept := acceptRanges (x / 16)
      if n < sz then (RuneError, 1)
      else
        let s1 := byteAt s 1
        if s1 < accept.1 ∨ accept.2 < s1 then (RuneError, 1)
        else if sz ≤ 2 then ((s0 % 32) * 64 + s1 % 64, 2)
        else
          let s2 := byteAt s 2
          if s2 < 0x80 ∨ 0xBF < s2 then (RuneError, 1)
          else if sz ≤ 3 then ((s0 % 16) * 4096 + (s1 % 64) * 64 + s2 % 64, 3)
          else
            let s3 := byteAt s 3
            if s3 < 0x80 ∨ 0xBF < s3 then (RuneError, 1)
            else ((s0 % 8) * 262144 + (s1 % 64) * 4096 + (s2 % 64) * 64 + s3 % 64, 4)

/-- The byte with the low eight bits of `n` (Go's conversion `byte(n)`). -/
def toByte (n : Nat) : Byte := Fin.ofNat n

/-- `utf8.AppendRune` onto the empty slice: the UTF-8 encoding of `r`; surrogates
and values above `MaxRune` are encoded as `RuneError`. -/
def AppendRune (r : Nat) : GoString :=
  if r ≤ 0x7F then [toByte r]
  else if r ≤ 0x7FF then [toByte (0xC0 + r / 64), toByte (0x80 + r % 64)]
  else if r > MaxRune ∨ (0xD800 ≤ r ∧ r ≤ 0xDFFF) then
    [toByte (0xE0 + RuneError / 4096), toByte (0x80 + RuneError / 64 % 64),
      toByte (0x80 + RuneError % 64)]
  else if r ≤ 0xFFFF then
    [toByte (0xE0 + r / 4096), toByte (0x80 + r / 64 % 64), toByte (0x80 + r % 64)]
  else
    [toByte (0xF0 + r / 262144), toByte (0x80 + r / 4096 % 64), toByte (0x80 + r / 64 % 64),
      toByte (0x80 + r % 64)]

/-- `utf8.ValidRune`. -/
def ValidRune (r : Nat) : Bool :=
  if r < 0xD800 then true
  else if 0xDFFF < r ∧ r ≤ MaxRune then true
  else false

/-- The loop `for len(s) > 0 { r, width := decode(s); ...; s = s[width:] }` that
`range` over a string and the library's string walkers run: the runes of `s` in
order, each with the bytes it was decoded from. Every step takes at least one
byte, so `fuel = len(s)` is enough. -/
def chunksFuel : Nat → GoString → List (Nat × GoString)
  | 0, _ => []
  | fuel + 1, s =>
    if s.length = 0 then []
    else
      let d := DecodeRuneInString s
      (d.1, s.take d.2) :: chunksFuel fuel (s.drop d.2)

/-- The runes of `s`, each with its bytes. -/
def chunks (s : GoString) : List (Nat × GoString) := chunksFuel s.length s

/-- `utf8.RuneCountInString`. -/
def RuneCountInString (s : GoString) : Nat := (chunks s).length

/-- `utf8.ValidString`. -/
def ValidString (s : GoString) : Bool :=
  (chunks s).all (fun c => !(c.1 = RuneError ∧ c.2.length = 1))

/-! ## strconv: `%q` -/

/-- The digits `lowerhex` of strconv. -/
def lowerhex (i : Nat) : Byte := (asc "0123456789abcdef").getD i 0

/-- `strconv.IsPrint`. Latin-1 is decided in the code; for the runes above it
the library searches its Unicode tables, which are taken as `table`. -/
def IsPrint (table : Nat → Bool) (r : Nat) : Bool :=
  if r ≤ 0xFF then
    if 0x20 ≤ r ∧ r ≤ 0x7E then true
    else if 0xA1 ≤ r ∧ r ≤ 0xFF then r ≠ 0xAD
    else false
  else table r

/-- `\x` followed by the two hex digits of the byte `b`. -/
def hexEscape (b : Nat) : GoString :=
  [BSL, ch 'x', lowerhex (b / 16), lowerhex (b % 16)]

/-- `strconv.appendEscapedRune` with the double quote as quote character and
neither `ASCIIonly` nor `graphicOnly` (the setting of `%q`). -/
def appendEscapedRune (table : Nat → Bool) (r : Nat) : GoString :=
  if r = DQ.val ∨ r = BSL.val then [BSL, toByte r]
  else if IsPrint table r then AppendRune r
  else if r = 0x07 then [BSL, ch 'a']
  else if r = 0x08 then [BSL, ch 'b']
  else if r = 0x0C then [BSL, ch 'f']
  else if r = 0x0A then [BSL, ch 'n']
  else if r = 0x0D then [BSL, ch 'r']
  else if r = 0x09 then [BSL, ch 't']
  else if r = 0x0B then [BSL, ch 'v']
  else if r < 0x20 ∨ r = 0x7F then hexEscape (r % 256)
  else
    let r := if ValidRune r then r else RuneError
    if r < 0x10000 then
      [BSL, ch 'u', lowerhex (r / 4096 % 16), lowerhex (r / 256 % 16), lowerhex (r / 16 % 16),
        lowerhex (r % 16)]
    else
      [BSL, ch 'U', lowerhex (r / 268435456 % 16), lowerhex (r / 16777216 % 16),
        lowerhex (r / 1048576 % 16), lowerhex (r / 65536 % 16), lowerhex (r / 4096 % 16),
        lowerhex (r / 256 % 16), lowerhex (r / 16 % 16), lowerhex (r % 16)]

/-- One turn of the loop of `strconv.appendQuotedWith`: a byte that is no valid
encoding becomes `\x` and two hex digits, any other rune goes through
`appendEscapedRune`. -/
def quoteChunk (table : Nat → Bool) (c : Nat × GoString) : GoString :=
  if c.2.length = 1 ∧ c.1 = RuneError then hexEscape (byteAt c.2 0)
  else appendEscapedRune table c.1

/-- `strconv.Quote`, which is what `fmt.Sprintf("%q", s)` returns for a string. -/
def Quote (table : Nat → Bool) (s : GoString) : GoString :=
  [DQ] ++ (chunks s).flatMap (quoteChunk table) ++ [DQ]

/-! ## strconv: the decoder of quoted literals -/

/-- `strconv.unhex`: the value of a hexadecimal digit. -/
def unhex (c : Byte) : Option Nat :=
  if 0x30 ≤ c.val ∧ c.val ≤ 0x39 then some (c.val - 0x30)
  else if 0x61 ≤ c.val ∧ c.val ≤ 0x66 then some (c.val - 0x61 + 10)
  else if 0x41 ≤ c.val ∧ c.val ≤ 0x46 then some (c.val - 0x41 + 10)
  else none

/-- The loop of `UnquoteChar` over the `n` hexadecimal digits of an escape:
`v = v<<4 | x` for each digit; `none` for a byte that is no digit. -/
def readHex : Nat → GoString → Nat → Option Nat
  | 0, _, v => some v
  | _ + 1, [], _ => none
  | n + 1, c :: s, v =>
    match unhex c with
    | none => none
    | some x => readHex n s (v * 16 + x)

/-- The loop of `UnquoteChar` over the two further digits of an octal escape. -/
def readOctal : Nat → GoString → Nat → Option Nat
  | 0, _, v => some v
  | _ + 1, [], _ => none
  | n + 1, c :: s, v =>
    if 0x30 ≤ c.val ∧ c.val ≤ 0x37 then readOctal n s (v * 8 + (c.val - 0x30)) else none

/-- `strconv.UnquoteChar`: the first character or byte of the escaped string
`s`, whether it is a multi-byte rune, and the rest of `s`; `none` is the result
`ErrSyntax`. -/
def UnquoteChar (s : GoString) (quote : Byte) : Option (Nat × Bool × GoString) :=
  match s with
  | [] => none
  | c :: s1 =>
    if c = quote ∧ (quote = ch '\'' ∨ quote = DQ) then none
    else if c.val ≥ RuneSelf then
      let d := DecodeRuneInString s
      some (d.1, true, s.drop d.2)
    else if c ≠ BSL then some (c.val, false, s1)
    else
      match s1 with
      | [] => none
      | c :: s =>
        if c = ch 'a' then some (0x07, false, s)
        else if c = ch 'b' then some (0x08, false, s)
        else if c = ch 'f' then some (0x0C, false, s)
        else if c = ch 'n' then some (0x0A, false, s)
        else if c = ch 'r' then some (0x0D, false, s)
        else if c = ch 't' then some (0x09, false, s)
        else if c = ch 'v' then some (0x0B, false, s)
        else if c = ch 'x' ∨ c = ch 'u' ∨ c = ch 'U' then
          let n := if c = ch 'x' then 2 else if c = ch 'u' then 4 else 8
          if s.length < n then none
          else
            match readHex n s 0 with
            | none => none
            | some v =>
              if c = ch 'x' then some (v, false, s.drop n)
              else if !ValidRune v then none
              else some (v, true, s.drop n)
        else if 0x30 ≤ c.val ∧ c.val ≤ 0x37 then
          if s.length < 2 then none
          else
            match readOctal 2 s (c.val - 0x30) with
            | none => none
            | some v => if v > 255 then none else some (v, false, s.drop 2)
        else if c = BSL then some (0x5C, false, s)
        else if c = ch '\'' ∨ c = DQ then
          if c ≠ quote then none else some (c.val, false, s)
        else none

/-- The index of the first byte `c` in `s` (`strings.IndexByte`); `none` for -1. -/
def IndexByte : GoString → Byte → Option Nat
  | [], _ => none
  | b :: s, c => if b = c then some 0 else (IndexByte s c).map (fun i => i + 1)

/-- Whether `s` holds the byte `c`. -/
def containsByte (s : GoString) (c : Byte) : Bool := s.any (fun b => b = c)

/-- The loop of `strconv.unquote` over a quoted string with escapes: `buf` is
the text decoded so far; the result is the text and the input left when the
loop ends, `none` the result `ErrSyntax`. Each turn takes at least one byte of
the input, so `fuel` above its length is never used up. -/
def unquoteLoop (quote : Byte) : Nat → GoString → GoString → Option (GoString × GoString)
  | 0, _, _ => none
  | fuel + 1, inp, buf =>
    match inp with
    | [] => some (buf, inp)
    | c :: _ =>
      if c = quote then some (buf, inp)
      else
        match UnquoteChar inp quote with
        | none => none
        | some (r, multibyte, rem) =>
          if c = LF then none
          else
            let buf := if r < RuneSelf ∨ multibyte = false then buf ++ [toByte r]
              else buf ++ AppendRune r
            if quote = ch '\'' then some (buf, rem)
            else unquoteLoop quote fuel rem buf

/-- The backquote. -/
def BQ : Byte := 0x60

/-- `strconv.unquote` with `unescape` set: the text of the quoted literal at the
start of `inp` and the input after it; `none` is the result `ErrSyntax`. -/
def unquote (inp : GoString) : Option (GoString × GoString) :=
  if inp.length < 2 then none
  else
    let quote := inp.headD 0
    match IndexByte (inp.drop 1) quote with
    | none => none
    | some e =>
      let stop := e + 2
      if quote = BQ then
        if !containsByte (inp.take stop) 0x0D then
          some ((inp.take (stop - 1)).drop 1, inp.drop stop)
        else
          some (((inp.take (stop - 1)).drop 1).filter (fun b => b ≠ 0x0D), inp.drop stop)
      else if quote = DQ ∨ quote = ch '\'' then
        let valid :=
          if quote = DQ then ValidString ((inp.take (stop - 1)).drop 1)
          else
            let d := DecodeRuneInString ((inp.take (stop - 1)).drop 1)
            decide (1 + d.2 + 1 = stop ∧ (d.1 ≠ RuneError ∨ d.2 ≠ 1))
        if !containsByte (inp.take stop) BSL && !containsByte (inp.take stop) LF && valid then
          some ((inp.take (stop - 1)).drop 1, inp.drop stop)
        else
          match unquoteLoop quote (inp.length + 1) (inp.drop 1) [] with
          | none => none
          | some (buf, rest) =>
            match rest with
            | [] => none
            | c :: rest => if c = quote then some (buf, rest) else none
      else none

/-- `strconv.Unquote`: the text a quoted literal stands for; `none` is the
result `ErrSyntax`. -/
def Unquote (s : GoString) : Option GoString :=
  match unquote s with
  | none => none
  | some (out, rest) => if rest.length > 0 then none else some out

/-! ## fmt: the verbs of `printColored` -/

/-- The decimal digits of `n`, most significant first (the digit loop of
`fmt.fmtInteger`); there are at most `fuel` of them. -/
def decimalFuel : Nat → Nat → GoString
  | 0, _ => []
  | fuel + 1, n =>
    if n < 10 then [toByte (0x30 + n)]
    else decimalFuel fuel (n / 10) ++ [toByte (0x30 + n % 10)]

/-- The decimal digits of `n`. -/
def decimal (n : Nat) : GoString := decimalFuel (n + 1) n

/-- `fmt.fmtInteger` in base 10: the digits, zeros in front up to `prec` digits,
then the sign. -/
def fmtInteger (prec : Nat) (v : Int) : GoString :=
  let digits := decimal v.natAbs
  let digits := List.replicate (prec - digits.length) (ch '0') ++ digits
  if v < 0 then ch '-' :: digits else digits

/-- The verb `%d` on an `int`. -/
def fmtD (v : Int) : GoString := fmtInteger 0 v

/-- The verb `%04d` on an `int`: zero padding to width 4, the sign counted in
the width. -/
def fmt04d (v : Int) : GoString := fmtInteger (if v < 0 then 4 - 1 else 4) v

/-- The verb `%-44s`: the string, then spaces up to 44 runes (`fmt.padString`). -/
def fmtPad44 (s : GoString) : GoString :=
  s ++ List.replicate (44 - RuneCountInString s) SP

/-! ## strings -/

/-- `strings.ToUpper`: when every byte is ASCII the letters `a`..`z` are shifted
to `A`..`Z`; otherwise the library maps `unicode.ToUpper` over the runes, which is
taken as `mapUpper`. -/
def ToUpper (mapUpper : GoString → GoString) (s : GoString) : GoString :=
  if s.all (fun c => c.val < RuneSelf) then
    s.map (fun c => if 0x61 ≤ c.val ∧ c.val ≤ 0x7A then toByte (c.val - 0x20) else c)
  else mapUpper s

/-- `strings.TrimPrefix`  -/
def TrimPrefix (s pre : GoString) : GoString :=
  if pre.isPrefixOf s then s.drop pre.length else s

/-- `unicode.IsSpace`. -/
def IsSpace (r : Nat) : Bool :=
  if r ≤ 0xFF then
    r = 0x09 ∨ r = 0x0A ∨ r = 0x0B ∨ r = 0x0C ∨ r = 0x0D ∨ r = 0x20 ∨ r = 0x85 ∨ r = 0xA0
  else
    r = 0x1680 ∨ (0x2000 ≤ r ∧ r ≤ 0x200A) ∨ r = 0x2028 ∨ r = 0x2029 ∨ r = 0x202F ∨
      r = 0x205F ∨ r = 0x3000

/-- The fields of a decoded string: maximal runs of runes that are not white
space; `cur` is the field being read. -/
def fieldsAux : List (Nat × GoString) → GoString → List GoString
  | [], cur => if cur.length = 0 then [] else [cur]
  | c :: rest, cur =>
    if IsSpace c.1 then
      (if cur.length = 0 then [] else [cur]) ++ fieldsAux rest []
    else fieldsAux rest (cur ++ c.2)

/-- `strings.Fields`: the pieces of `s` between runs of white space (its ASCII
fast path and `FieldsFunc(s, unicode.IsSpace)` split at the same places). -/
def strings_Fields (s : GoString) : List GoString := fieldsAux (chunks s) []

/-- `strconv.Atoi` on a 64-bit platform: an optional sign and decimal digits, in
the range of `int`; `none` is the error result. -/
def Atoi (s : GoString) : Option Int :=
  if s.length = 0 then none
  else
    let neg := s.head? = some (ch '-')
    let digits := if s.head? = some (ch '-') ∨ s.head? = some (ch '+') then s.drop 1 else s
    if digits.length = 0 then none
    else if digits.all (fun c => 0x30 ≤ c.val ∧ c.val ≤ 0x39) then
      let n : Nat := digits.foldl (fun n c => n * 10 + (c.val - 0x30)) 0
      if neg then (if n ≤ 2 ^ 63 then some (-(n : Int)) else none)
      else (if n < 2 ^ 63 then some (n : Int) else none)
    else none

/-- Go's `<` on strings: byte-wise lexicographic order. -/
def strLess : GoString → GoString → Bool
  | [], [] => false
  | [], _ :: _ => true
  | _ :: _, [] => false
  | a :: s, b :: t => if a.val < b.val then true else if b.val < a.val then false else strLess s t

/-- The order `sort.Strings` sorts by: `a` may stand before `b` when `b < a` fails. -/
def strLE (a b : GoString) : Prop := strLess b a = false

instance : DecidableRel strLE := fun a b => inferInstanceAs (Decidable (strLess b a = false))

/-- `sort.Strings`: the strings in ascending order. The library's algorithm is
not stable, which no caller can see on strings; it is modelled by insertion sort. -/
def sortStrings (keys : List GoString) : List GoString := List.insertionSort strLE keys

/-! ## The data of the package -/

/-- A value of type `interface{}` as the formatter can tell it apart: the nil
interface, a string, or a value of any other dynamic type, given with the text
`fmt.Sprint` prints for it. -/
inductive Value where
  | nil
  | str (s : GoString)
  | other (text : GoString)
  deriving DecidableEq, Repr

/-- `fmt.Sprint(value)`. -/
def Sprint : Value → GoString
  | .nil => asc "<nil>"
  | .str s => s
  | .other text => text

/-- The type `Fields`, a `map[string]interface{}`: the keys are unique. Go leaves
the iteration order of a map open; the order of `entries` is the order in which
`range` yields the keys in the call at hand. -/
structure Fields where
  entries : List (GoString × Value)
  nodup : (entries.map Prod.fst).Nodup

/-- The index expression `data[key]`: the nil interface for an absent key. -/
def Fields.get (data : Fields) (key : GoString) : Value :=
  match data.entries.find? (fun kv => kv.1 = key) with
  | some kv => kv.2
  | none => Value.nil

/-- The keys in the order `for k := range data` yields them. -/
def Fields.keys (data : Fields) : List GoString := data.entries.map Prod.fst

/-- The type `Level`: the six constants that `printColored` tells apart, and
any other value of the underlying unsigned integer. -/
inductive Level where
  | PanicLevel
  | FatalLevel
  | ErrorLevel
  | WarnLevel
  | InfoLevel
  | DebugLevel
  | unrecognized (n : Nat)
  deriving DecidableEq, Repr

/-- A `time.Time`, as nanoseconds on one time line. -/
abbrev Time := Int

/-- An `io.Writer`, by identity. -/
abbrev Writer := Nat

/-- The type `Logger`, of which the formatter reads `Out`. -/
structure Logger where
  Out : Writer

/-- The type `Entry`. -/
structure Entry where
  Logger : Option Logger
  Data : Fields
  Time : Time
  Level : Level
  Message : GoString
  Buffer : Option GoString

/-- The type `FieldMap`, a map from the default key of a reserved field to the
key to print. -/
abbrev FieldMap := List (GoString × GoString)

/-- Modelled from the spec: `FieldMap.resolve`, declared in another file of the
package. The field-name map takes a reserved role to the literal key string
used as its rendered label; a role the map has no entry for keeps its default
key. -/
def FieldMap.resolve (m : FieldMap) (key : GoString) : GoString :=
  match m.find? (fun kv => kv.1 = key) with
  | some kv => kv.2
  | none => key

/-- The declarations of the package that the formatter uses and that stand in
other files: the default keys, the default time layout, `Level.String`, the
colour constants, the instant `baseTimestamp` set at start-up, and the terminal
check. -/
structure Package where
  FieldKeyTime : GoString
  FieldKeyLevel : GoString
  FieldKeyMsg : GoString
  defaultTimestampFormat : GoString
  levelString : Level → GoString
  gray : Int
  yellow : Int
  red : Int
  blue : Int
  baseTimestamp : Time
  checkIfTerminal : Writer → Bool

/-- What a call reads from the operating system and the run time: the
environment variables (`os.LookupEnv`), `time.Time.Format`, the text that
`runtime.Stack` writes into the 64-byte buffer of `GoId`, and from the library
the Unicode tables behind `strconv.IsPrint` and `unicode.ToUpper`. -/
structure Env where
  LookupEnv : GoString → Option GoString
  timeFormat : Time → GoString → GoString
  stack : GoString
  printTable : Nat → Bool
  mapUpper : GoString → GoString

/-- `os.Getenv`: the empty string for a variable that is not set. -/
def Env.Getenv (env : Env) (key : GoString) : GoString :=
  match env.LookupEnv key with
  | some v => v
  | none => []

/-- The constant `KEY_SOURCE`. -/
def KEY_SOURCE : GoString := asc "source"

/-- The type `TraditionFormatter`; `onceDone` is the state of the embedded
`sync.Once`. -/
structure TraditionFormatter where
  ForceColors : Bool
  DisableColors : Bool
  EnvironmentOverrideColors : Bool
  DisableTimestamp : Bool
  FullTimestamp : Bool
  TimestampFormat : GoString
  DisableSorting : Bool
  DisableLevelTruncation : Bool
  QuoteEmptyFields : Bool
  isTerminal : Bool
  FieldMap : FieldMap
  ShowGoroutineId : Bool
  onceDone : Bool

/-- A run-time panic, by kind. -/
inductive Panic where
  | typeAssertion
  | sliceBounds
  | indexRange
  | explicit
  deriving DecidableEq, Repr

/-- A Go `error` value; `none` is the nil error. -/
abbrev GoError := Option GoString

/-! ## The formatter -/

/-- `TraditionFormatter.init`. -/
def TraditionFormatter.init (f : TraditionFormatter) (p : Package) (entry : Entry) :
    TraditionFormatter :=
  match entry.Logger with
  | some logger => { f with isTerminal := p.checkIfTerminal logger.Out }
  | none => f

/-- The call `f.Do(func() { f.init(entry) })`: `init` runs on the first call only. -/
def TraditionFormatter.Do (f : TraditionFormatter) (p : Package) (entry : Entry) :
    TraditionFormatter :=
  if f.onceDone then f else { f.init p entry with onceDone := true }

/-- `TraditionFormatter.isColored`. -/
def TraditionFormatter.isColored (f : TraditionFormatter) (env : Env) : Bool :=
  let isColored := f.ForceColors || f.isTerminal
  let isColored :=
    if f.EnvironmentOverrideColors then
      match env.LookupEnv (asc "CLICOLOR_FORCE") with
      | some force =>
        if force ≠ asc "0" then true
        else false
      | none =>
        if env.Getenv (asc "CLICOLOR") = asc "0" then false
        else isColored
    else isColored
  isColored && !f.DisableColors

/-- The test of `needsQuoting` on one rune: whether it is in the set that needs
no quotes. -/
def safeRune (c : Nat) : Bool :=
  (0x61 ≤ c && c ≤ 0x7A) ||
  (0x41 ≤ c && c ≤ 0x5A) ||
  (0x30 ≤ c && c ≤ 0x39) ||
  c = 0x2D || c = 0x2E || c = 0x5F || c = 0x2F || c = 0x40 || c = 0x5E || c = 0x2B

/-- `TraditionFormatter.needsQuoting`. -/
def TraditionFormatter.needsQuoting (f : TraditionFormatter) (text : GoString) : Bool :=
  if f.QuoteEmptyFields && text.length = 0 then true
  else (chunks text).any (fun c => !safeRune c.1)

/-- `TraditionFormatter.appendValue`; the result is the buffer after the call. -/
def TraditionFormatter.appendValue (f : TraditionFormatter) (env : Env) (b : GoString)
    (value : Value) : GoString :=
  let stringVal :=
    match value with
    | .str s => s
    | v => Sprint v
  if !f.needsQuoting stringVal then b ++ stringVal
  else b ++ Quote env.printTable stringVal

/-- `TraditionFormatter.appendKeyValue`; the result is the buffer after the call. -/
def TraditionFormatter.appendKeyValue (f : TraditionFormatter) (env : Env) (b : GoString)
    (key : GoString) (value : Value) : GoString :=
  let b := if b.length > 0 then b ++ [SP] else b
  let b := b ++ key
  let b := b ++ [ch '=']
  f.appendValue env b value

/-- The body of `GoId` before `recover`: the number after `goroutine ` in the
stack text, or the panic that the index `[0]` or the failed `Atoi` raises. -/
def GoIdBody (stack : GoString) : Except Panic Int :=
  match strings_Fields (TrimPrefix stack (asc "goroutine ")) with
  | [] => .error Panic.indexRange
  | idField :: _ =>
    match Atoi idField with
    | some id => .ok id
    | none => .error Panic.explicit

/-- `GoId`: the deferred `recover` swallows a panic of the body and the function
then returns the zero value of its result. -/
def GoId (stack : GoString) : Int :=
  match GoIdBody stack with
  | .ok id => id
  | .error _ => 0

/-- The duration `t.Sub(u)` in nanoseconds, held in the range of `int64`. -/
def timeSub (t u : Time) : Int :=
  max (-(2 ^ 63)) (min (2 ^ 63 - 1) (t - u))

/-- The expression `int(entry.Time.Sub(baseTimestamp) / time.Second)`: whole
seconds, rounded towards zero. -/
def elapsedSeconds (p : Package) (entry : Entry) : Int :=
  Int.tdiv (timeSub entry.Time p.baseTimestamp) 1000000000

/-- The colour `printColored` picks for a level. -/
def levelColor (p : Package) (level : Level) : Int :=
  match level with
  | .DebugLevel => p.gray
  | .WarnLevel => p.yellow
  | .ErrorLevel => p.red
  | .FatalLevel => p.red
  | .PanicLevel => p.red
  | _ => p.blue

/-- The slice expression `s[0:4]`, which panics on a shorter string. -/
def slice04 (s : GoString) : Except Panic GoString :=
  if s.length < 4 then .error Panic.sliceBounds else .ok (s.take 4)

/-- The type assertion `v.(string)`, which panics on any other dynamic type. -/
def assertString (v : Value) : Except Panic GoString :=
  match v with
  | .str s => .ok s
  | _ => .error Panic.typeAssertion

/-- The text `\x1b[%dm[%s] \x1b[0m` that opens each format of `printColored`. -/
def levelSegment (color : Int) (levelText : GoString) : GoString :=
  [ESC] ++ asc "[" ++ fmtD color ++ asc "m[" ++ levelText ++ asc "] " ++ [ESC] ++ asc "[0m"

/-- The six `Fprintf` calls of `printColored`: the leading segment of the line. -/
def header (f : TraditionFormatter) (p : Package) (env : Env) (entry : Entry)
    (color : Int) (levelText source timestampFormat : GoString) : GoString :=
  if f.ShowGoroutineId then
    if f.DisableTimestamp then
      levelSegment color levelText ++ asc " [GoID:" ++ fmtD (GoId env.stack) ++ asc "] " ++
        source ++ asc " " ++ fmtPad44 entry.Message ++ asc " "
    else if !f.FullTimestamp then
      levelSegment color levelText ++ asc "[" ++ fmt04d (elapsedSeconds p entry) ++
        asc "] [GoID:" ++ fmtD (GoId env.stack) ++ asc "] " ++
        source ++ asc " " ++ fmtPad44 entry.Message ++ asc " "
    else
      levelSegment color levelText ++ asc "[" ++ env.timeFormat entry.Time timestampFormat ++
        asc "] [GoID:" ++ fmtD (GoId env.stack) ++ asc "] " ++
        source ++ asc " " ++ fmtPad44 entry.Message ++ asc " "
  else
    if f.DisableTimestamp then
      levelSegment color levelText ++ asc " " ++
        source ++ asc " " ++ fmtPad44 entry.Message ++ asc " "
    else if !f.FullTimestamp then
      levelSegment color levelText ++ asc "[" ++ fmt04d (elapsedSeconds p entry) ++ asc "] " ++
        source ++ asc " " ++ fmtPad44 entry.Message ++ asc " "
    else
      levelSegment color levelText ++ asc "[" ++ env.timeFormat entry.Time timestampFormat ++
        asc "] " ++ source ++ asc " " ++ fmtPad44 entry.Message ++ asc " "

/-- One turn of the last loop of `printColored`: the key `source` is skipped, any
other key is written as a coloured label followed by its value. -/
def coloredField (f : TraditionFormatter) (env : Env) (entry : Entry) (color : Int)
    (b : GoString) (k : GoString) : GoString :=
  if k = KEY_SOURCE then b
  else
    let v := entry.Data.get k
    let b := b ++ (asc " " ++ [ESC] ++ asc "[" ++ fmtD color ++ asc "m" ++ k ++ [ESC] ++
      asc "[0m=")
    f.appendValue env b v

/-- `TraditionFormatter.printColored`; the result is the buffer after the call,
or the panic that ends it. -/
def TraditionFormatter.printColored (f : TraditionFormatter) (p : Package) (env : Env)
    (b : GoString) (entry : Entry) (keys : List GoString) (timestampFormat : GoString) :
    Except Panic GoString :=
  let color := levelColor p entry.Level
  let levelText := ToUpper env.mapUpper (p.levelString entry.Level)
  match (if !f.DisableLevelTruncation then slice04 levelText else .ok levelText) with
  | .error e => .error e
  | .ok levelText =>
    match (if entry.Data.get KEY_SOURCE ≠ Value.nil then assertString (entry.Data.get KEY_SOURCE)
        else .ok []) with
    | .error e => .error e
    | .ok source =>
      let b := b ++ header f p env entry color levelText source timestampFormat
      .ok (keys.foldl (coloredField f env entry color) b)

/-- The plain branch of `Format`: the time, the level, the fields and the message
as `key=value` pairs. -/
def TraditionFormatter.printPlain (f : TraditionFormatter) (p : Package) (env : Env)
    (b : GoString) (entry : Entry) (keys : List GoString) (timestampFormat : GoString) :
    GoString :=
  let b :=
    if !f.DisableTimestamp then
      f.appendKeyValue env b (f.FieldMap.resolve p.FieldKeyTime)
        (Value.str (env.timeFormat entry.Time timestampFormat))
    else b
  let b := f.appendKeyValue env b (f.FieldMap.resolve p.FieldKeyLevel)
    (Value.str (p.levelString entry.Level))
  let b := keys.foldl (fun b key => f.appendKeyValue env b key (entry.Data.get key)) b
  if entry.Message ≠ [] then
    f.appendKeyValue env b (f.FieldMap.resolve p.FieldKeyMsg) (Value.str entry.Message)
  else b

/-- The keys `Format` renders: those of the field bag, sorted unless
`DisableSorting`. -/
def TraditionFormatter.orderedKeys (f : TraditionFormatter) (entry : Entry) : List GoString :=
  let keys := entry.Data.keys
  if !f.DisableSorting then sortStrings keys else keys

/-- `TraditionFormatter.Format`: the formatter after the call (the `sync.Once`
may have run) and either the returned pair of bytes and error or the panic that
left the call. -/
def TraditionFormatter.Format (f : TraditionFormatter) (p : Package) (env : Env)
    (entry : Entry) : TraditionFormatter × Except Panic (GoString × GoError) :=
  let keys := f.orderedKeys entry
  let b : GoString :=
    match entry.Buffer with
    | some buf => buf
    | none => []
  let f := f.Do p entry
  let timestampFormat :=
    if f.TimestampFormat = [] then p.defaultTimestampFormat else f.TimestampFormat
  let r : Except Panic GoString :=
    if f.isColored env then f.printColored p env b entry keys timestampFormat
    else .ok (f.printPlain p env b entry keys timestampFormat)
  match r with
  | .error e => (f, .error e)
  | .ok b => (f, .ok (b ++ [LF], none))

/-! ## The rendered line, in the words of the specification -/

/-- The text `appendValue` writes for a value. -/
def TraditionFormatter.valueText (f : TraditionFormatter) (env : Env) (v : Value) : GoString :=
  f.appendValue env [] v

/-- One `key=value` token. -/
def TraditionFormatter.token (f : TraditionFormatter) (env : Env) (key : GoString)
    (v : Value) : GoString :=
  key ++ [ch '='] ++ f.valueText env v

/-- The tokens of a plain line under given labels for time, level and message:
the time unless `DisableTimestamp`, the level, one token for each key of the
ordered key sequence, and the message when it is not empty. -/
def TraditionFormatter.plainTokens (f : TraditionFormatter) (p : Package) (env : Env)
    (entry : Entry) (timeLabel levelLabel msgLabel : GoString) : List GoString :=
  (if f.DisableTimestamp then []
    else [f.token env timeLabel (Value.str (env.timeFormat entry.Time
      (if f.TimestampFormat = [] then p.defaultTimestampFormat else f.TimestampFormat)))]) ++
  [f.token env levelLabel (Value.str (p.levelString entry.Level))] ++
  (f.orderedKeys entry).map (fun k => f.token env k (entry.Data.get k)) ++
  (if entry.Message = [] then [] else [f.token env msgLabel (Value.str entry.Message)])

/-- Tokens joined by single spaces and closed by one line feed. -/
def lineOf (tokens : List GoString) : GoString :=
  List.intercalate [SP] tokens ++ [LF]

/-- The plain line as the specification words it, with the literal labels
`time`, `level` and `message`. -/
def TraditionFormatter.specPlainLine (f : TraditionFormatter) (p : Package) (env : Env)
    (entry : Entry) : GoString :=
  lineOf (f.plainTokens p env entry (asc "time") (asc "level") (asc "message"))

/-- The plain line with the labels that the field map resolves the three
reserved keys to. -/
def TraditionFormatter.plainLine (f : TraditionFormatter) (p : Package) (env : Env)
    (entry : Entry) : GoString :=
  lineOf (f.plainTokens p env entry (f.FieldMap.resolve p.FieldKeyTime)
    (f.FieldMap.resolve p.FieldKeyLevel) (f.FieldMap.resolve p.FieldKeyMsg))

/-- The colour decision as the specification words it, for a formatter that
does not disable colours. -/
def specColorDecision (f : TraditionFormatter) (env : Env) : Bool :=
  if f.EnvironmentOverrideColors = false then f.ForceColors || f.isTerminal
  else
    match env.LookupEnv (asc "CLICOLOR_FORCE") with
    | some force => if force ≠ asc "0" then true else false
    | none =>
      if env.LookupEnv (asc "CLICOLOR") = some (asc "0") then false
      else f.ForceColors || f.isTerminal

/-! ## Auxiliary notions of the proofs -/

/-- The buffer after a run of `appendKeyValue` calls that write the tokens `ts`. -/
def appendTokens (b : GoString) (ts : List GoString) : GoString :=
  ts.foldl (fun b t => (if b.length > 0 then b ++ [SP] else b) ++ t) b

/-- What `DecodeRuneInString` can return on a string that starts with `s0`. -/
inductive Decoded (s0 : Byte) (t : GoString) : Nat × Nat → Prop where
  | ascii : s0.val < 0x80 → Decoded s0 t (s0.val, 1)
  | invalid : 0x80 ≤ s0.val → Decoded s0 t (RuneError, 1)
  | two (s1 : Byte) (t1 : GoString) : t = s1 :: t1 → 0xC2 ≤ s0.val → s0.val ≤ 0xDF →
      0x80 ≤ s1.val → s1.val ≤ 0xBF →
      Decoded s0 t ((s0.val % 32) * 64 + s1.val % 64, 2)
  | three (s1 s2 : Byte) (t2 : GoString) : t = s1 :: s2 :: t2 → 0xE0 ≤ s0.val → s0.val ≤ 0xEF →
      0x80 ≤ s1.val → s1.val ≤ 0xBF → (s0.val = 0xE0 → 0xA0 ≤ s1.val) →
      (s0.val = 0xED → s1.val ≤ 0x9F) → 0x80 ≤ s2.val → s2.val ≤ 0xBF →
      Decoded s0 t ((s0.val % 16) * 4096 + (s1.val % 64) * 64 + s2.val % 64, 3)
  | four (s1 s2 s3 : Byte) (t3 : GoString) : t = s1 :: s2 :: s3 :: t3 → 0xF0 ≤ s0.val →
      s0.val ≤ 0xF4 → 0x80 ≤ s1.val → s1.val ≤ 0xBF → (s0.val = 0xF0 → 0x90 ≤ s1.val) →
      (s0.val = 0xF4 → s1.val ≤ 0x8F) → 0x80 ≤ s2.val → s2.val ≤ 0xBF →
      0x80 ≤ s3.val → s3.val ≤ 0xBF →
      Decoded s0 t
        ((s0.val % 8) * 262144 + (s1.val % 64) * 4096 + (s2.val % 64) * 64 + s3.val % 64, 4)

/-- One step of the walk over a string: a rune together with the bytes it was
decoded from. -/
inductive Chunk : Nat × GoString → Prop where
  | ascii (b : Byte) : b.val < 0x80 → Chunk (b.val, [b])
  | invalid (b : Byte) : 0x80 ≤ b.val → Chunk (RuneError, [b])
  | multi (r : Nat) (bs : GoString) : 0x80 ≤ r → ValidRune r = true → AppendRune r = bs →
      (∀ b ∈ bs, 0x80 ≤ b.val) →
      (∀ t, DecodeRuneInString (bs ++ t) = (r, bs.length)) → Chunk (r, bs)

/-- A byte that is neither a control character nor the delete character. -/
abbrev visible (b : Byte) : Prop := 0x20 ≤ b.val ∧ b.val ≠ 0x7F

/-- The letter of the escapes `\a \b \f \n \r \t \v`. -/
def simpleEscape (r : Nat) : Option Byte :=
  if r = 0x07 then some (ch 'a')
  else if r = 0x08 then some (ch 'b')
  else if r = 0x0C then some (ch 'f')
  else if r = 0x0A then some (ch 'n')
  else if r = 0x0D then some (ch 'r')
  else if r = 0x09 then some (ch 't')
  else if r = 0x0B then some (ch 'v')
  else none

/-- The forms in which `appendEscapedRune` writes a rune. -/
inductive EscapedRune (table : Nat → Bool) (r : Nat) : GoString → Prop where
  | backslashed : (r = 0x22 ∨ r = 0x5C) → EscapedRune table r [BSL, toByte r]
  | printable : r ≠ 0x22 → r ≠ 0x5C → IsPrint table r = true → EscapedRune table r (AppendRune r)
  | simple (e : Byte) : IsPrint table r = false → simpleEscape r = some e →
      EscapedRune table r [BSL, e]
  | hex : IsPrint table r = false → simpleEscape r = none → (r < 0x20 ∨ r = 0x7F) →
      EscapedRune table r (hexEscape (r % 256))
  | u4 (v : Nat) : IsPrint table r = false → 0x7F < r →
      v = (if ValidRune r then r else RuneError) → v < 0x10000 →
      EscapedRune table r [BSL, ch 'u', lowerhex (v / 4096 % 16), lowerhex (v / 256 % 16),
        lowerhex (v / 16 % 16), lowerhex (v % 16)]
  | u8 (v : Nat) : IsPrint table r = false → 0x7F < r →
      v = (if ValidRune r then r else RuneError) → 0x10000 ≤ v →
      EscapedRune table r [BSL, ch 'U', lowerhex (v / 268435456 % 16),
        lowerhex (v / 16777216 % 16), lowerhex (v / 1048576 % 16), lowerhex (v / 65536 % 16),
        lowerhex (v / 4096 % 16), lowerhex (v / 256 % 16), lowerhex (v / 16 % 16),
        lowerhex (v % 16)]

/-- The characters that the specification lists as needing no quotes. -/
def safeSet : List Nat :=
  (asc "abcdefghijklmnopqrstuvwxyzABCDEFGHIJKLMNOPQRSTUVWXYZ0123456789-._/@^+").map
    (fun b => b.val)

/-- The string `s` is not empty and its last byte satisfies `P`. -/
def endsIn (P : Byte → Prop) (s : GoString) : Prop := ∃ pre x, s = pre ++ [x] ∧ P x

/-- What `UnquoteChar` does after a backslash, for the double quote as quote. -/
def afterBackslash (c : Byte) (s : GoString) : Option (Nat × Bool × GoString) :=
  if c = ch 'a' then some (0x07, false, s)
  else if c = ch 'b' then some (0x08, false, s)
  else if c = ch 'f' then some (0x0C, false, s)
  else if c = ch 'n' then some (0x0A, false, s)
  else if c = ch 'r' then some (0x0D, false, s)
  else if c = ch 't' then some (0x09, false, s)
  else if c = ch 'v' then some (0x0B, false, s)
  else if c = ch 'x' ∨ c = ch 'u' ∨ c = ch 'U' then
    let n := if c = ch 'x' then 2 else if c = ch 'u' then 4 else 8
    if s.length < n then none
    else
      match readHex n s 0 with
      | none => none
      | some v =>
        if c = ch 'x' then some (v, false, s.drop n)
        else if !ValidRune v then none
        else some (v, true, s.drop n)
  else if 0x30 ≤ c.val ∧ c.val ≤ 0x37 then
    if s.length < 2 then none
    else
      match readOctal 2 s (c.val - 0x30) with
      | none => none
      | some v => if v > 255 then none else some (v, false, s.drop 2)
  else if c = BSL then some (0x5C, false, s)
  else if c = ch '\'' ∨ c = DQ then
    if c ≠ DQ then none else some (c.val, false, s)
  else none

/-- The bytes the loop of `unquote` appends for the result of `UnquoteChar`. -/
def decodedBytes (r : Nat) (multibyte : Bool) : GoString :=
  if r < RuneSelf ∨ multibyte = false then [toByte r] else AppendRune r

/-- A piece of a quoted string that is the original bytes of a rune: it holds
neither a double quote nor a backslash. -/
def rawUnit (u : GoString) : Prop := DQ ∉ u ∧ BSL ∉ u

/-- A piece of a quoted string that is an escape sequence: a backslash, one
byte, and after it neither a double quote nor a backslash. -/
def escapeUnit (u : GoString) : Prop := ∃ x tl, u = BSL :: x :: tl ∧ DQ ∉ tl ∧ BSL ∉ tl

/-- The text between the quotes of `Quote table s`. -/
def quoteBody (table : Nat → Bool) (s : GoString) : GoString :=
  (chunks s).flatMap (quoteChunk table)

/-- `unicode.IsControl`: the control characters, all of them in Latin-1. -/
def isControl (r : Nat) : Bool := r < 0x20 ∨ (0x7F ≤ r ∧ r < 0xA0)

/-- A byte that is a printable ASCII character. -/
abbrev printableAscii (b : Byte) : Prop := 0x20 ≤ b.val ∧ b.val < 0x7F

/-- The segment between the level label and the source in the leading segment:
a blank under `DisableTimestamp`, else the bracketed seconds since start-up or,
under `FullTimestamp`, the bracketed time. -/
def timeSegment (f : TraditionFormatter) (p : Package) (env : Env) (entry : Entry)
    (timestampFormat : GoString) : GoString :=
  if f.DisableTimestamp then asc " "
  else if !f.FullTimestamp then asc "[" ++ fmt04d (elapsedSeconds p entry) ++ asc "] "
  else asc "[" ++ env.timeFormat entry.Time timestampFormat ++ asc "] "

/-- The segment `[GoID:%d] ` of the leading segment, present under
`ShowGoroutineId`. -/
def goidSegment (f : TraditionFormatter) (env : Env) : GoString :=
  if f.ShowGoroutineId then asc "[GoID:" ++ fmtD (GoId env.stack) ++ asc "] " else []

/-- The value of the `source` field as `printColored` prints it: the string, or
the empty string for an absent or nil field. -/
def sourceText (entry : Entry) : GoString :=
  match entry.Data.get KEY_SOURCE with
  | .str s => s
  | _ => []

/-- The level label of `printColored`: the upper-cased level name, cut to four
bytes unless `DisableLevelTruncation`. -/
def levelLabel (f : TraditionFormatter) (p : Package) (env : Env) (entry : Entry) : GoString :=
  if f.DisableLevelTruncation then ToUpper env.mapUpper (p.levelString entry.Level)
  else (ToUpper env.mapUpper (p.levelString entry.Level)).take 4

/-- What one turn of the last loop of `printColored` writes for a key other than
`source`: a blank, the key between the colour sequences, `=` and the value. -/
def coloredToken (f : TraditionFormatter) (env : Env) (entry : Entry) (color : Int)
    (k : GoString) : GoString :=
  asc " " ++ [ESC] ++ asc "[" ++ fmtD color ++ asc "m" ++ k ++ [ESC] ++ asc "[0m=" ++
    f.valueText env (entry.Data.get k)

/-- The fields of a coloured line: one token for each key of the ordered key
sequence other than `source`. -/
def coloredFields (f : TraditionFormatter) (env : Env) (entry : Entry) (color : Int) :
    GoString :=
  ((f.orderedKeys entry).filter (fun k => k ≠ KEY_SOURCE)).flatMap
    (coloredToken f env entry color)

/-- The line of the coloured branch: the buffer, the leading segment, the
fields and the line feed. -/
def TraditionFormatter.coloredLine (f : TraditionFormatter) (p : Package) (env : Env)
    (entry : Entry) : GoString :=
  entry.Buffer.getD [] ++
    header f p env entry (levelColor p entry.Level) (levelLabel f p env entry) (sourceText entry)
      (if f.TimestampFormat = [] then p.defaultTimestampFormat else f.TimestampFormat) ++
    coloredFields f env entry (levelColor p entry.Level) ++ [LF]

/-- A decimal digit as a byte. -/
def digit (n : Nat) : Byte := toByte (0x30 + n)

/-- The four-digit form of a number below 10000. -/
def fourDigits (k : Nat) : GoString :=
  [digit (k / 1000 % 10), digit (k / 100 % 10), digit (k / 10 % 10), digit (k % 10)]

/-- Modelled from the spec: the upper-cased level names, `WARNING` for the warn
level and `UNKNOWN` for a value that is none of the six constants. -/
def upperLevelName : Level → GoString
  | .PanicLevel => asc "PANIC"
  | .FatalLevel => asc "FATAL"
  | .ErrorLevel => asc "ERROR"
  | .WarnLevel => asc "WARNING"
  | .InfoLevel => asc "INFO"
  | .DebugLevel => asc "DEBUG"
  | .unrecognized _ => asc "UNKNOWN"

/-- A sequence of `Format` calls on one formatter: the formatter after the last
call, the results dropped. -/
def formatCalls (f : TraditionFormatter) (p : Package) (env : Env) (entries : List Entry) :
    TraditionFormatter :=
  entries.foldl (fun g entry => (g.Format p env entry).1) f

/-- The labels and values of the tokens of a plain line, in the order `Format`
writes them: the time unless `DisableTimestamp`, the level, the fields in the
order of the ordered key sequence, and the message when it is not empty. -/
def TraditionFormatter.plainPairs (f : TraditionFormatter) (p : Package) (env : Env)
    (entry : Entry) : List (GoString × Value) :=
  (if f.DisableTimestamp then []
    else [(f.FieldMap.resolve p.FieldKeyTime, Value.str (env.timeFormat entry.Time
      (if f.TimestampFormat = [] then p.defaultTimestampFormat else f.TimestampFormat)))]) ++
  [(f.FieldMap.resolve p.FieldKeyLevel, Value.str (p.levelString entry.Level))] ++
  (f.orderedKeys entry).map (fun k => (k, entry.Data.get k)) ++
  (if entry.Message = [] then [] else [(f.FieldMap.resolve p.FieldKeyMsg, Value.str entry.Message)])

/-- The states of a reader of a line of `key=value` tokens: in a label (with the
bytes read so far), right after the `=`, in a value without quotes, in a quoted
value, and after a backslash in a quoted value. -/
inductive ScanState where
  | key (acc : GoString)
  | start
  | bare
  | quoted
  | escaped

/-- The labels of the `key=value` tokens of a line, as the specification words
the line: tokens are separated by a space or closed by the line feed, the label
of a token is what stands before its first `=`, and a value that opens with a
double quote runs to the closing quote, a backslash taking the next byte with
it, so that spaces and `=` inside a quoted value start no token. A word without
`=` carries no label. -/
def scanLabels : ScanState → GoString → List GoString
  | _, [] => []
  | .key acc, c :: rest =>
    if c = ch '=' then acc :: scanLabels .start rest
    else if c = SP ∨ c = LF then scanLabels (.key []) rest
    else scanLabels (.key (acc ++ [c])) rest
  | .start, c :: rest =>
    if c = DQ then scanLabels .quoted rest
    else if c = SP ∨ c = LF then scanLabels (.key []) rest
    else scanLabels .bare rest
  | .bare, c :: rest =>
    if c = SP ∨ c = LF then scanLabels (.key []) rest else scanLabels .bare rest
  | .quoted, c :: rest =>
    if c = BSL then scanLabels .escaped rest
    else if c = DQ then scanLabels .bare rest
    else scanLabels .quoted rest
  | .escaped, _ :: rest => scanLabels .quoted rest

/-- The labels of the tokens of a line, read from its first byte. -/
def lineLabels (line : GoString) : List GoString := scanLabels (.key []) line

/-! ## Sample inputs -/

/-- Modelled from the spec: level names for the sample package, the lower-case
names of the six severities, `warning` for the warn level and `unknown` for any
other value. -/
def sampleLevelString : Level → GoString
  | .PanicLevel => asc "panic"
  | .FatalLevel => asc "fatal"
  | .ErrorLevel => asc "error"
  | .WarnLevel => asc "warning"
  | .InfoLevel => asc "info"
  | .DebugLevel => asc "debug"
  | .unrecognized _ => asc "unknown"

/-- Modelled from the spec: an instance of the declarations the formatter takes
from the other files of the package, used to run the formatter on concrete
inputs. The default keys are the role names `time`, `level` and `message`; the
colours are the ANSI codes of gray, yellow, red and blue. -/
def samplePackage : Package where
  FieldKeyTime := asc "time"
  FieldKeyLevel := asc "level"
  FieldKeyMsg := asc "message"
  defaultTimestampFormat := asc "2006-01-02T15:04:05Z07:00"
  levelString := sampleLevelString
  gray := 37
  yellow := 33
  red := 31
  blue := 36
  baseTimestamp := 0
  checkIfTerminal := fun _ => false

/-- A sample environment: no variable set, a fixed rendering of the time, the
stack header of goroutine 7, every rune above Latin-1 printable. -/
def sampleEnv : Env where
  LookupEnv := fun _ => none
  timeFormat := fun _ _ => asc "2024-03-01T00:00:00Z"
  stack := asc "goroutine 7 [running]:\n"
  printTable := fun _ => true
  mapUpper := fun s => s

/-- The zero value of `TraditionFormatter`, as `new(TraditionFormatter)` gives it. -/
def zeroFormatter : TraditionFormatter where
  ForceColors := false
  DisableColors := false
  EnvironmentOverrideColors := false
  DisableTimestamp := false
  FullTimestamp := false
  TimestampFormat := []
  DisableSorting := false
  DisableLevelTruncation := false
  QuoteEmptyFields := false
  isTerminal := false
  FieldMap := []
  ShowGoroutineId := false
  onceDone := false

/-- A sample record: level info, message `hello`, fields `b="x y"`, `a=5`. -/
def sampleEntry : Entry where
  Logger := none
  Data := ⟨[(asc "b", Value.str (asc "x y")), (asc "a", Value.other (asc "5"))], by decide⟩
  Time := 5000000000
  Level := Level.InfoLevel
  Message := asc "hello"
  Buffer := none

/-- A record whose `source` field holds the integer 5. -/
def sourceIntEntry : Entry where
  Logger := none
  Data := ⟨[(asc "source", Value.other (asc "5"))], by decide⟩
  Time := 0
  Level := Level.InfoLevel
  Message := asc "hello"
  Buffer := none

/-- A formatter without timestamp whose field map prints the level under `@level`. -/
def relabelFormatter : TraditionFormatter :=
  { zeroFormatter with DisableTimestamp := true, FieldMap := [(asc "level", asc "@level")] }

/-- A record with no fields and no message. -/
def bareEntry : Entry where
  Logger := none
  Data := ⟨[], by decide⟩
  Time := 0
  Level := Level.InfoLevel
  Message := []
  Buffer := none

/-- A formatter with `QuoteEmptyFields` set. -/
def quoteEmptyFormatter : TraditionFormatter :=
  { zeroFormatter with QuoteEmptyFields := true }

/-- A formatter with `ForceColors` set. -/
def colorFormatter : TraditionFormatter :=
  { zeroFormatter with ForceColors := true }

/-- A record whose message holds a line feed. -/
def twoLineEntry : Entry where
  Logger := none
  Data := ⟨[], by decide⟩
  Time := 0
  Level := Level.InfoLevel
  Message := asc "a\nb"
  Buffer := none

/-- A record with a field whose key holds a line feed. -/
def twoLineKeyEntry : Entry where
  Logger := none
  Data := ⟨[(asc "k\nk", Value.str (asc "v"))], by decide⟩
  Time := 0
  Level := Level.InfoLevel
  Message := []
  Buffer := none

/-- A record with line feeds in the message and in a field value. -/
def newlineValueEntry : Entry where
  Logger := none
  Data := ⟨[(asc "k", Value.str (asc "x\ny"))], by decide⟩
  Time := 0
  Level := Level.InfoLevel
  Message := asc "a\nb"
  Buffer := none

/-- A string with a quote, a backslash, a space, a line feed, a control
character, a non-ASCII rune and a byte that is no valid UTF-8. -/
def awkwardString : GoString :=
  asc "a \"b\\\n\x01" ++ [0xC3, 0xA9, 0xFF]

/-- A record at warn level with a string `source`, two more fields and the
message `abc`, five seconds after start-up. -/
def sourceEntry : Entry where
  Logger := none
  Data := ⟨[(asc "source", Value.str (asc "main.go:3")), (asc "b", Value.str (asc "x y")),
    (asc "a", Value.other (asc "5"))], by decide⟩
  Time := 5000000000
  Level := Level.WarnLevel
  Message := asc "abc"
  Buffer := none

/-- The line of `sourceEntry` in coloured mode. -/
def sourceEntryLine : GoString :=
  asc "\x1b[33m[WARN] \x1b[0m[0005] main.go:3 abc" ++ List.replicate 41 SP ++
    asc "  \x1b[33ma\x1b[0m=5 \x1b[33mb\x1b[0m=\"x y\"\n"

/-- A formatter with `ForceColors` and `DisableLevelTruncation` set that prints
the goroutine id in place of the time. -/
def fullLevelFormatter : TraditionFormatter :=
  { colorFormatter with
    DisableLevelTruncation := true
    DisableTimestamp := true
    ShowGoroutineId := true }

/-- The line of `sourceEntry` under `fullLevelFormatter`. -/
def sourceEntryFullLine : GoString :=
  asc "\x1b[33m[WARNING] \x1b[0m [GoID:7] main.go:3 abc" ++ List.replicate 41 SP ++
    asc "  \x1b[33ma\x1b[0m=5 \x1b[33mb\x1b[0m=\"x y\"\n"

/-- A record without a `source` field. -/
def noSourceEntry : Entry where
  Logger := none
  Data := ⟨[(asc "b", Value.str (asc "x y")), (asc "a", Value.other (asc "5"))], by decide⟩
  Time := 5000000000
  Level := Level.WarnLevel
  Message := asc "abc"
  Buffer := none

/-- A record with the fields `a` and `b`, which `range` yields in this order. -/
def pairEntry : Entry where
  Logger := none
  Data := ⟨[(asc "a", Value.other (asc "1")), (asc "b", Value.other (asc "2"))], by decide⟩
  Time := 0
  Level := Level.InfoLevel
  Message := []
  Buffer := none

/-- The record `pairEntry` when `range` yields `b` before `a`. -/
def swappedEntry : Entry where
  Logger := none
  Data := ⟨[(asc "b", Value.other (asc "2")), (asc "a", Value.other (asc "1"))], by decide⟩
  Time := 0
  Level := Level.InfoLevel
  Message := []
  Buffer := none

/-- A formatter with `DisableSorting` and `DisableTimestamp` set. -/
def unsortedFormatter : TraditionFormatter :=
  { zeroFormatter with
    DisableSorting := true
    DisableTimestamp := true }

/-- The sample package with a terminal check that holds for the stream 1 only. -/
def ttyPackage : Package :=
  { samplePackage with checkIfTerminal := fun w => decide (w = 1) }

/-- A record of a logger that writes to the stream 1. -/
def ttyEntry : Entry :=
  { bareEntry with Logger := some ⟨1⟩ }

/-- A record of a logger that writes to the stream 2. -/
def fileEntry : Entry :=
  { bareEntry with Logger := some ⟨2⟩ }

/-- A record with a field named `level`. -/
def clashEntry : Entry where
  Logger := none
  Data := ⟨[(asc "level", Value.str (asc "x"))], by decide⟩
  Time := 0
  Level := Level.InfoLevel
  Message := []
  Buffer := none

/-- A formatter with `DisableTimestamp` set. -/
def noTimeFormatter : TraditionFormatter :=
  { zeroFormatter with DisableTimestamp := true }

/-- A record without fields whose buffer still holds an earlier line. -/
def reusedBufferEntry : Entry :=
  { bareEntry with Buffer := some (asc "level=info\n") }

/-- A record with a field whose key holds a space. -/
def spaceKeyEntry : Entry where
  Logger := none
  Data := ⟨[(asc "a level", Value.str (asc "x"))], by decide⟩
  Time := 0
  Level := Level.InfoLevel
  Message := []
  Buffer := none

set_option maxRecDepth 100000

/-! ## Colour decision -/

theorem Do_DisableColors (f : TraditionFormatter) (p : Package) (entry : Entry) :
    (f.Do p entry).DisableColors = f.DisableColors := by
  unfold TraditionFormatter.Do TraditionFormatter.init
  split
  · rfl
  · split <;> rfl

theorem Do_TimestampFormat (f : TraditionFormatter) (p : Package) (entry : Entry) :
    (f.Do p entry).TimestampFormat = f.TimestampFormat := by
  unfold TraditionFormatter.Do TraditionFormatter.init
  split
  · rfl
  · split <;> rfl

theorem isColored_DisableColors (f : TraditionFormatter) (env : Env)
    (h : f.DisableColors = true) : f.isColored env = false := by
  simp [TraditionFormatter.isColored, h]

/-- What `Format` returns when the colour decision is negative. -/
theorem Format_of_not_colored (f : TraditionFormatter) (p : Package) (env : Env)
    (entry : Entry) (h : (f.Do p entry).isColored env = false) :
    (f.Format p env entry).2 =
      .ok ((f.Do p entry).printPlain p env (entry.Buffer.getD []) entry (f.orderedKeys entry)
        (if f.TimestampFormat = [] then p.defaultTimestampFormat else f.TimestampFormat) ++ [LF],
        none) := by
  unfold TraditionFormatter.Format
  simp only [h, Do_TimestampFormat]
  cases entry.Buffer <;> simp

/-- C2: with `DisableColors` set, `isColored` is false whatever `ForceColors`,
`isTerminal`, `EnvironmentOverrideColors` and the environment variables are, at
the call and after the one-time terminal check, so `Format` returns the line of
the plain branch. -/
theorem disableColors_wins (f : TraditionFormatter) (p : Package) (env : Env) (entry : Entry)
    (h : f.DisableColors = true) :
    f.isColored env = false ∧ (f.Do p entry).isColored env = false ∧
    (f.Format p env entry).2 =
      .ok ((f.Do p entry).printPlain p env (entry.Buffer.getD []) entry (f.orderedKeys entry)
        (if f.TimestampFormat = [] then p.defaultTimestampFormat else f.TimestampFormat) ++ [LF],
        none) := by
  have h2 : (f.Do p entry).isColored env = false :=
    isColored_DisableColors _ env (by rw [Do_DisableColors]; exact h)
  exact ⟨isColored_DisableColors f env h, h2, Format_of_not_colored f p env entry h2⟩

/-- C2 at a formatter that sets `ForceColors` and `DisableColors` at once. -/
theorem disableColors_wins_witness :
    ({ zeroFormatter with ForceColors := true, DisableColors := true } :
      TraditionFormatter).isColored sampleEnv = false :=
  (disableColors_wins { zeroFormatter with ForceColors := true, DisableColors := true }
    samplePackage sampleEnv sampleEntry rfl).1

/-- C3: without `DisableColors`, `isColored` is the decision of the
specification: `ForceColors OR isTerminal` when the environment is not consulted;
otherwise true for `CLICOLOR_FORCE` set and not "0", false for `CLICOLOR_FORCE`
set to "0", false for `CLICOLOR` equal to "0" when `CLICOLOR_FORCE` is not set,
and `ForceColors OR isTerminal` in the remaining case. -/
theorem isColored_eq_specColorDecision (f : TraditionFormatter) (env : Env)
    (h : f.DisableColors = false) : f.isColored env = specColorDecision f env := by
  unfold TraditionFormatter.isColored specColorDecision Env.Getenv
  cases hE : f.EnvironmentOverrideColors <;> simp [h]
  cases hF : env.LookupEnv (asc "CLICOLOR_FORCE") with
  | some force => simp
  | none =>
    cases hC : env.LookupEnv (asc "CLICOLOR") with
    | none =>
      have h0 : ¬ (([] : GoString) = asc "0") := by decide
      simp [h0]
    | some v => simp

/-- C3 at the claim's example: `ForceColors` and `isTerminal` false,
`CLICOLOR_FORCE` set to "1", the environment consulted: the line is coloured. -/
theorem isColored_eq_specColorDecision_witness :
    ({ zeroFormatter with EnvironmentOverrideColors := true } : TraditionFormatter).isColored
      { sampleEnv with
        LookupEnv := fun k => if k = asc "CLICOLOR_FORCE" then some (asc "1") else none } = true :=
  (isColored_eq_specColorDecision { zeroFormatter with EnvironmentOverrideColors := true }
    { sampleEnv with
      LookupEnv := fun k => if k = asc "CLICOLOR_FORCE" then some (asc "1") else none } rfl).trans
    (by decide)

/-! ## The panic of the coloured branch -/

/-- C1, the failing input: in coloured mode a record whose `source` field holds
an integer makes the type assertion of `printColored` panic, so `Format` returns
no bytes and no error. -/
theorem Format_panics_on_source_int :
    (({ zeroFormatter with ForceColors := true } : TraditionFormatter).Format samplePackage
      sampleEnv sourceIntEntry).2 = .error Panic.typeAssertion := by
  rfl


theorem Do_eq (f : TraditionFormatter) (p : Package) (entry : Entry) :
    ∃ t d, f.Do p entry = { f with isTerminal := t, onceDone := d } := by
  unfold TraditionFormatter.Do TraditionFormatter.init
  split
  · exact ⟨f.isTerminal, f.onceDone, rfl⟩
  · split
    · exact ⟨_, true, rfl⟩
    · exact ⟨f.isTerminal, true, rfl⟩

theorem printPlain_Do (f : TraditionFormatter) (p : Package) (env : Env) (entry : Entry)
    (b : GoString) (keys : List GoString) (tsf : GoString) :
    (f.Do p entry).printPlain p env b entry keys tsf = f.printPlain p env b entry keys tsf := by
  obtain ⟨t, d, h⟩ := Do_eq f p entry
  rw [h]
  rfl

theorem printColored_Do (f : TraditionFormatter) (p : Package) (env : Env) (entry : Entry)
    (b : GoString) (keys : List GoString) (tsf : GoString) :
    (f.Do p entry).printColored p env b entry keys tsf = f.printColored p env b entry keys tsf := by
  obtain ⟨t, d, h⟩ := Do_eq f p entry
  rw [h]
  rfl

theorem appendValue_def (f : TraditionFormatter) (env : Env) (b : GoString) (v : Value) :
    f.appendValue env b v =
      b ++ (if f.needsQuoting (Sprint v) then Quote env.printTable (Sprint v) else Sprint v) := by
  cases v <;> simp only [TraditionFormatter.appendValue, Sprint] <;>
    cases f.needsQuoting _ <;> simp

theorem valueText_def (f : TraditionFormatter) (env : Env) (v : Value) :
    f.valueText env v =
      if f.needsQuoting (Sprint v) then Quote env.printTable (Sprint v) else Sprint v := by
  rw [TraditionFormatter.valueText, appendValue_def]
  simp

theorem appendValue_eq (f : TraditionFormatter) (env : Env) (b : GoString) (v : Value) :
    f.appendValue env b v = b ++ f.valueText env v := by
  rw [appendValue_def, valueText_def]

theorem appendKeyValue_eq (f : TraditionFormatter) (env : Env) (b key : GoString) (v : Value) :
    f.appendKeyValue env b key v =
      (if b.length > 0 then b ++ [SP] else b) ++ f.token env key v := by
  unfold TraditionFormatter.appendKeyValue TraditionFormatter.token
  rw [appendValue_eq]
  simp [List.append_assoc]

theorem token_ne_nil (f : TraditionFormatter) (env : Env) (key : GoString) (v : Value) :
    f.token env key v ≠ [] := by
  simp [TraditionFormatter.token]

theorem appendTokens_of_ne_nil (ts : List GoString) (b : GoString) (hb : b ≠ []) :
    appendTokens b ts = b ++ ts.flatMap (fun t => SP :: t) := by
  induction ts generalizing b with
  | nil => simp [appendTokens]
  | cons t ts ih =>
    have hlen : b.length > 0 := List.length_pos.mpr hb
    have : appendTokens b (t :: ts) = appendTokens (b ++ [SP] ++ t) ts := by
      simp [appendTokens, hlen]
    rw [this, ih _ (by simp)]
    simp [List.append_assoc]

theorem intercalate_cons_eq (t : GoString) (ts : List GoString) :
    List.intercalate [SP] (t :: ts) = t ++ ts.flatMap (fun x => SP :: x) := by
  induction ts generalizing t with
  | nil => simp [List.intercalate]
  | cons u us ih =>
    have := ih u
    simp [List.intercalate, List.intersperse] at this ⊢
    rw [this]

theorem appendTokens_nil (ts : List GoString) (h : ∀ t ∈ ts, t ≠ []) :
    appendTokens [] ts = List.intercalate [SP] ts := by
  cases ts with
  | nil => simp [appendTokens, List.intercalate]
  | cons t ts =>
    have : appendTokens [] (t :: ts) = appendTokens t ts := by simp [appendTokens]
    rw [this, appendTokens_of_ne_nil ts t (h t (by simp)), intercalate_cons_eq]

theorem appendTokens_append (b : GoString) (xs ys : List GoString) :
    appendTokens b (xs ++ ys) = appendTokens (appendTokens b xs) ys := by
  simp [appendTokens, List.foldl_append]

theorem appendTokens_single (b t : GoString) :
    appendTokens b [t] = (if b.length > 0 then b ++ [SP] else b) ++ t := by
  simp [appendTokens]

theorem foldl_appendKeyValue (f : TraditionFormatter) (env : Env) (entry : Entry)
    (keys : List GoString) (b : GoString) :
    keys.foldl (fun b key => f.appendKeyValue env b key (entry.Data.get key)) b =
      appendTokens b (keys.map (fun k => f.token env k (entry.Data.get k))) := by
  induction keys generalizing b with
  | nil => simp [appendTokens]
  | cons k ks ih =>
    simp only [List.foldl_cons, List.map_cons]
    rw [ih, appendKeyValue_eq]
    simp [appendTokens]

theorem appendKeyValue_tokens (f : TraditionFormatter) (env : Env) (b key : GoString)
    (v : Value) : f.appendKeyValue env b key v = appendTokens b [f.token env key v] := by
  rw [appendKeyValue_eq, appendTokens_single]

theorem foldl_token (f : TraditionFormatter) (env : Env) (entry : Entry)
    (keys : List GoString) (b : GoString) :
    keys.foldl (fun b key => appendTokens b [f.token env key (entry.Data.get key)]) b =
      appendTokens b (keys.map (fun k => f.token env k (entry.Data.get k))) := by
  induction keys generalizing b with
  | nil => simp [appendTokens]
  | cons k ks ih =>
    simp only [List.foldl_cons, List.map_cons]
    rw [ih]
    simp [appendTokens]

theorem printPlain_eq (f : TraditionFormatter) (p : Package) (env : Env) (entry : Entry)
    (b : GoString) :
    f.printPlain p env b entry (f.orderedKeys entry)
        (if f.TimestampFormat = [] then p.defaultTimestampFormat else f.TimestampFormat) =
      appendTokens b (f.plainTokens p env entry (f.FieldMap.resolve p.FieldKeyTime)
        (f.FieldMap.resolve p.FieldKeyLevel) (f.FieldMap.resolve p.FieldKeyMsg)) := by
  unfold TraditionFormatter.printPlain TraditionFormatter.plainTokens
  cases hT : f.DisableTimestamp <;> by_cases hm : entry.Message = [] <;>
    simp only [hm, appendKeyValue_tokens, foldl_token, appendTokens_append,
      Bool.not_false, Bool.not_true, if_true, if_false, ne_eq, not_true_eq_false,
      not_false_eq_true, List.nil_append, List.append_nil, Bool.false_eq_true]

theorem plainTokens_ne_nil (f : TraditionFormatter) (p : Package) (env : Env) (entry : Entry)
    (a b c : GoString) : ∀ t ∈ f.plainTokens p env entry a b c, t ≠ [] := by
  intro t ht
  unfold TraditionFormatter.plainTokens at ht
  simp only [List.mem_append, List.mem_map] at ht
  rcases ht with ((ht | ht) | ht) | ht
  · split at ht
    · simp at ht
    · simp at ht; rw [ht]; exact token_ne_nil _ _ _ _
  · simp at ht; rw [ht]; exact token_ne_nil _ _ _ _
  · obtain ⟨k, _, rfl⟩ := ht; exact token_ne_nil _ _ _ _
  · split at ht
    · simp at ht
    · simp at ht; rw [ht]; exact token_ne_nil _ _ _ _

/-- The line `Format` returns in plain mode for a record with an empty buffer. -/
theorem Format_plain_line (f : TraditionFormatter) (p : Package) (env : Env) (entry : Entry)
    (hc : (f.Do p entry).isColored env = false) (hb : entry.Buffer.getD [] = []) :
    (f.Format p env entry).2 = .ok (f.plainLine p env entry, none) := by
  rw [Format_of_not_colored f p env entry hc, printPlain_Do, printPlain_eq, hb,
    appendTokens_nil _ (plainTokens_ne_nil f p env entry _ _ _)]
  rfl

/-! ## The order of the keys -/

theorem strLess_irrefl (a : GoString) : strLess a a = false := by
  induction a with
  | nil => rfl
  | cons x xs ih => simp [strLess, ih]

theorem strLess_asymm (a b : GoString) (h : strLess a b = true) : strLess b a = false := by
  induction a generalizing b with
  | nil => cases b <;> simp_all [strLess]
  | cons x xs ih =>
    cases b with
    | nil => simp [strLess] at h
    | cons y ys =>
      simp only [strLess] at h ⊢
      by_cases h1 : x.val < y.val
      · have : ¬ y.val < x.val := by omega
        simp [this, h1]
      · by_cases h2 : y.val < x.val
        · simp [h1, h2] at h
        · simp only [h1, h2, if_false] at h ⊢
          exact ih ys h

theorem strLess_total (a b : GoString) (h1 : strLess a b = false) (h2 : strLess b a = false) :
    a = b := by
  induction a generalizing b with
  | nil => cases b <;> simp_all [strLess]
  | cons x xs ih =>
    cases b with
    | nil => simp [strLess] at h2
    | cons y ys =>
      simp only [strLess] at h1 h2
      by_cases hxy : x.val < y.val
      · simp [hxy] at h1
      · by_cases hyx : y.val < x.val
        · simp [hyx] at h2
        · simp only [hxy, hyx, if_false] at h1 h2
          have hv : x = y := Fin.ext (by omega)
          rw [hv, ih ys h1 h2]

theorem strLess_negTrans (a b c : GoString) (h1 : strLess b a = false)
    (h2 : strLess c b = false) : strLess c a = false := by
  induction a generalizing b c with
  | nil => cases c <;> cases b <;> simp_all [strLess]
  | cons x xs ih =>
    cases b with
    | nil => simp [strLess] at h1
    | cons y ys =>
      cases c with
      | nil => cases h2
      | cons z zs =>
        simp only [strLess] at h1 h2 ⊢
        by_cases hyx : y.val < x.val
        · simp [hyx] at h1
        · by_cases hzy : z.val < y.val
          · simp [hzy] at h2
          · by_cases hxy : x.val < y.val
            · have hzx : ¬ z.val < x.val := by omega
              have hxz : x.val < z.val ∨ ¬ x.val < z.val := by omega
              rcases hxz with hxz | hxz
              · simp [hzx, hxz]
              · omega
            · by_cases hyz : y.val < z.val
              · have hzx : ¬ z.val < x.val := by omega
                have hxz : x.val < z.val := by omega
                simp [hzx, hxz]
              · simp only [hyx, hxy, hzy, hyz, if_false] at h1 h2
                have hzx : ¬ z.val < x.val := by omega
                have hxz : ¬ x.val < z.val := by omega
                simp only [hzx, hxz, if_false]
                exact ih ys zs h1 h2

theorem sortStrings_perm (keys : List GoString) : (sortStrings keys).Perm keys :=
  List.perm_insertionSort strLE keys

theorem strLE_total (a b : GoString) : strLE a b ∨ strLE b a := by
  unfold strLE
  cases h : strLess b a
  · exact Or.inl rfl
  · exact Or.inr (strLess_asymm b a h)

theorem sortStrings_sorted (keys : List GoString) : (sortStrings keys).Pairwise strLE :=
  @List.sorted_insertionSort _ strLE _ ⟨strLE_total⟩
    ⟨fun a b c hab hbc => strLess_negTrans a b c hab hbc⟩ keys

theorem sortStrings_strict (keys : List GoString) (h : keys.Nodup) :
    (sortStrings keys).Pairwise (fun a b => strLess a b = true) := by
  have hn : (sortStrings keys).Nodup := (sortStrings_perm keys).nodup_iff.mpr h
  have hs := sortStrings_sorted keys
  refine (hs.and hn).imp ?_
  intro a b hab
  obtain ⟨h1, h2⟩ := hab
  cases h3 : strLess a b
  · exact absurd (strLess_total a b h3 h1) h2
  · rfl

/-! ## Facts about UTF-8 decoding -/

theorem first_ascii (b : Nat) (h : b < 0x80) : first b = 0xF0 := by
  simp [first, h]

theorem first_cont (b : Nat) (h1 : 0x80 ≤ b) (h2 : b < 0xC2) : first b = 0xF1 := by
  unfold first
  rw [if_neg (by omega), if_pos h2]

theorem first_two (b : Nat) (h1 : 0xC2 ≤ b) (h2 : b < 0xE0) : first b = 0x02 := by
  unfold first
  rw [if_neg (by omega), if_neg (by omega), if_pos h2]

theorem first_E0 : first 0xE0 = 0x13 := by decide

theorem first_three (b : Nat) (h1 : 0xE1 ≤ b) (h2 : b < 0xF0) (h3 : b ≠ 0xED) :
    first b = 0x03 := by
  unfold first
  rw [if_neg (by omega), if_neg (by omega), if_neg (by omega), if_neg (by omega)]
  by_cases h : b < 0xED
  · rw [if_pos h]
  · rw [if_neg h, if_neg h3, if_pos h2]

theorem first_ED : first 0xED = 0x23 := by decide

theorem first_F0 : first 0xF0 = 0x34 := by decide

theorem first_four (b : Nat) (h1 : 0xF1 ≤ b) (h2 : b < 0xF4) : first b = 0x04 := by
  unfold first
  repeat rw [if_neg (by omega)]
  rw [if_pos h2]

theorem first_F4 : first 0xF4 = 0x44 := by decide

theorem first_high (b : Nat) (h1 : 0xF5 ≤ b) : first b = 0xF1 := by
  unfold first
  repeat rw [if_neg (by omega)]

/-- The decoder after the table lookup: the result for a lead byte whose entry
in `first` is `x`. -/
theorem decode_cons (s0 : Byte) (t : GoString) :
    DecodeRuneInString (s0 :: t) =
      if first s0.val ≥ 0xF0 then (if first s0.val % 2 = 1 then RuneError else s0.val, 1)
      else if t.length + 1 < first s0.val % 8 then (RuneError, 1)
      else if byteAt t 0 < (acceptRanges (first s0.val / 16)).1 ∨
          (acceptRanges (first s0.val / 16)).2 < byteAt t 0 then (RuneError, 1)
      else if first s0.val % 8 ≤ 2 then ((s0.val % 32) * 64 + byteAt t 0 % 64, 2)
      else if byteAt t 1 < 0x80 ∨ 0xBF < byteAt t 1 then (RuneError, 1)
      else if first s0.val % 8 ≤ 3 then
        ((s0.val % 16) * 4096 + (byteAt t 0 % 64) * 64 + byteAt t 1 % 64, 3)
      else if byteAt t 2 < 0x80 ∨ 0xBF < byteAt t 2 then (RuneError, 1)
      else ((s0.val % 8) * 262144 + (byteAt t 0 % 64) * 4096 + (byteAt t 1 % 64) * 64 +
        byteAt t 2 % 64, 4) := by
  simp only [DecodeRuneInString, byteAt, List.length_cons, List.getD_cons_zero,
    List.getD_cons_succ]
  rw [if_neg (by omega)]

/-- The decoder on the continuation bytes of an encoding of size `sz` whose
second byte must lie in `lo..hi`. -/
theorem decode_multi (s0 : Byte) (t : GoString) (x lo hi : Nat) (hx : first s0.val = x)
    (hx1 : x < 0xF0) (hacc : acceptRanges (x / 16) = (lo, hi)) (hlo : 0x80 ≤ lo) :
    DecodeRuneInString (s0 :: t) = (RuneError, 1) ∨
    (x % 8 ≤ 2 ∧ ∃ s1 t1, t = s1 :: t1 ∧ lo ≤ s1.val ∧ s1.val ≤ hi ∧
      DecodeRuneInString (s0 :: t) = ((s0.val % 32) * 64 + s1.val % 64, 2)) ∨
    (x % 8 = 3 ∧ ∃ s1 s2 t2, t = s1 :: s2 :: t2 ∧ lo ≤ s1.val ∧ s1.val ≤ hi ∧
      0x80 ≤ s2.val ∧ s2.val ≤ 0xBF ∧
      DecodeRuneInString (s0 :: t) =
        ((s0.val % 16) * 4096 + (s1.val % 64) * 64 + s2.val % 64, 3)) ∨
    (3 < x % 8 ∧ ∃ s1 s2 s3 t3, t = s1 :: s2 :: s3 :: t3 ∧ lo ≤ s1.val ∧ s1.val ≤ hi ∧
      0x80 ≤ s2.val ∧ s2.val ≤ 0xBF ∧ 0x80 ≤ s3.val ∧ s3.val ≤ 0xBF ∧
      DecodeRuneInString (s0 :: t) =
        ((s0.val % 8) * 262144 + (s1.val % 64) * 4096 + (s2.val % 64) * 64 + s3.val % 64, 4)) := by
  rw [decode_cons, hx, hacc, if_neg (by omega)]
  by_cases c1 : t.length + 1 < x % 8
  · left; rw [if_pos c1]
  rw [if_neg c1]
  by_cases c2 : byteAt t 0 < lo ∨ hi < byteAt t 0
  · left; rw [if_pos c2]
  rw [if_neg c2]
  cases t with
  | nil => simp [byteAt] at c2; omega
  | cons s1 t1 =>
    have e1 : byteAt (s1 :: t1) 0 = s1.val := rfl
    rw [e1] at c2 ⊢
    by_cases c3 : x % 8 ≤ 2
    · right; left
      rw [if_pos c3]
      exact ⟨c3, s1, t1, rfl, by omega, by omega, rfl⟩
    rw [if_neg c3]
    by_cases c4 : byteAt (s1 :: t1) 1 < 0x80 ∨ 0xBF < byteAt (s1 :: t1) 1
    · left; rw [if_pos c4]
    rw [if_neg c4]
    cases t1 with
    | nil => simp [byteAt] at c4
    | cons s2 t2 =>
      have e2 : byteAt (s1 :: s2 :: t2) 1 = s2.val := rfl
      rw [e2] at c4 ⊢
      by_cases c5 : x % 8 ≤ 3
      · right; right; left
        rw [if_pos c5]
        exact ⟨by omega, s1, s2, t2, rfl, by omega, by omega, by omega, by omega, rfl⟩
      rw [if_neg c5]
      by_cases c6 : byteAt (s1 :: s2 :: t2) 2 < 0x80 ∨ 0xBF < byteAt (s1 :: s2 :: t2) 2
      · left; rw [if_pos c6]
      rw [if_neg c6]
      cases t2 with
      | nil => simp [byteAt] at c6
      | cons s3 t3 =>
        have e3 : byteAt (s1 :: s2 :: s3 :: t3) 2 = s3.val := rfl
        rw [e3] at c6 ⊢
        right; right; right
        exact ⟨by omega, s1, s2, s3, t3, rfl, by omega, by omega, by omega, by omega, by omega,
          by omega, rfl⟩

theorem decode_spec (s0 : Byte) (t : GoString) : Decoded s0 t (DecodeRuneInString (s0 :: t)) := by
  by_cases a1 : s0.val < 0x80
  · rw [decode_cons, first_ascii _ a1]
    simp only [ge_iff_le, le_refl, if_true]
    exact Decoded.ascii a1
  by_cases a2 : s0.val < 0xC2
  · rw [decode_cons, first_cont _ (by omega) a2]
    simp only [ge_iff_le, Nat.reduceLeDiff, Nat.reduceMod, if_true]
    exact Decoded.invalid (by omega)
  by_cases a3 : 0xF5 ≤ s0.val
  · rw [decode_cons, first_high _ a3]
    simp only [ge_iff_le, Nat.reduceLeDiff, Nat.reduceMod, if_true]
    exact Decoded.invalid (by omega)
  have hinv : Decoded s0 t (RuneError, 1) := Decoded.invalid (by omega)
  by_cases a4 : s0.val < 0xE0
  · rcases decode_multi s0 t 0x02 0x80 0xBF (first_two _ (by omega) a4) (by omega) rfl
      (by omega) with h | ⟨_, s1, t1, rfl, h1, h2, h⟩ | ⟨h, _⟩ | ⟨h, _⟩
    · rw [h]; exact hinv
    · rw [h]; exact Decoded.two s1 t1 rfl (by omega) (by omega) (by omega) (by omega)
    · omega
    · omega
  by_cases a5 : s0.val = 0xE0
  · rcases decode_multi s0 t 0x13 0xA0 0xBF (by rw [a5]; exact first_E0) (by omega) rfl
      (by omega) with
      h | ⟨h, _⟩ | ⟨_, s1, s2, t2, rfl, h1, h2, h3, h4, h⟩ | ⟨h, _⟩
    · rw [h]; exact hinv
    · omega
    · rw [h]
      exact Decoded.three s1 s2 t2 rfl (by omega) (by omega) (by omega) (by omega)
        (by omega) (by omega) (by omega) (by omega)
    · omega
  by_cases a6 : s0.val = 0xED
  · rcases decode_multi s0 t 0x23 0x80 0x9F (by rw [a6]; exact first_ED) (by omega) rfl
      (by omega) with
      h | ⟨h, _⟩ | ⟨_, s1, s2, t2, rfl, h1, h2, h3, h4, h⟩ | ⟨h, _⟩
    · rw [h]; exact hinv
    · omega
    · rw [h]
      exact Decoded.three s1 s2 t2 rfl (by omega) (by omega) (by omega) (by omega)
        (by omega) (by omega) (by omega) (by omega)
    · omega
  by_cases a7 : s0.val < 0xF0
  · rcases decode_multi s0 t 0x03 0x80 0xBF (first_three _ (by omega) a7 a6) (by omega) rfl
      (by omega) with
      h | ⟨h, _⟩ | ⟨_, s1, s2, t2, rfl, h1, h2, h3, h4, h⟩ | ⟨h, _⟩
    · rw [h]; exact hinv
    · omega
    · rw [h]
      exact Decoded.three s1 s2 t2 rfl (by omega) (by omega) (by omega) (by omega)
        (by omega) (by omega) (by omega) (by omega)
    · omega
  by_cases a8 : s0.val = 0xF0
  · rcases decode_multi s0 t 0x34 0x90 0xBF (by rw [a8]; exact first_F0) (by omega) rfl
      (by omega) with
      h | ⟨h, _⟩ | ⟨h, _⟩ | ⟨_, s1, s2, s3, t3, rfl, h1, h2, h3, h4, h5, h6, h⟩
    · rw [h]; exact hinv
    · omega
    · omega
    · rw [h]
      exact Decoded.four s1 s2 s3 t3 rfl (by omega) (by omega) (by omega) (by omega)
        (by omega) (by omega) (by omega) (by omega) (by omega) (by omega)
  by_cases a9 : s0.val = 0xF4
  · rcases decode_multi s0 t 0x44 0x80 0x8F (by rw [a9]; exact first_F4) (by omega) rfl
      (by omega) with
      h | ⟨h, _⟩ | ⟨h, _⟩ | ⟨_, s1, s2, s3, t3, rfl, h1, h2, h3, h4, h5, h6, h⟩
    · rw [h]; exact hinv
    · omega
    · omega
    · rw [h]
      exact Decoded.four s1 s2 s3 t3 rfl (by omega) (by omega) (by omega) (by omega)
        (by omega) (by omega) (by omega) (by omega) (by omega) (by omega)
  · rcases decode_multi s0 t 0x04 0x80 0xBF (first_four _ (by omega) (by omega)) (by omega) rfl
      (by omega) with
      h | ⟨h, _⟩ | ⟨h, _⟩ | ⟨_, s1, s2, s3, t3, rfl, h1, h2, h3, h4, h5, h6, h⟩
    · rw [h]; exact hinv
    · omega
    · omega
    · rw [h]
      exact Decoded.four s1 s2 s3 t3 rfl (by omega) (by omega) (by omega) (by omega)
        (by omega) (by omega) (by omega) (by omega) (by omega) (by omega)

theorem toByte_eq (n : Nat) (b : Byte) (h : n = b.val) : toByte n = b := by
  apply Fin.ext
  show n % 256 = b.val
  omega

/-- A valid two-byte encoding decodes to its rune whatever follows it. -/
theorem decode_two_eq (s0 s1 : Byte) (t : GoString) (h1 : 0xC2 ≤ s0.val) (h2 : s0.val ≤ 0xDF)
    (h3 : 0x80 ≤ s1.val) (h4 : s1.val ≤ 0xBF) :
    DecodeRuneInString (s0 :: s1 :: t) = ((s0.val % 32) * 64 + s1.val % 64, 2) := by
  have e1 : byteAt (s1 :: t) 0 = s1.val := rfl
  rw [decode_cons, first_two _ h1 (by omega), e1]
  have ha : acceptRanges (0x02 / 16) = (0x80, 0xBF) := rfl
  rw [ha, if_neg (by omega), if_neg (by simp), if_neg (by simp only; omega), if_pos (by omega)]

theorem decode_three_aux (s0 s1 s2 : Byte) (t : GoString) (x lo hi : Nat)
    (hx : first s0.val = x) (hx1 : x < 0xF0) (hsz : x % 8 = 3)
    (hacc : acceptRanges (x / 16) = (lo, hi)) (h1 : lo ≤ s1.val) (h2 : s1.val ≤ hi)
    (h3 : 0x80 ≤ s2.val) (h4 : s2.val ≤ 0xBF) :
    DecodeRuneInString (s0 :: s1 :: s2 :: t) =
      ((s0.val % 16) * 4096 + (s1.val % 64) * 64 + s2.val % 64, 3) := by
  have e1 : byteAt (s1 :: s2 :: t) 0 = s1.val := rfl
  have e2 : byteAt (s1 :: s2 :: t) 1 = s2.val := rfl
  rw [decode_cons, hx, hacc, e1, e2, if_neg (by omega),
    if_neg (by simp only [List.length_cons]; omega), if_neg (by simp only; omega),
    if_neg (by omega), if_neg (by omega), if_pos (by omega)]

/-- A valid three-byte encoding decodes to its rune whatever follows it. -/
theorem decode_three_eq (s0 s1 s2 : Byte) (t : GoString) (h1 : 0xE0 ≤ s0.val)
    (h2 : s0.val ≤ 0xEF) (h3 : 0x80 ≤ s1.val) (h4 : s1.val ≤ 0xBF)
    (h5 : s0.val = 0xE0 → 0xA0 ≤ s1.val) (h6 : s0.val = 0xED → s1.val ≤ 0x9F)
    (h7 : 0x80 ≤ s2.val) (h8 : s2.val ≤ 0xBF) :
    DecodeRuneInString (s0 :: s1 :: s2 :: t) =
      ((s0.val % 16) * 4096 + (s1.val % 64) * 64 + s2.val % 64, 3) := by
  by_cases a : s0.val = 0xE0
  · exact decode_three_aux s0 s1 s2 t 0x13 0xA0 0xBF (by rw [a]; exact first_E0) (by omega) rfl
      rfl (h5 a) h4 h7 h8
  by_cases b : s0.val = 0xED
  · exact decode_three_aux s0 s1 s2 t 0x23 0x80 0x9F (by rw [b]; exact first_ED) (by omega) rfl
      rfl h3 (h6 b) h7 h8
  exact decode_three_aux s0 s1 s2 t 0x03 0x80 0xBF (first_three _ (by omega) (by omega) b)
    (by omega) rfl rfl h3 h4 h7 h8

theorem decode_four_aux (s0 s1 s2 s3 : Byte) (t : GoString) (x lo hi : Nat)
    (hx : first s0.val = x) (hx1 : x < 0xF0) (hsz : x % 8 = 4)
    (hacc : acceptRanges (x / 16) = (lo, hi)) (h1 : lo ≤ s1.val) (h2 : s1.val ≤ hi)
    (h3 : 0x80 ≤ s2.val) (h4 : s2.val ≤ 0xBF) (h5 : 0x80 ≤ s3.val) (h6 : s3.val ≤ 0xBF) :
    DecodeRuneInString (s0 :: s1 :: s2 :: s3 :: t) =
      ((s0.val % 8) * 262144 + (s1.val % 64) * 4096 + (s2.val % 64) * 64 + s3.val % 64, 4) := by
  have e1 : byteAt (s1 :: s2 :: s3 :: t) 0 = s1.val := rfl
  have e2 : byteAt (s1 :: s2 :: s3 :: t) 1 = s2.val := rfl
  have e3 : byteAt (s1 :: s2 :: s3 :: t) 2 = s3.val := rfl
  rw [decode_cons, hx, hacc, e1, e2, e3, if_neg (by omega),
    if_neg (by simp only [List.length_cons]; omega), if_neg (by simp only; omega),
    if_neg (by omega), if_neg (by omega), if_neg (by omega), if_neg (by omega)]

/-- A valid four-byte encoding decodes to its rune whatever follows it. -/
theorem decode_four_eq (s0 s1 s2 s3 : Byte) (t : GoString) (h1 : 0xF0 ≤ s0.val)
    (h2 : s0.val ≤ 0xF4) (h3 : 0x80 ≤ s1.val) (h4 : s1.val ≤ 0xBF)
    (h5 : s0.val = 0xF0 → 0x90 ≤ s1.val) (h6 : s0.val = 0xF4 → s1.val ≤ 0x8F)
    (h7 : 0x80 ≤ s2.val) (h8 : s2.val ≤ 0xBF) (h9 : 0x80 ≤ s3.val) (h10 : s3.val ≤ 0xBF) :
    DecodeRuneInString (s0 :: s1 :: s2 :: s3 :: t) =
      ((s0.val % 8) * 262144 + (s1.val % 64) * 4096 + (s2.val % 64) * 64 + s3.val % 64, 4) := by
  by_cases a : s0.val = 0xF0
  · exact decode_four_aux s0 s1 s2 s3 t 0x34 0x90 0xBF (by rw [a]; exact first_F0) (by omega)
      rfl rfl (h5 a) h4 h7 h8 h9 h10
  by_cases b : s0.val = 0xF4
  · exact decode_four_aux s0 s1 s2 s3 t 0x44 0x80 0x8F (by rw [b]; exact first_F4) (by omega)
      rfl rfl h3 (h6 b) h7 h8 h9 h10
  exact decode_four_aux s0 s1 s2 s3 t 0x04 0x80 0xBF (first_four _ (by omega) (by omega))
    (by omega) rfl rfl h3 h4 h7 h8 h9 h10

theorem chunk_two (s0 s1 : Byte) (h1 : 0xC2 ≤ s0.val) (h2 : s0.val ≤ 0xDF)
    (h3 : 0x80 ≤ s1.val) (h4 : s1.val ≤ 0xBF) :
    Chunk ((s0.val % 32) * 64 + s1.val % 64, [s0, s1]) := by
  refine Chunk.multi _ _ (by omega) ?_ ?_ ?_ ?_
  · simp only [ValidRune]; rw [if_pos (by omega)]
  · unfold AppendRune
    rw [if_neg (by omega), if_pos (by omega), toByte_eq _ s0 (by omega),
      toByte_eq _ s1 (by omega)]
  · intro b hb
    simp only [List.mem_cons, List.mem_singleton, List.not_mem_nil, or_false] at hb
    rcases hb with rfl | rfl <;> omega
  · intro t
    exact decode_two_eq s0 s1 t h1 h2 h3 h4

theorem chunk_three (s0 s1 s2 : Byte) (h1 : 0xE0 ≤ s0.val)
    (h2 : s0.val ≤ 0xEF) (h3 : 0x80 ≤ s1.val) (h4 : s1.val ≤ 0xBF)
    (h5 : s0.val = 0xE0 → 0xA0 ≤ s1.val) (h6 : s0.val = 0xED → s1.val ≤ 0x9F)
    (h7 : 0x80 ≤ s2.val) (h8 : s2.val ≤ 0xBF) :
    Chunk ((s0.val % 16) * 4096 + (s1.val % 64) * 64 + s2.val % 64, [s0, s1, s2]) := by
  have hE0 : s0.val = 0xE0 ∨ s0.val ≠ 0xE0 := by omega
  have hED : s0.val = 0xED ∨ s0.val ≠ 0xED := by omega
  have hlo : 0x800 ≤ (s0.val % 16) * 4096 + (s1.val % 64) * 64 + s2.val % 64 := by
    rcases hE0 with a | a
    · have := h5 a; omega
    · omega
  have hsur : (s0.val % 16) * 4096 + (s1.val % 64) * 64 + s2.val % 64 < 0xD800 ∨
      0xDFFF < (s0.val % 16) * 4096 + (s1.val % 64) * 64 + s2.val % 64 := by
    rcases hED with a | a
    · have := h6 a; omega
    · omega
  refine Chunk.multi _ _ (by omega) ?_ ?_ ?_ ?_
  · simp only [ValidRune, MaxRune]
    rcases hsur with a | a
    · rw [if_pos a]
    · rw [if_neg (by omega), if_pos (by omega)]
  · unfold AppendRune
    simp only [MaxRune]
    rw [if_neg (by omega), if_neg (by omega), if_neg (by omega), if_pos (by omega),
      toByte_eq _ s0 (by omega), toByte_eq _ s1 (by omega), toByte_eq _ s2 (by omega)]
  · intro b hb
    simp only [List.mem_cons, List.mem_singleton, List.not_mem_nil, or_false] at hb
    rcases hb with rfl | rfl | rfl <;> omega
  · intro t
    exact decode_three_eq s0 s1 s2 t h1 h2 h3 h4 h5 h6 h7 h8

theorem chunk_four (s0 s1 s2 s3 : Byte) (h1 : 0xF0 ≤ s0.val)
    (h2 : s0.val ≤ 0xF4) (h3 : 0x80 ≤ s1.val) (h4 : s1.val ≤ 0xBF)
    (h5 : s0.val = 0xF0 → 0x90 ≤ s1.val) (h6 : s0.val = 0xF4 → s1.val ≤ 0x8F)
    (h7 : 0x80 ≤ s2.val) (h8 : s2.val ≤ 0xBF) (h9 : 0x80 ≤ s3.val) (h10 : s3.val ≤ 0xBF) :
    Chunk ((s0.val % 8) * 262144 + (s1.val % 64) * 4096 + (s2.val % 64) * 64 + s3.val % 64,
      [s0, s1, s2, s3]) := by
  have hF0 : s0.val = 0xF0 ∨ s0.val ≠ 0xF0 := by omega
  have hF4 : s0.val = 0xF4 ∨ s0.val ≠ 0xF4 := by omega
  have hlo : 0x10000 ≤
      (s0.val % 8) * 262144 + (s1.val % 64) * 4096 + (s2.val % 64) * 64 + s3.val % 64 := by
    rcases hF0 with a | a
    · have := h5 a; omega
    · omega
  have hhi : (s0.val % 8) * 262144 + (s1.val % 64) * 4096 + (s2.val % 64) * 64 + s3.val % 64 ≤
      0x10FFFF := by
    rcases hF4 with a | a
    · have := h6 a; omega
    · omega
  refine Chunk.multi _ _ (by omega) ?_ ?_ ?_ ?_
  · simp only [ValidRune, MaxRune]
    rw [if_neg (by omega), if_pos (by omega)]
  · unfold AppendRune
    simp only [MaxRune]
    rw [if_neg (by omega), if_neg (by omega), if_neg (by omega), if_neg (by omega),
      toByte_eq _ s0 (by omega), toByte_eq _ s1 (by omega), toByte_eq _ s2 (by omega),
      toByte_eq _ s3 (by omega)]
  · intro b hb
    simp only [List.mem_cons, List.mem_singleton, List.not_mem_nil, or_false] at hb
    rcases hb with rfl | rfl | rfl | rfl <;> omega
  · intro t
    exact decode_four_eq s0 s1 s2 s3 t h1 h2 h3 h4 h5 h6 h7 h8 h9 h10

/-- The decoder splits a non-empty string into a chunk and the rest. -/
theorem decode_chunk (s0 : Byte) (t : GoString) :
    ∃ bs rest, s0 :: t = bs ++ rest ∧ Chunk ((DecodeRuneInString (s0 :: t)).1, bs) ∧
      (DecodeRuneInString (s0 :: t)).2 = bs.length ∧ 1 ≤ bs.length := by
  have h := decode_spec s0 t
  generalize DecodeRuneInString (s0 :: t) = d at h
  cases h with
  | ascii h1 => exact ⟨[s0], t, rfl, Chunk.ascii s0 h1, rfl, by simp⟩
  | invalid h1 => exact ⟨[s0], t, rfl, Chunk.invalid s0 h1, rfl, by simp⟩
  | two s1 t1 e h1 h2 h3 h4 =>
    exact ⟨[s0, s1], t1, by rw [e]; rfl, chunk_two s0 s1 h1 h2 h3 h4, rfl, by simp⟩
  | three s1 s2 t2 e h1 h2 h3 h4 h5 h6 h7 h8 =>
    exact ⟨[s0, s1, s2], t2, by rw [e]; rfl, chunk_three s0 s1 s2 h1 h2 h3 h4 h5 h6 h7 h8, rfl,
      by simp⟩
  | four s1 s2 s3 t3 e h1 h2 h3 h4 h5 h6 h7 h8 h9 h10 =>
    exact ⟨[s0, s1, s2, s3], t3, by rw [e]; rfl,
      chunk_four s0 s1 s2 s3 h1 h2 h3 h4 h5 h6 h7 h8 h9 h10, rfl, by simp⟩

theorem chunksFuel_nil (fuel : Nat) : chunksFuel fuel [] = [] := by
  cases fuel <;> simp [chunksFuel]

theorem chunksFuel_cons (fuel : Nat) (s0 : Byte) (t : GoString) :
    chunksFuel (fuel + 1) (s0 :: t) =
      ((DecodeRuneInString (s0 :: t)).1, (s0 :: t).take (DecodeRuneInString (s0 :: t)).2) ::
        chunksFuel fuel ((s0 :: t).drop (DecodeRuneInString (s0 :: t)).2) := by
  simp [chunksFuel]

/-- Fuel beyond the length of the string changes nothing. -/
theorem chunksFuel_fuel (f1 f2 : Nat) (s : GoString) (h1 : s.length ≤ f1) (h2 : s.length ≤ f2) :
    chunksFuel f1 s = chunksFuel f2 s := by
  induction f1 generalizing f2 s with
  | zero =>
    have : s = [] := List.length_eq_zero.mp (by omega)
    rw [this, chunksFuel_nil, chunksFuel_nil]
  | succ n ih =>
    cases s with
    | nil => rw [chunksFuel_nil, chunksFuel_nil]
    | cons s0 t =>
      cases f2 with
      | zero => simp at h2
      | succ m =>
        rw [chunksFuel_cons, chunksFuel_cons]
        obtain ⟨bs, rest, e, _, hw, hpos⟩ := decode_chunk s0 t
        have hl : ((s0 :: t).drop (DecodeRuneInString (s0 :: t)).2).length ≤ t.length := by
          rw [List.length_drop, hw]
          simp only [List.length_cons]
          omega
        simp only [List.length_cons] at h1 h2
        rw [ih m _ (by omega) (by omega)]

/-- The walk over a string that starts with a chunk of its own decoding. -/
theorem chunks_cons (s0 : Byte) (t : GoString) :
    ∃ r bs rest, s0 :: t = bs ++ rest ∧ Chunk (r, bs) ∧ 1 ≤ bs.length ∧
      DecodeRuneInString (s0 :: t) = (r, bs.length) ∧
      chunks (s0 :: t) = (r, bs) :: chunks rest := by
  obtain ⟨bs, rest, e, hc, hw, hpos⟩ := decode_chunk s0 t
  refine ⟨(DecodeRuneInString (s0 :: t)).1, bs, rest, e, hc, hpos, ?_, ?_⟩
  · rw [← hw]
  · unfold chunks
    rw [List.length_cons, chunksFuel_cons, hw, e, List.take_left, List.drop_left]
    have hl : rest.length ≤ t.length := by
      have := congrArg List.length e
      simp only [List.length_cons, List.length_append] at this
      omega
    rw [chunksFuel_fuel t.length rest.length rest hl (le_refl _)]

/-- Induction along the walk over a string. -/
theorem chunks_induction (P : GoString → Prop) (h0 : P [])
    (hstep : ∀ r bs rest, Chunk (r, bs) → 1 ≤ bs.length →
      chunks (bs ++ rest) = (r, bs) :: chunks rest → P rest → P (bs ++ rest)) :
    ∀ s, P s := by
  suffices h : ∀ n, ∀ s : GoString, s.length = n → P s from fun s => h s.length s rfl
  intro n
  induction n using Nat.strong_induction_on with
  | _ n ih =>
    intro s hn
    cases s with
    | nil => exact h0
    | cons s0 t =>
      obtain ⟨r, bs, rest, e, hc, hpos, _, hch⟩ := chunks_cons s0 t
      rw [e] at hch ⊢
      have hl : rest.length < n := by
        have := congrArg List.length e
        simp only [List.length_cons, List.length_append] at this hn
        omega
      exact hstep r bs rest hc hpos hch (ih rest.length hl rest rfl)

theorem chunks_nil : chunks [] = [] := rfl

/-- The chunks of a string are chunks, and their bytes make up the string. -/
theorem chunks_spec (s : GoString) :
    (∀ c ∈ chunks s, Chunk c) ∧ (chunks s).flatMap (fun c => c.2) = s := by
  induction s using chunks_induction with
  | h0 => simp [chunks_nil]
  | hstep r bs rest hc hpos hch ih =>
    rw [hch]
    refine ⟨?_, ?_⟩
    · intro c hcm
      rcases List.mem_cons.mp hcm with rfl | h
      · exact hc
      · exact ih.1 c h
    · rw [List.flatMap_cons, ih.2]

/-! ## Quoting and the bytes of a value -/

theorem safeRune_bounds (c : Nat) (h : safeRune c = true) :
    0x2B ≤ c ∧ c ≤ 0x7A ∧ c ≠ 0x5C := by
  simp only [safeRune, Bool.or_eq_true, Bool.and_eq_true, decide_eq_true_eq] at h
  omega

theorem RuneError_not_safe : safeRune RuneError = false := by decide

/-- A chunk whose rune is in the safe set is that one ASCII byte. -/
theorem chunk_safe (c : Nat × GoString) (hc : Chunk c) (h : safeRune c.1 = true) :
    ∃ b : Byte, c = (b.val, [b]) ∧ safeRune b.val = true := by
  cases hc with
  | ascii b hb => exact ⟨b, rfl, h⟩
  | invalid b hb => rw [RuneError_not_safe] at h; cases h
  | multi r bs h1 _ _ _ _ =>
    have := safeRune_bounds r h
    omega

theorem AppendRune_length (r : Nat) (h : 0x80 ≤ r) : 2 ≤ (AppendRune r).length := by
  unfold AppendRune
  rw [if_neg (by omega)]
  split_ifs <;> simp

/-- A chunk whose rune is outside the safe set holds a byte outside it. -/
theorem chunk_unsafe (c : Nat × GoString) (hc : Chunk c) (h : safeRune c.1 = false) :
    ∃ b ∈ c.2, safeRune b.val = false := by
  cases hc with
  | ascii b hb => exact ⟨b, by simp, h⟩
  | invalid b hb =>
    refine ⟨b, by simp, ?_⟩
    cases hs : safeRune b.val
    · rfl
    · have := safeRune_bounds _ hs; omega
  | multi r bs h1 _ ha hb hd =>
    have hne : bs ≠ [] := by
      intro e
      have := AppendRune_length r h1
      rw [ha, e] at this
      simp at this
    obtain ⟨b, t, rfl⟩ := List.exists_cons_of_ne_nil hne
    refine ⟨b, by simp, ?_⟩
    cases hs : safeRune b.val
    · rfl
    · have := safeRune_bounds _ hs
      have := hb b (by simp)
      omega

/-- Some rune of a string is outside the safe set exactly when some byte is. -/
theorem any_unsafe_rune_iff (s : GoString) :
    (chunks s).any (fun c => !safeRune c.1) = true ↔ ∃ b ∈ s, safeRune b.val = false := by
  have hs := chunks_spec s
  constructor
  · intro h
    obtain ⟨c, hc, hu⟩ := List.any_eq_true.mp h
    simp only [Bool.not_eq_true'] at hu
    obtain ⟨b, hb, hbu⟩ := chunk_unsafe c (hs.1 c hc) hu
    refine ⟨b, ?_, hbu⟩
    rw [← hs.2]
    exact List.mem_flatMap.mpr ⟨c, hc, hb⟩
  · rintro ⟨b, hb, hbu⟩
    rw [← hs.2] at hb
    obtain ⟨c, hc, hbc⟩ := List.mem_flatMap.mp hb
    refine List.any_eq_true.mpr ⟨c, hc, ?_⟩
    simp only [Bool.not_eq_true']
    cases hsafe : safeRune c.1
    · rfl
    · obtain ⟨b', rfl, hb'⟩ := chunk_safe c (hs.1 c hc) hsafe
      simp only [List.mem_singleton] at hbc
      rw [hbc, hb'] at hbu
      cases hbu

/-- `needsQuoting` in terms of the bytes of the text. -/
theorem needsQuoting_iff (f : TraditionFormatter) (text : GoString) :
    f.needsQuoting text = true ↔
      (f.QuoteEmptyFields = true ∧ text = []) ∨ ∃ b ∈ text, safeRune b.val = false := by
  unfold TraditionFormatter.needsQuoting
  by_cases h : (f.QuoteEmptyFields && decide (text.length = 0)) = true
  · rw [if_pos h]
    simp only [Bool.and_eq_true, decide_eq_true_eq, List.length_eq_zero] at h
    simp [h]
  · rw [if_neg h, any_unsafe_rune_iff]
    simp only [Bool.and_eq_true, decide_eq_true_eq, List.length_eq_zero] at h
    constructor
    · intro h'; exact Or.inr h'
    · rintro (h' | h')
      · exact absurd h' h
      · exact h'

theorem needsQuoting_false_bytes (f : TraditionFormatter) (text : GoString)
    (h : f.needsQuoting text = false) : ∀ b ∈ text, safeRune b.val = true := by
  intro b hb
  cases hs : safeRune b.val
  · have := (needsQuoting_iff f text).mpr (Or.inr ⟨b, hb, hs⟩)
    rw [h] at this; cases this
  · rfl


theorem toByte_val (n : Nat) : (toByte n).val = n % 256 := rfl

theorem lowerhex_range : ∀ i, i < 16 → 0x30 ≤ (lowerhex i).val ∧ (lowerhex i).val ≤ 0x66 := by
  decide

theorem visible_lowerhex (i : Nat) (h : i < 16) : visible (lowerhex i) := by
  have := lowerhex_range i h
  unfold visible
  omega

theorem hexEscape_visible (n : Nat) (h : n < 256) : ∀ b ∈ hexEscape n, visible b := by
  intro b hb
  simp only [hexEscape, List.mem_cons, List.mem_singleton, List.not_mem_nil, or_false] at hb
  rcases hb with rfl | rfl | rfl | rfl
  · decide
  · decide
  · exact visible_lowerhex _ (by omega)
  · exact visible_lowerhex _ (by omega)

theorem AppendRune_high (r : Nat) (h : 0x80 ≤ r) : ∀ b ∈ AppendRune r, 0x80 ≤ b.val := by
  unfold AppendRune
  simp only [MaxRune, RuneError]
  rw [if_neg (by omega)]
  split_ifs <;>
    simp only [List.mem_cons, List.mem_singleton, List.not_mem_nil, or_false, forall_eq_or_imp,
      forall_eq, toByte_val] <;> omega

theorem AppendRune_print_visible (table : Nat → Bool) (r : Nat) (h : IsPrint table r = true) :
    ∀ b ∈ AppendRune r, visible b := by
  intro b hb
  by_cases hr : 0x80 ≤ r
  · have := AppendRune_high r hr b hb
    unfold visible; omega
  · have h1 : 0x20 ≤ r ∧ r ≤ 0x7E := by
      unfold IsPrint at h
      rw [if_pos (by omega)] at h
      by_contra hc
      rw [if_neg hc, if_neg (by omega)] at h
      cases h
    unfold AppendRune at hb
    rw [if_pos (by omega)] at hb
    simp only [List.mem_singleton] at hb
    rw [hb]
    unfold visible
    rw [toByte_val]
    omega

theorem IsPrint_ascii (table : Nat → Bool) (r : Nat) (h1 : 0x20 ≤ r) (h2 : r ≤ 0x7E) :
    IsPrint table r = true := by
  unfold IsPrint
  rw [if_pos (by omega), if_pos ⟨h1, h2⟩]

theorem appendEscapedRune_spec (table : Nat → Bool) (r : Nat) :
    EscapedRune table r (appendEscapedRune table r) := by
  have hv : DQ.val = 0x22 := rfl
  have hw : BSL.val = 0x5C := rfl
  by_cases h1 : r = DQ.val ∨ r = BSL.val
  · unfold appendEscapedRune
    rw [if_pos h1]
    exact EscapedRune.backslashed (by omega)
  by_cases h2 : IsPrint table r = true
  · unfold appendEscapedRune
    rw [if_neg h1, if_pos h2]
    exact EscapedRune.printable (by omega) (by omega) h2
  have h2' : IsPrint table r = false := by
    cases h : IsPrint table r
    · rfl
    · exact absurd h h2
  by_cases h3 : r = 0x07
  · unfold appendEscapedRune
    rw [if_neg h1, if_neg h2, if_pos h3]
    exact EscapedRune.simple _ h2' (by rw [h3]; rfl)
  by_cases h4 : r = 0x08
  · unfold appendEscapedRune
    rw [if_neg h1, if_neg h2, if_neg h3, if_pos h4]
    exact EscapedRune.simple _ h2' (by rw [h4]; rfl)
  by_cases h5 : r = 0x0C
  · unfold appendEscapedRune
    rw [if_neg h1, if_neg h2, if_neg h3, if_neg h4, if_pos h5]
    exact EscapedRune.simple _ h2' (by rw [h5]; rfl)
  by_cases h6 : r = 0x0A
  · unfold appendEscapedRune
    rw [if_neg h1, if_neg h2, if_neg h3, if_neg h4, if_neg h5, if_pos h6]
    exact EscapedRune.simple _ h2' (by rw [h6]; rfl)
  by_cases h7 : r = 0x0D
  · unfold appendEscapedRune
    rw [if_neg h1, if_neg h2, if_neg h3, if_neg h4, if_neg h5, if_neg h6, if_pos h7]
    exact EscapedRune.simple _ h2' (by rw [h7]; rfl)
  by_cases h8 : r = 0x09
  · unfold appendEscapedRune
    rw [if_neg h1, if_neg h2, if_neg h3, if_neg h4, if_neg h5, if_neg h6, if_neg h7, if_pos h8]
    exact EscapedRune.simple _ h2' (by rw [h8]; rfl)
  by_cases h9 : r = 0x0B
  · unfold appendEscapedRune
    rw [if_neg h1, if_neg h2, if_neg h3, if_neg h4, if_neg h5, if_neg h6, if_neg h7, if_neg h8,
      if_pos h9]
    exact EscapedRune.simple _ h2' (by rw [h9]; rfl)
  have hs : simpleEscape r = none := by
    unfold simpleEscape
    rw [if_neg h3, if_neg h4, if_neg h5, if_neg h6, if_neg h7, if_neg h8, if_neg h9]
  by_cases h10 : r < 0x20 ∨ r = 0x7F
  · unfold appendEscapedRune
    rw [if_neg h1, if_neg h2, if_neg h3, if_neg h4, if_neg h5, if_neg h6, if_neg h7, if_neg h8,
      if_neg h9, if_pos h10]
    exact EscapedRune.hex h2' hs h10
  have hr : 0x7F < r := by
    by_contra hc
    exact h2 (IsPrint_ascii table r (by omega) (by omega))
  by_cases h11 : (if ValidRune r then r else RuneError) < 0x10000
  · unfold appendEscapedRune
    rw [if_neg h1, if_neg h2, if_neg h3, if_neg h4, if_neg h5, if_neg h6, if_neg h7, if_neg h8,
      if_neg h9, if_neg h10]
    dsimp only
    rw [if_pos h11]
    exact EscapedRune.u4 _ h2' hr rfl h11
  · unfold appendEscapedRune
    rw [if_neg h1, if_neg h2, if_neg h3, if_neg h4, if_neg h5, if_neg h6, if_neg h7, if_neg h8,
      if_neg h9, if_neg h10]
    dsimp only
    rw [if_neg h11]
    exact EscapedRune.u8 _ h2' hr rfl (by omega)

theorem simpleEscape_visible (r : Nat) (e : Byte) (h : simpleEscape r = some e) : visible e := by
  unfold simpleEscape at h
  split_ifs at h <;> (cases h; decide)

theorem appendEscapedRune_visible (table : Nat → Bool) (r : Nat) :
    ∀ b ∈ appendEscapedRune table r, visible b := by
  have h := appendEscapedRune_spec table r
  generalize appendEscapedRune table r = out at h
  cases h with
  | backslashed h1 =>
    intro b hb
    simp only [List.mem_cons, List.mem_singleton, List.not_mem_nil, or_false] at hb
    rcases hb with rfl | rfl
    · decide
    · unfold visible
      rw [toByte_val]
      omega
  | printable _ _ h1 => exact AppendRune_print_visible table r h1
  | simple e _ h1 =>
    intro b hb
    simp only [List.mem_cons, List.mem_singleton, List.not_mem_nil, or_false] at hb
    rcases hb with rfl | rfl
    · decide
    · exact simpleEscape_visible r _ h1
  | hex _ _ _ => exact hexEscape_visible _ (Nat.mod_lt _ (by decide))
  | u4 v _ _ _ _ =>
    intro b hb
    simp only [List.mem_cons, List.mem_singleton, List.not_mem_nil, or_false] at hb
    rcases hb with rfl | rfl | rfl | rfl | rfl | rfl
    · decide
    · decide
    all_goals exact visible_lowerhex _ (Nat.mod_lt _ (by decide))
  | u8 v _ _ _ _ =>
    intro b hb
    simp only [List.mem_cons, List.mem_singleton, List.not_mem_nil, or_false] at hb
    rcases hb with rfl | rfl | rfl | rfl | rfl | rfl | rfl | rfl | rfl | rfl
    · decide
    · decide
    all_goals exact visible_lowerhex _ (Nat.mod_lt _ (by decide))

theorem quoteChunk_visible (table : Nat → Bool) (c : Nat × GoString) :
    ∀ b ∈ quoteChunk table c, visible b := by
  unfold quoteChunk
  split_ifs
  · exact hexEscape_visible _ (by unfold byteAt; omega)
  · exact appendEscapedRune_visible table c.1

/-- The quoted form of a string is made of visible bytes only: no line feed and
no other control character. -/
theorem Quote_visible (table : Nat → Bool) (s : GoString) : ∀ b ∈ Quote table s, visible b := by
  intro b hb
  simp only [Quote, List.mem_append, List.mem_singleton, List.mem_flatMap, List.mem_cons,
    List.not_mem_nil, or_false] at hb
  rcases hb with (rfl | ⟨c, _, hb⟩) | rfl
  · decide
  · exact quoteChunk_visible table c b hb
  · decide

/-! ## The text of a value -/

theorem safeRune_iff_safeSet (c : Nat) : safeRune c = true ↔ c ∈ safeSet := by
  have hsmall : ∀ c, c < 128 → (safeRune c = true ↔ c ∈ safeSet) := by decide
  by_cases h : c < 128
  · exact hsmall c h
  · constructor
    · intro hs
      have := safeRune_bounds c hs
      omega
    · intro hm
      have hall : ∀ x ∈ safeSet, x < 128 := by decide
      exact absurd (hall c hm) h

theorem safe_visible (b : Byte) (h : safeRune b.val = true) : visible b := by
  have := safeRune_bounds b.val h
  unfold visible
  omega

theorem Quote_nil (table : Nat → Bool) : Quote table [] = [DQ, DQ] := rfl

theorem valueText_visible (f : TraditionFormatter) (env : Env) (v : Value) :
    ∀ b ∈ f.valueText env v, visible b := by
  rw [valueText_def]
  cases h : f.needsQuoting (Sprint v)
  · intro b hb
    simp only [Bool.false_eq_true, if_false] at hb
    exact safe_visible b (needsQuoting_false_bytes f _ h b hb)
  · intro b hb
    simp only [if_true] at hb
    exact Quote_visible _ _ b hb

theorem visible_ne_LF (b : Byte) (h : visible b) : b ≠ LF := by
  intro e
  rw [e] at h
  exact absurd h (by decide)

theorem valueText_no_LF (f : TraditionFormatter) (env : Env) (v : Value) :
    LF ∉ f.valueText env v :=
  fun h => visible_ne_LF LF (valueText_visible f env v LF h) rfl

/-- The text of a value never ends in a space: it is empty, ends in a byte of
the safe set, or ends in the closing quote. -/
theorem valueText_getLast (f : TraditionFormatter) (env : Env) (v : Value) :
    ∀ x, (f.valueText env v).getLast? = some x → x ≠ SP ∧ x ≠ LF := by
  intro x hx
  rw [valueText_def] at hx
  cases h : f.needsQuoting (Sprint v)
  · simp only [h, Bool.false_eq_true, if_false] at hx
    have hm : x ∈ Sprint v := List.mem_of_getLast?_eq_some hx
    have hs := needsQuoting_false_bytes f _ h x hm
    have := safeRune_bounds x.val hs
    constructor
    · intro e; rw [e] at this; exact absurd this (by decide)
    · intro e; rw [e] at this; exact absurd this (by decide)
  · simp only [h, if_true] at hx
    have : (Quote env.printTable (Sprint v)).getLast? = some DQ := by
      unfold Quote
      exact List.getLast?_concat _
    rw [this] at hx
    cases hx
    exact ⟨by decide, by decide⟩


/-! ## How a line ends -/

theorem endsIn_append (P : Byte → Prop) (s t : GoString) (h : endsIn P t) : endsIn P (s ++ t) := by
  obtain ⟨pre, x, rfl, hx⟩ := h
  exact ⟨s ++ pre, x, by simp, hx⟩

theorem endsIn_mono (P Q : Byte → Prop) (s : GoString) (h : endsIn P s)
    (hpq : ∀ x, P x → Q x) : endsIn Q s := by
  obtain ⟨pre, x, rfl, hx⟩ := h
  exact ⟨pre, x, rfl, hpq x hx⟩

/-- After `=` and the text of a value a buffer ends in a byte that is neither a
space nor a line feed. -/
theorem endsIn_value (f : TraditionFormatter) (env : Env) (s : GoString) (v : Value) :
    endsIn (fun x => x ≠ SP ∧ x ≠ LF) (s ++ [ch '='] ++ f.valueText env v) := by
  cases h : (f.valueText env v).getLast? with
  | none =>
    have : f.valueText env v = [] := List.getLast?_eq_none_iff.mp h
    rw [this]
    exact ⟨s, ch '=', by simp, by decide, by decide⟩
  | some x =>
    obtain ⟨ys, hys⟩ := List.getLast?_eq_some_iff.mp h
    rw [hys]
    exact ⟨s ++ [ch '='] ++ ys, x, by simp, valueText_getLast f env v x h⟩

theorem token_endsIn (f : TraditionFormatter) (env : Env) (key : GoString) (v : Value) :
    endsIn (fun x => x ≠ SP ∧ x ≠ LF) (f.token env key v) :=
  endsIn_value f env key v

theorem appendTokens_endsIn (P : Byte → Prop) (ts : List GoString) (b : GoString)
    (h : ∀ t ∈ ts, endsIn P t) (hb : endsIn P b ∨ ts ≠ []) : endsIn P (appendTokens b ts) := by
  induction ts generalizing b with
  | nil =>
    rcases hb with hb | hb
    · exact hb
    · exact absurd rfl hb
  | cons t ts ih =>
    have e : appendTokens b (t :: ts) = appendTokens ((if b.length > 0 then b ++ [SP] else b) ++ t) ts :=
      rfl
    rw [e]
    exact ih _ (fun u hu => h u (List.mem_cons_of_mem _ hu))
      (Or.inl (endsIn_append P _ t (h t (List.mem_cons_self _ _))))

theorem plainTokens_endsIn (f : TraditionFormatter) (p : Package) (env : Env) (entry : Entry)
    (a b c : GoString) :
    ∀ t ∈ f.plainTokens p env entry a b c, endsIn (fun x => x ≠ SP ∧ x ≠ LF) t := by
  intro t ht
  unfold TraditionFormatter.plainTokens at ht
  simp only [List.mem_append, List.mem_map] at ht
  rcases ht with ((ht | ht) | ht) | ht
  · split at ht
    · simp at ht
    · simp at ht; rw [ht]; exact token_endsIn _ _ _ _
  · simp at ht; rw [ht]; exact token_endsIn _ _ _ _
  · obtain ⟨k, _, rfl⟩ := ht; exact token_endsIn _ _ _ _
  · split at ht
    · simp at ht
    · simp at ht; rw [ht]; exact token_endsIn _ _ _ _

theorem plainTokens_ne_nil' (f : TraditionFormatter) (p : Package) (env : Env) (entry : Entry)
    (a b c : GoString) : f.plainTokens p env entry a b c ≠ [] := by
  unfold TraditionFormatter.plainTokens
  simp

/-- The buffer after the plain branch ends in a byte that is neither a space
nor a line feed, whatever it held before. -/
theorem printPlain_endsIn (f : TraditionFormatter) (p : Package) (env : Env) (entry : Entry)
    (b : GoString) :
    endsIn (fun x => x ≠ SP ∧ x ≠ LF) (f.printPlain p env b entry (f.orderedKeys entry)
      (if f.TimestampFormat = [] then p.defaultTimestampFormat else f.TimestampFormat)) := by
  rw [printPlain_eq]
  exact appendTokens_endsIn _ _ _ (plainTokens_endsIn f p env entry _ _ _)
    (Or.inr (plainTokens_ne_nil' f p env entry _ _ _))

theorem header_endsIn (f : TraditionFormatter) (p : Package) (env : Env) (entry : Entry)
    (color : Int) (levelText source tsf : GoString) :
    endsIn (fun x => x ≠ LF) (header f p env entry color levelText source tsf) := by
  have hsp : endsIn (fun x => x ≠ LF) (asc " ") := ⟨[], SP, rfl, by decide⟩
  unfold header
  split_ifs <;> exact endsIn_append _ _ _ hsp

theorem coloredField_endsIn (f : TraditionFormatter) (env : Env) (entry : Entry) (color : Int)
    (b k : GoString) (h : endsIn (fun x => x ≠ LF) b) :
    endsIn (fun x => x ≠ LF) (coloredField f env entry color b k) := by
  unfold coloredField
  split_ifs
  · exact h
  · rw [appendValue_eq]
    have e : asc "[0m=" = asc "[0m" ++ [ch '='] := rfl
    rw [e]
    have := endsIn_value f env
      (b ++ (asc " " ++ [ESC] ++ asc "[" ++ fmtD color ++ asc "m" ++ k ++ [ESC] ++ asc "[0m"))
      (entry.Data.get k)
    simp only [List.append_assoc] at this ⊢
    exact endsIn_mono _ _ _ this (fun x hx => hx.2)

theorem foldl_coloredField_endsIn (f : TraditionFormatter) (env : Env) (entry : Entry)
    (color : Int) (keys : List GoString) (b : GoString) (h : endsIn (fun x => x ≠ LF) b) :
    endsIn (fun x => x ≠ LF) (keys.foldl (coloredField f env entry color) b) := by
  induction keys generalizing b with
  | nil => exact h
  | cons k ks ih => exact ih _ (coloredField_endsIn f env entry color b k h)

/-- What `printColored` returns when it does not panic. -/
theorem printColored_ok (f : TraditionFormatter) (p : Package) (env : Env) (b : GoString)
    (entry : Entry) (keys : List GoString) (tsf out : GoString)
    (h : f.printColored p env b entry keys tsf = .ok out) :
    ∃ levelText source,
      (if !f.DisableLevelTruncation then slice04 (ToUpper env.mapUpper (p.levelString entry.Level))
        else .ok (ToUpper env.mapUpper (p.levelString entry.Level))) = .ok levelText ∧
      (if entry.Data.get KEY_SOURCE ≠ Value.nil then assertString (entry.Data.get KEY_SOURCE)
        else .ok []) = .ok source ∧
      out = keys.foldl (coloredField f env entry (levelColor p entry.Level))
        (b ++ header f p env entry (levelColor p entry.Level) levelText source tsf) := by
  unfold TraditionFormatter.printColored at h
  simp only at h
  split at h
  · cases h
  · rename_i levelText hl
    split at h
    · cases h
    · rename_i source hs
      exact ⟨levelText, source, hl, hs, (Except.ok.inj h).symm⟩

theorem printColored_endsIn (f : TraditionFormatter) (p : Package) (env : Env) (b : GoString)
    (entry : Entry) (keys : List GoString) (tsf out : GoString)
    (h : f.printColored p env b entry keys tsf = .ok out) : endsIn (fun x => x ≠ LF) out := by
  obtain ⟨levelText, source, _, _, rfl⟩ := printColored_ok f p env b entry keys tsf out h
  exact foldl_coloredField_endsIn f env entry _ keys _
    (endsIn_append _ _ _ (header_endsIn f p env entry _ levelText source tsf))

/-- The shape of what `Format` returns: the buffer after one of the two
branches, a line feed, and the nil error. -/
theorem Format_ok (f : TraditionFormatter) (p : Package) (env : Env) (entry : Entry)
    (out : GoString) (err : GoError) (h : (f.Format p env entry).2 = .ok (out, err)) :
    err = none ∧ ∃ body, out = body ++ [LF] ∧
      (((f.Do p entry).isColored env = true ∧
        f.printColored p env (entry.Buffer.getD []) entry (f.orderedKeys entry)
          (if f.TimestampFormat = [] then p.defaultTimestampFormat else f.TimestampFormat) =
          .ok body) ∨
       ((f.Do p entry).isColored env = false ∧
        body = f.printPlain p env (entry.Buffer.getD []) entry (f.orderedKeys entry)
          (if f.TimestampFormat = [] then p.defaultTimestampFormat else f.TimestampFormat))) := by
  cases hc : (f.Do p entry).isColored env
  · rw [Format_of_not_colored f p env entry hc, printPlain_Do] at h
    cases h
    exact ⟨rfl, _, rfl, Or.inr ⟨rfl, rfl⟩⟩
  · unfold TraditionFormatter.Format at h
    simp only [hc, Do_TimestampFormat, if_true, printColored_Do] at h
    cases hB : entry.Buffer <;> simp only [hB, Option.getD] at h ⊢ <;> split at h
    · cases h
    · rename_i body hbody
      cases h
      exact ⟨rfl, body, rfl, Or.inl ⟨trivial, hbody⟩⟩
    · cases h
    · rename_i body hbody
      cases h
      exact ⟨rfl, body, rfl, Or.inl ⟨trivial, hbody⟩⟩

/-! ## The plain line -/

/-- C4, counterexample: with a field map that prints the level under `@level`
the plain line is `@level=info`, not the `level=info` of the claim's literal
labels. -/
theorem specPlainLine_counterexample :
    (relabelFormatter.Do samplePackage bareEntry).isColored sampleEnv = false ∧
    bareEntry.Buffer = none ∧
    (relabelFormatter.Format samplePackage sampleEnv bareEntry).2 =
      .ok (asc "@level=info\n", none) ∧
    relabelFormatter.specPlainLine samplePackage sampleEnv bareEntry = asc "level=info\n" ∧
    (relabelFormatter.Format samplePackage sampleEnv bareEntry).2 ≠
      .ok (relabelFormatter.specPlainLine samplePackage sampleEnv bareEntry, none) := by
  have h1 : (relabelFormatter.Format samplePackage sampleEnv bareEntry).2 =
      .ok (asc "@level=info\n", none) := rfl
  have h2 : relabelFormatter.specPlainLine samplePackage sampleEnv bareEntry =
      asc "level=info\n" := rfl
  refine ⟨rfl, rfl, h1, h2, ?_⟩
  rw [h1, h2]
  intro h
  have h3 := congrArg Prod.fst (Except.ok.inj h)
  exact absurd h3 (by decide)

/-- C4, amended: in plain mode a record formatted into an empty buffer gives
exactly the tokens joined by single spaces and closed by one line feed, in the
order time (unless `DisableTimestamp`), level, one `key=value` for every key of
the ordered key sequence, message (when not empty); the labels of time, level
and message are the keys the field map resolves them to, every value is the
text `appendValue` writes, the line starts with its first token and the byte
before the line feed is not a space. -/
theorem plain_line_resolved_labels (f : TraditionFormatter) (p : Package) (env : Env)
    (entry : Entry) (hc : (f.Do p entry).isColored env = false)
    (hb : entry.Buffer.getD [] = []) :
    (f.Format p env entry).2 =
      .ok (lineOf (f.plainTokens p env entry (f.FieldMap.resolve p.FieldKeyTime)
        (f.FieldMap.resolve p.FieldKeyLevel) (f.FieldMap.resolve p.FieldKeyMsg)), none) ∧
    (∀ key v b, f.token env key v = key ++ [ch '='] ++ f.appendValue env [] v ∧
      f.appendValue env b v = b ++ f.appendValue env [] v) ∧
    (∃ t ts, f.plainTokens p env entry (f.FieldMap.resolve p.FieldKeyTime)
        (f.FieldMap.resolve p.FieldKeyLevel) (f.FieldMap.resolve p.FieldKeyMsg) = t :: ts ∧
      f.plainLine p env entry = t ++ ts.flatMap (fun u => SP :: u) ++ [LF]) ∧
    (∃ pre x, f.plainLine p env entry = pre ++ [x, LF] ∧ x ≠ SP ∧ x ≠ LF) := by
  refine ⟨Format_plain_line f p env entry hc hb, ?_, ?_, ?_⟩
  · intro key v b
    exact ⟨rfl, appendValue_eq f env b v⟩
  · cases hts : f.plainTokens p env entry (f.FieldMap.resolve p.FieldKeyTime)
        (f.FieldMap.resolve p.FieldKeyLevel) (f.FieldMap.resolve p.FieldKeyMsg) with
    | nil => exact absurd hts (plainTokens_ne_nil' f p env entry _ _ _)
    | cons t ts =>
      refine ⟨t, ts, rfl, ?_⟩
      unfold TraditionFormatter.plainLine lineOf
      rw [hts, intercalate_cons_eq]
  · have h := appendTokens_endsIn (fun x => x ≠ SP ∧ x ≠ LF)
      (f.plainTokens p env entry (f.FieldMap.resolve p.FieldKeyTime)
        (f.FieldMap.resolve p.FieldKeyLevel) (f.FieldMap.resolve p.FieldKeyMsg)) []
      (plainTokens_endsIn f p env entry _ _ _)
      (Or.inr (plainTokens_ne_nil' f p env entry _ _ _))
    rw [appendTokens_nil _ (plainTokens_ne_nil f p env entry _ _ _)] at h
    obtain ⟨pre, x, hpre, hx⟩ := h
    refine ⟨pre, x, ?_, hx⟩
    unfold TraditionFormatter.plainLine lineOf
    rw [hpre]
    simp

/-- C4, amended, at the sample record in plain mode. -/
theorem plain_line_resolved_labels_witness :
    (zeroFormatter.Format samplePackage sampleEnv sampleEntry).2 =
      .ok (asc "time=\"2024-03-01T00:00:00Z\" level=info a=5 b=\"x y\" message=hello\n", none) :=
  (plain_line_resolved_labels zeroFormatter samplePackage sampleEnv sampleEntry rfl rfl).1.trans
    rfl

/-- C5: with sorting enabled the key sequence `Format` renders is a permutation
of the keys of the field bag, holds no key twice and ascends strictly in Go's
byte-wise string order; the plain line of a record with an empty buffer holds
one `key=value` token for each of these keys, in this order, between the level
token and the message token. -/
theorem orderedKeys_sorted_permutation (f : TraditionFormatter) (p : Package) (env : Env)
    (entry : Entry) (hs : f.DisableSorting = false) :
    (f.orderedKeys entry).Perm entry.Data.keys ∧
    (f.orderedKeys entry).Nodup ∧
    (f.orderedKeys entry).Pairwise (fun a b => strLess a b = true) ∧
    (f.orderedKeys entry).length = entry.Data.entries.length ∧
    ((f.Do p entry).isColored env = false → entry.Buffer.getD [] = [] →
      (f.Format p env entry).2 =
        .ok (lineOf (
          (if f.DisableTimestamp then []
            else [f.token env (f.FieldMap.resolve p.FieldKeyTime) (Value.str (env.timeFormat
              entry.Time (if f.TimestampFormat = [] then p.defaultTimestampFormat
                else f.TimestampFormat)))]) ++
          [f.token env (f.FieldMap.resolve p.FieldKeyLevel)
            (Value.str (p.levelString entry.Level))] ++
          (f.orderedKeys entry).map (fun k => f.token env k (entry.Data.get k)) ++
          (if entry.Message = [] then []
            else [f.token env (f.FieldMap.resolve p.FieldKeyMsg) (Value.str entry.Message)])),
          none)) := by
  have hk : f.orderedKeys entry = sortStrings entry.Data.keys := by
    simp [TraditionFormatter.orderedKeys, hs]
  have hperm : (f.orderedKeys entry).Perm entry.Data.keys := by
    rw [hk]; exact sortStrings_perm _
  refine ⟨hperm, ?_, ?_, ?_, ?_⟩
  · exact hperm.nodup_iff.mpr entry.Data.nodup
  · rw [hk]; exact sortStrings_strict _ entry.Data.nodup
  · rw [hperm.length_eq]; simp [Fields.keys]
  · intro hc hb
    exact Format_plain_line f p env entry hc hb

/-- C5 at the sample record: the keys `b`, `a` are rendered as `a`, `b`. -/
theorem orderedKeys_sorted_permutation_witness :
    zeroFormatter.orderedKeys sampleEntry = [asc "a", asc "b"] ∧
    (zeroFormatter.orderedKeys sampleEntry).Perm sampleEntry.Data.keys :=
  ⟨by decide, (orderedKeys_sorted_permutation zeroFormatter samplePackage sampleEnv sampleEntry
    rfl).1⟩

/-! ## The quoting rule -/

/-- C6: `appendValue` takes the string itself, or the default text of a value
of another type, and appends it in quoted form when `needsQuoting` holds and
verbatim otherwise; `needsQuoting` holds exactly when `QuoteEmptyFields` is set
and the text is empty, or some rune of the text (equally: some byte of it) is
outside the set a-z, A-Z, 0-9, `-`, `.`, `_`, `/`, `@`, `^`, `+`. The empty
string is written as two double quotes under `QuoteEmptyFields` and as nothing
without it. -/
theorem appendValue_quoting_rule (f : TraditionFormatter) (env : Env) (b : GoString)
    (v : Value) :
    (∀ s, Sprint (Value.str s) = s) ∧
    (f.needsQuoting (Sprint v) = true ↔
      (f.QuoteEmptyFields = true ∧ Sprint v = []) ∨ ∃ c ∈ chunks (Sprint v), c.1 ∉ safeSet) ∧
    (f.needsQuoting (Sprint v) = true ↔
      (f.QuoteEmptyFields = true ∧ Sprint v = []) ∨ ∃ x ∈ Sprint v, x.val ∉ safeSet) ∧
    f.appendValue env b v =
      b ++ (if f.needsQuoting (Sprint v) then Quote env.printTable (Sprint v) else Sprint v) ∧
    (if f.QuoteEmptyFields then f.appendValue env b (Value.str []) = b ++ asc "\"\""
      else f.appendValue env b (Value.str []) = b) := by
  refine ⟨fun s => rfl, ?_, ?_, appendValue_def f env b v, ?_⟩
  · rw [needsQuoting_iff, ← any_unsafe_rune_iff]
    simp only [List.any_eq_true, Bool.not_eq_true', ← safeRune_iff_safeSet,
      Bool.not_eq_true]
  · rw [needsQuoting_iff]
    simp only [← safeRune_iff_safeSet, Bool.not_eq_true]
  · cases hq : f.QuoteEmptyFields
    · have : f.needsQuoting (Sprint (Value.str [])) = false := by
        simp [TraditionFormatter.needsQuoting, hq, Sprint, chunks_nil]
      rw [appendValue_def, this]
      simp [Sprint]
    · have : f.needsQuoting (Sprint (Value.str [])) = true := by
        simp [TraditionFormatter.needsQuoting, hq, Sprint]
      rw [appendValue_def, this]
      rfl

/-- C7, counterexample: the empty string has no character outside the safe set,
yet under `QuoteEmptyFields` `appendValue` writes it as two double quotes. -/
theorem unquoted_counterexample :
    (∀ c ∈ chunks ([] : GoString), c.1 ∈ safeSet) ∧
    quoteEmptyFormatter.appendValue sampleEnv [] (Value.str []) = asc "\"\"" ∧
    quoteEmptyFormatter.appendValue sampleEnv [] (Value.str []) ≠ [] ++ [] := by
  refine ⟨?_, rfl, ?_⟩
  · intro c hc
    rw [chunks_nil] at hc
    cases hc
  · have h : quoteEmptyFormatter.appendValue sampleEnv [] (Value.str []) = asc "\"\"" := rfl
    rw [h]
    decide

/-- C7, amended: a string all of whose characters are in the safe set, and which
is not empty or meets a formatter without `QuoteEmptyFields`, is appended
unquoted: exactly its own bytes are added to the buffer. -/
theorem appendValue_unquoted (f : TraditionFormatter) (env : Env) (b s : GoString)
    (hs : ∀ c ∈ chunks s, c.1 ∈ safeSet) (hne : s ≠ [] ∨ f.QuoteEmptyFields = false) :
    f.appendValue env b (Value.str s) = b ++ s := by
  have hq : f.needsQuoting s = false := by
    cases h : f.needsQuoting s
    · rfl
    · rw [needsQuoting_iff, ← any_unsafe_rune_iff] at h
      rcases h with ⟨h1, h2⟩ | h
      · rcases hne with hne | hne
        · exact absurd h2 hne
        · rw [hne] at h1; cases h1
      · obtain ⟨c, hc, hu⟩ := List.any_eq_true.mp h
        have := (safeRune_iff_safeSet c.1).mpr (hs c hc)
        simp [this] at hu
  rw [appendValue_def]
  simp [Sprint, hq]

/-- C7, amended, at the string `abc-1.2` under `QuoteEmptyFields`. -/
theorem appendValue_unquoted_witness :
    quoteEmptyFormatter.appendValue sampleEnv (asc "k=") (Value.str (asc "abc-1.2")) =
      asc "k=abc-1.2" :=
  appendValue_unquoted quoteEmptyFormatter sampleEnv (asc "k=") (asc "abc-1.2") (by decide)
    (Or.inl (by decide))

/-! ## The end of the line -/

/-- When `Format` returns: always in plain mode, and in coloured mode when the
level name has four bytes or is not cut, and the `source` field is absent, nil
or a string. -/
theorem Format_returns (f : TraditionFormatter) (p : Package) (env : Env) (entry : Entry)
    (h : (f.Do p entry).isColored env = false ∨
      ((f.DisableLevelTruncation = true ∨
          4 ≤ (ToUpper env.mapUpper (p.levelString entry.Level)).length) ∧
        ∀ t, entry.Data.get KEY_SOURCE ≠ Value.other t)) :
    ∃ out, (f.Format p env entry).2 = .ok (out, none) := by
  cases hc : (f.Do p entry).isColored env
  · exact ⟨_, Format_of_not_colored f p env entry hc⟩
  · rcases h with h | ⟨hl, hsrc⟩
    · rw [hc] at h; cases h
    · have hlev : ∃ lt, (if !f.DisableLevelTruncation then
          slice04 (ToUpper env.mapUpper (p.levelString entry.Level))
          else .ok (ToUpper env.mapUpper (p.levelString entry.Level))) = .ok lt := by
        cases hd : f.DisableLevelTruncation
        · rcases hl with hl | hl
          · rw [hd] at hl; cases hl
          · exact ⟨(ToUpper env.mapUpper (p.levelString entry.Level)).take 4,
              by simp [slice04, Nat.not_lt.mpr hl]⟩
        · exact ⟨ToUpper env.mapUpper (p.levelString entry.Level), by simp⟩
      have hso : ∃ so, (if entry.Data.get KEY_SOURCE ≠ Value.nil then
          assertString (entry.Data.get KEY_SOURCE) else .ok []) = .ok so := by
        cases hv : entry.Data.get KEY_SOURCE with
        | nil => exact ⟨[], by simp⟩
        | str s => exact ⟨s, by simp [assertString]⟩
        | other t => exact absurd hv (hsrc t)
      obtain ⟨lt, hlt⟩ := hlev
      obtain ⟨so, hso⟩ := hso
      unfold TraditionFormatter.Format
      simp only [hc, Do_TimestampFormat, if_true, printColored_Do]
      unfold TraditionFormatter.printColored
      simp only [hlt, hso]
      exact ⟨_, rfl⟩

/-- C9: whatever `Format` returns ends in a line feed, and the byte before that
line feed is not a line feed; this holds in plain and in coloured mode and for
any content of the buffer. -/
theorem Format_one_trailing_LF (f : TraditionFormatter) (p : Package) (env : Env)
    (entry : Entry) (out : GoString) (err : GoError)
    (h : (f.Format p env entry).2 = .ok (out, err)) :
    ∃ pre x, out = pre ++ [x, LF] ∧ x ≠ LF := by
  obtain ⟨_, body, rfl, hbody⟩ := Format_ok f p env entry out err h
  have he : endsIn (fun x => x ≠ LF) body := by
    rcases hbody with ⟨_, hcol⟩ | ⟨_, rfl⟩
    · exact printColored_endsIn f p env _ entry _ _ body hcol
    · exact endsIn_mono _ _ _ (printPlain_endsIn f p env entry _) (fun x hx => hx.2)
  obtain ⟨pre, x, rfl, hx⟩ := he
  exact ⟨pre, x, by simp, hx⟩

/-- C9 at the sample record in coloured mode, where the line ends in the quote
that closes the last value. -/
theorem Format_one_trailing_LF_witness :
    (colorFormatter.Format samplePackage sampleEnv sampleEntry).2 =
      .ok (asc ("\x1b[36m[INFO] \x1b[0m[0005]  hello                                        " ++
        " \x1b[36ma\x1b[0m=5 \x1b[36mb\x1b[0m=\"x y\"\n"), none) ∧
    ∃ pre x, asc ("\x1b[36m[INFO] \x1b[0m[0005]  hello                                        " ++
        " \x1b[36ma\x1b[0m=5 \x1b[36mb\x1b[0m=\"x y\"\n") = pre ++ [x, LF] ∧ x ≠ LF :=
  ⟨rfl, Format_one_trailing_LF colorFormatter samplePackage sampleEnv sampleEntry _ none rfl⟩


/-! ## Line feeds inside the line -/

theorem decimalFuel_digits (fuel n : Nat) :
    ∀ b ∈ decimalFuel fuel n, 0x30 ≤ b.val ∧ b.val ≤ 0x39 := by
  induction fuel generalizing n with
  | zero => intro b hb; cases hb
  | succ k ih =>
    intro b hb
    unfold decimalFuel at hb
    split_ifs at hb with h
    · simp only [List.mem_singleton] at hb
      rw [hb, toByte_val]
      omega
    · rcases List.mem_append.mp hb with hb | hb
      · exact ih _ b hb
      · simp only [List.mem_singleton] at hb
        rw [hb, toByte_val]
        omega

theorem fmtInteger_no_LF (prec : Nat) (v : Int) : LF ∉ fmtInteger prec v := by
  have hd : LF ∉ decimal v.natAbs := by
    intro h
    have := decimalFuel_digits _ _ LF h
    exact absurd this (by decide)
  have hz : LF ∉ List.replicate (prec - (decimal v.natAbs).length) (ch '0') := by
    intro h
    exact absurd (List.eq_of_mem_replicate h) (by decide)
  unfold fmtInteger
  simp only
  split_ifs
  · intro h
    rcases List.mem_cons.mp h with h | h
    · exact absurd h (by decide)
    · rcases List.mem_append.mp h with h | h
      · exact hz h
      · exact hd h
  · intro h
    rcases List.mem_append.mp h with h | h
    · exact hz h
    · exact hd h

theorem fmtD_no_LF (v : Int) : LF ∉ fmtD v := fmtInteger_no_LF _ _

theorem fmt04d_no_LF (v : Int) : LF ∉ fmt04d v := fmtInteger_no_LF _ _

theorem fmtPad44_no_LF (s : GoString) (h : LF ∉ s) : LF ∉ fmtPad44 s := by
  unfold fmtPad44
  intro hm
  rcases List.mem_append.mp hm with hm | hm
  · exact h hm
  · exact absurd (List.eq_of_mem_replicate hm) (by decide)

theorem token_no_LF (f : TraditionFormatter) (env : Env) (key : GoString) (v : Value)
    (h : LF ∉ key) : LF ∉ f.token env key v := by
  unfold TraditionFormatter.token
  intro hm
  rcases List.mem_append.mp hm with hm | hm
  · rcases List.mem_append.mp hm with hm | hm
    · exact h hm
    · exact absurd (List.mem_singleton.mp hm) (by decide)
  · exact valueText_no_LF f env v hm

theorem appendTokens_no_LF (ts : List GoString) (b : GoString) (hb : LF ∉ b)
    (h : ∀ t ∈ ts, LF ∉ t) : LF ∉ appendTokens b ts := by
  induction ts generalizing b with
  | nil => exact hb
  | cons t ts ih =>
    have e : appendTokens b (t :: ts) =
        appendTokens ((if b.length > 0 then b ++ [SP] else b) ++ t) ts := rfl
    rw [e]
    refine ih _ ?_ (fun u hu => h u (List.mem_cons_of_mem _ hu))
    intro hm
    rcases List.mem_append.mp hm with hm | hm
    · split_ifs at hm
      · rcases List.mem_append.mp hm with hm | hm
        · exact hb hm
        · exact absurd (List.mem_singleton.mp hm) (by decide)
      · exact hb hm
    · exact h t (List.mem_cons_self _ _) hm

theorem mem_orderedKeys (f : TraditionFormatter) (entry : Entry) (k : GoString)
    (h : k ∈ f.orderedKeys entry) : k ∈ entry.Data.keys := by
  unfold TraditionFormatter.orderedKeys at h
  simp only at h
  split_ifs at h
  · exact (sortStrings_perm _).mem_iff.mp h
  · exact h

theorem plainTokens_no_LF (f : TraditionFormatter) (p : Package) (env : Env) (entry : Entry)
    (a b c : GoString) (ha : LF ∉ a) (hb : LF ∉ b) (hc : LF ∉ c)
    (hk : ∀ k ∈ entry.Data.keys, LF ∉ k) :
    ∀ t ∈ f.plainTokens p env entry a b c, LF ∉ t := by
  intro t ht
  unfold TraditionFormatter.plainTokens at ht
  simp only [List.mem_append, List.mem_map] at ht
  rcases ht with ((ht | ht) | ht) | ht
  · split at ht
    · simp at ht
    · simp at ht; rw [ht]; exact token_no_LF _ _ _ _ ha
  · simp at ht; rw [ht]; exact token_no_LF _ _ _ _ hb
  · obtain ⟨k, hkm, rfl⟩ := ht
    exact token_no_LF _ _ _ _ (hk k (mem_orderedKeys f entry k hkm))
  · split at ht
    · simp at ht
    · simp at ht; rw [ht]; exact token_no_LF _ _ _ _ hc

theorem asc_no_LF_append (s t : GoString) (hs : LF ∉ s) (ht : LF ∉ t) : LF ∉ s ++ t := by
  intro hm
  rcases List.mem_append.mp hm with hm | hm
  · exact hs hm
  · exact ht hm

theorem levelSegment_no_LF (color : Int) (levelText : GoString) (h : LF ∉ levelText) :
    LF ∉ levelSegment color levelText := by
  have h1 := fmtD_no_LF color
  have a1 : LF ∉ [ESC] := by decide
  have a2 : LF ∉ asc "[" := by decide
  have a3 : LF ∉ asc "m[" := by decide
  have a4 : LF ∉ asc "] " := by decide
  have a5 : LF ∉ asc "[0m" := by decide
  unfold levelSegment
  simp only [List.mem_append, not_or]
  tauto

theorem header_no_LF (f : TraditionFormatter) (p : Package) (env : Env) (entry : Entry)
    (color : Int) (levelText source tsf : GoString) (hl : LF ∉ levelText) (hs : LF ∉ source)
    (hm : LF ∉ entry.Message)
    (ht : f.DisableTimestamp = false → f.FullTimestamp = true →
      LF ∉ env.timeFormat entry.Time tsf) :
    LF ∉ header f p env entry color levelText source tsf := by
  have h1 := levelSegment_no_LF color levelText hl
  have h2 := fmtPad44_no_LF entry.Message hm
  have h3 := fmtD_no_LF (GoId env.stack)
  have h4 := fmt04d_no_LF (elapsedSeconds p entry)
  have a1 : LF ∉ asc " " := by decide
  have a2 : LF ∉ asc " [GoID:" := by decide
  have a3 : LF ∉ asc "] " := by decide
  have a4 : LF ∉ asc "[" := by decide
  have a5 : LF ∉ asc "] [GoID:" := by decide
  unfold header
  cases hT : f.DisableTimestamp <;> cases hF : f.FullTimestamp <;> cases hG : f.ShowGoroutineId <;>
    simp only [Bool.not_true, Bool.not_false, if_true, if_false, Bool.false_eq_true] <;>
    first
    | (have h5 := ht hT hF
       simp only [List.mem_append, not_or]
       tauto)
    | (simp only [List.mem_append, not_or]
       tauto)

theorem coloredField_no_LF (f : TraditionFormatter) (env : Env) (entry : Entry) (color : Int)
    (b k : GoString) (hb : LF ∉ b) (hk : LF ∉ k) :
    LF ∉ coloredField f env entry color b k := by
  unfold coloredField
  split_ifs
  · exact hb
  · rw [appendValue_eq]
    have h1 := fmtD_no_LF color
    have h2 := valueText_no_LF f env (entry.Data.get k)
    have a1 : LF ∉ asc " " := by decide
    have a2 : LF ∉ [ESC] := by decide
    have a3 : LF ∉ asc "[" := by decide
    have a4 : LF ∉ asc "m" := by decide
    have a5 : LF ∉ asc "[0m=" := by decide
    simp only [List.mem_append, not_or]
    tauto

theorem foldl_coloredField_no_LF (f : TraditionFormatter) (env : Env) (entry : Entry)
    (color : Int) (keys : List GoString) (b : GoString) (hb : LF ∉ b)
    (hk : ∀ k ∈ keys, LF ∉ k) :
    LF ∉ keys.foldl (coloredField f env entry color) b := by
  induction keys generalizing b with
  | nil => exact hb
  | cons k ks ih =>
    exact ih _ (coloredField_no_LF f env entry color b k hb (hk k (List.mem_cons_self _ _)))
      (fun u hu => hk u (List.mem_cons_of_mem _ hu))


/-- C10, counterexample: in coloured mode a line feed of the message is written
as it is, and in either mode so is a line feed of a field key; both lines hold
a line feed before the final one. -/
theorem LF_inside_counterexample :
    (colorFormatter.Format samplePackage sampleEnv twoLineEntry).2 =
      .ok (asc "\x1b[36m[INFO] \x1b[0m[0000]  a\nb" ++ List.replicate 42 SP ++ [LF], none) ∧
    LF ∈ (asc "\x1b[36m[INFO] \x1b[0m[0000]  a\nb" ++ List.replicate 42 SP ++ [LF]).dropLast ∧
    (zeroFormatter.Format samplePackage sampleEnv twoLineKeyEntry).2 =
      .ok (asc "time=\"2024-03-01T00:00:00Z\" level=info k\nk=v\n", none) ∧
    LF ∈ (asc "time=\"2024-03-01T00:00:00Z\" level=info k\nk=v\n").dropLast :=
  ⟨rfl, by decide, rfl, by decide⟩

/-! ## Decoding what `%q` wrote -/

theorem unhex_lowerhex : ∀ d, d < 16 → unhex (lowerhex d) = some d := by decide

theorem UnquoteChar_backslash (c : Byte) (s : GoString) :
    UnquoteChar (BSL :: c :: s) DQ = afterBackslash c s := by
  unfold UnquoteChar
  simp only
  rw [if_neg (by decide), if_neg (by decide), if_neg (by simp)]
  rfl

theorem UnquoteChar_raw (c : Byte) (s : GoString) (h1 : c ≠ DQ) (h2 : c.val < 0x80)
    (h3 : c ≠ BSL) : UnquoteChar (c :: s) DQ = some (c.val, false, s) := by
  unfold UnquoteChar
  simp only
  rw [if_neg (by simp [h1]), if_neg (by simp only [RuneSelf]; omega), if_pos h3]

theorem UnquoteChar_high (c : Byte) (s : GoString) (h : 0x80 ≤ c.val) :
    UnquoteChar (c :: s) DQ =
      some ((DecodeRuneInString (c :: s)).1, true,
        (c :: s).drop (DecodeRuneInString (c :: s)).2) := by
  have h1 : c ≠ DQ := by
    intro e; rw [e] at h; exact absurd h (by decide)
  unfold UnquoteChar
  simp only
  rw [if_neg (by simp [h1]), if_pos (by simp only [RuneSelf]; omega)]

theorem afterBackslash_hex2 (a b : Nat) (ha : a < 16) (hb : b < 16) (t : GoString) :
    afterBackslash (ch 'x') (lowerhex a :: lowerhex b :: t) = some (a * 16 + b, false, t) := by
  unfold afterBackslash
  simp only [readHex, unhex_lowerhex a ha, unhex_lowerhex b hb]
  rw [if_neg (by decide), if_neg (by decide), if_neg (by decide), if_neg (by decide)]
  rw [if_neg (by decide), if_neg (by decide), if_neg (by decide), if_pos (by decide)]
  simp


theorem afterBackslash_simple (r : Nat) (e : Byte) (t : GoString) (h : simpleEscape r = some e) :
    afterBackslash e t = some (r, false, t) := by
  unfold simpleEscape at h
  split_ifs at h <;> cases h <;> subst_vars <;> simp +decide [afterBackslash]

theorem afterBackslash_BSL (t : GoString) : afterBackslash BSL t = some (0x5C, false, t) := by
  simp +decide [afterBackslash]

theorem afterBackslash_DQ (t : GoString) : afterBackslash DQ t = some (0x22, false, t) := by
  simp +decide [afterBackslash]

theorem afterBackslash_u4 (v : Nat) (t : GoString) (hv : v < 0x10000) (hr : ValidRune v = true) :
    afterBackslash (ch 'u') (lowerhex (v / 4096 % 16) :: lowerhex (v / 256 % 16) ::
      lowerhex (v / 16 % 16) :: lowerhex (v % 16) :: t) = some (v, true, t) := by
  have e : (((0 * 16 + v / 4096 % 16) * 16 + v / 256 % 16) * 16 + v / 16 % 16) * 16 + v % 16 = v := by
    omega
  unfold afterBackslash
  simp only [readHex, unhex_lowerhex _ (Nat.mod_lt _ (by decide : 0 < 16)), e]
  rw [if_neg (by decide), if_neg (by decide), if_neg (by decide), if_neg (by decide)]
  rw [if_neg (by decide), if_neg (by decide), if_neg (by decide), if_pos (by decide)]
  simp +decide [hr]

theorem afterBackslash_u8 (v : Nat) (t : GoString) (hv : v < 0x110000)
    (hr : ValidRune v = true) :
    afterBackslash (ch 'U') (lowerhex (v / 268435456 % 16) :: lowerhex (v / 16777216 % 16) ::
      lowerhex (v / 1048576 % 16) :: lowerhex (v / 65536 % 16) :: lowerhex (v / 4096 % 16) ::
      lowerhex (v / 256 % 16) :: lowerhex (v / 16 % 16) :: lowerhex (v % 16) :: t) =
      some (v, true, t) := by
  have e : (((((((0 * 16 + v / 268435456 % 16) * 16 + v / 16777216 % 16) * 16 +
      v / 1048576 % 16) * 16 + v / 65536 % 16) * 16 + v / 4096 % 16) * 16 + v / 256 % 16) * 16 +
      v / 16 % 16) * 16 + v % 16 = v := by
    omega
  unfold afterBackslash
  simp only [readHex, unhex_lowerhex _ (Nat.mod_lt _ (by decide : 0 < 16)), e]
  rw [if_neg (by decide), if_neg (by decide), if_neg (by decide), if_neg (by decide)]
  rw [if_neg (by decide), if_neg (by decide), if_neg (by decide), if_pos (by decide)]
  simp +decide [hr]

theorem lowerhex_ne_all : ∀ d, d < 16 → lowerhex d ≠ DQ ∧ lowerhex d ≠ BSL := by decide

theorem lowerhex_ne (d : Nat) (h : d < 16) : lowerhex d ≠ DQ ∧ lowerhex d ≠ BSL :=
  lowerhex_ne_all d h

theorem hexEscape_escapeUnit (n : Nat) (h : n < 256) : escapeUnit (hexEscape n) := by
  have h1 := lowerhex_ne (n / 16) (by omega)
  have h2 := lowerhex_ne (n % 16) (by omega)
  refine ⟨ch 'x', [lowerhex (n / 16), lowerhex (n % 16)], rfl, ?_, ?_⟩
  · simp only [List.mem_cons, List.mem_singleton, List.not_mem_nil, or_false, not_or]
    exact ⟨fun e => h1.1 e.symm, fun e => h2.1 e.symm⟩
  · simp only [List.mem_cons, List.mem_singleton, List.not_mem_nil, or_false, not_or]
    exact ⟨fun e => h1.2 e.symm, fun e => h2.2 e.symm⟩

/-- One piece of a quoted string decodes to the bytes of the rune it was
written for, whatever follows it. -/
theorem unit_roundtrip (table : Nat → Bool) (c : Nat × GoString) (hc : Chunk c) (t : GoString) :
    (∃ r mb, UnquoteChar (quoteChunk table c ++ t) DQ = some (r, mb, t) ∧
      decodedBytes r mb = c.2) ∧
    ((quoteChunk table c = c.2 ∧ rawUnit (quoteChunk table c)) ∨
      escapeUnit (quoteChunk table c)) := by
  cases hc with
  | invalid b hb =>
    have hq : quoteChunk table (RuneError, [b]) = hexEscape b.val := by
      simp [quoteChunk, byteAt]
    rw [hq]
    refine ⟨⟨b.val, false, ?_, ?_⟩, Or.inr (hexEscape_escapeUnit _ b.isLt)⟩
    · have : hexEscape b.val ++ t =
          BSL :: ch 'x' :: lowerhex (b.val / 16) :: lowerhex (b.val % 16) :: t := rfl
      rw [this, UnquoteChar_backslash, afterBackslash_hex2 _ _ (by omega) (by omega)]
      have : b.val / 16 * 16 + b.val % 16 = b.val := by omega
      rw [this]
    · simp [decodedBytes, toByte_eq b.val b rfl]
  | ascii b hb =>
    have hq : quoteChunk table (b.val, [b]) = appendEscapedRune table b.val := by
      have : ¬ (b.val = RuneError) := by simp only [RuneError]; omega
      simp [quoteChunk, this]
    rw [hq]
    have hdec : decodedBytes b.val false = [b] := by
      simp [decodedBytes, toByte_eq b.val b rfl]
    have hspec := appendEscapedRune_spec table b.val
    generalize appendEscapedRune table b.val = out at hspec
    cases hspec with
    | backslashed h1 =>
      have hb' : toByte b.val = b := toByte_eq _ _ rfl
      rw [hb']
      refine ⟨⟨b.val, false, ?_, hdec⟩, Or.inr ⟨b, [], rfl, by simp, by simp⟩⟩
      have : [BSL, b] ++ t = BSL :: b :: t := rfl
      rw [this, UnquoteChar_backslash]
      rcases h1 with h1 | h1
      · have : b = DQ := Fin.ext h1
        rw [this, afterBackslash_DQ]; rfl
      · have : b = BSL := Fin.ext h1
        rw [this, afterBackslash_BSL]; rfl
    | printable h1 h2 h3 =>
      have ha : AppendRune b.val = [b] := by
        unfold AppendRune
        rw [if_pos (by omega), toByte_eq _ _ rfl]
      rw [ha]
      have n1 : b ≠ DQ := fun e => h1 (by rw [e]; rfl)
      have n2 : b ≠ BSL := fun e => h2 (by rw [e]; rfl)
      refine ⟨⟨b.val, false, ?_, hdec⟩, Or.inl ⟨rfl, ?_, ?_⟩⟩
      · exact UnquoteChar_raw b t n1 hb n2
      · simp only [List.mem_singleton]; exact fun e => n1 e.symm
      · simp only [List.mem_singleton]; exact fun e => n2 e.symm
    | simple e h1 h2 =>
      refine ⟨⟨b.val, false, ?_, hdec⟩, Or.inr ⟨e, [], rfl, by simp, by simp⟩⟩
      have : [BSL, e] ++ t = BSL :: e :: t := rfl
      rw [this, UnquoteChar_backslash, afterBackslash_simple _ _ _ h2]
    | hex h1 h2 h3 =>
      refine ⟨⟨b.val, false, ?_, hdec⟩, Or.inr (hexEscape_escapeUnit _ (Nat.mod_lt _ (by decide)))⟩
      have : hexEscape (b.val % 256) ++ t =
          BSL :: ch 'x' :: lowerhex (b.val % 256 / 16) :: lowerhex (b.val % 256 % 16) :: t := rfl
      rw [this, UnquoteChar_backslash, afterBackslash_hex2 _ _ (by omega) (by omega)]
      have : b.val % 256 / 16 * 16 + b.val % 256 % 16 = b.val := by omega
      rw [this]
    | u4 v h1 h2 h3 h4 => omega
    | u8 v h1 h2 h3 h4 => omega
  | multi r bs h1 h2 h3 h4 h5 =>
    have hlen := AppendRune_length r h1
    rw [h3] at hlen
    have hq : quoteChunk table (r, bs) = appendEscapedRune table r := by
      have : ¬ (bs.length = 1) := by omega
      simp [quoteChunk, this]
    rw [hq]
    have hdec : decodedBytes r true = bs := by
      unfold decodedBytes
      rw [if_neg (by simp only [RuneSelf]; simp; omega), h3]
    have hspec := appendEscapedRune_spec table r
    generalize appendEscapedRune table r = out at hspec
    cases hspec with
    | backslashed g1 => omega
    | printable g1 g2 g3 =>
      rw [h3]
      obtain ⟨b0, tl, rfl⟩ := List.exists_cons_of_ne_nil (by
        intro e; rw [e] at hlen; simp at hlen : bs ≠ [])
      have hb0 := h4 b0 (List.mem_cons_self _ _)
      refine ⟨⟨r, true, ?_, hdec⟩, Or.inl ⟨rfl, ?_, ?_⟩⟩
      · have hd := h5 t
        have : b0 :: tl ++ t = b0 :: (tl ++ t) := rfl
        rw [this] at hd ⊢
        rw [UnquoteChar_high b0 _ hb0, hd]
        simp
      · intro hm
        have := h4 DQ hm
        exact absurd this (by decide)
      · intro hm
        have := h4 BSL hm
        exact absurd this (by decide)
    | simple e g1 g2 =>
      unfold simpleEscape at g2
      split_ifs at g2 <;> omega
    | hex g1 g2 g3 => omega
    | u4 v g1 g2 g3 g4 =>
      rw [h2] at g3
      simp only [if_true] at g3
      subst g3
      have l1 := lowerhex_ne (v / 4096 % 16) (Nat.mod_lt _ (by decide))
      have l2 := lowerhex_ne (v / 256 % 16) (Nat.mod_lt _ (by decide))
      have l3 := lowerhex_ne (v / 16 % 16) (Nat.mod_lt _ (by decide))
      have l4 := lowerhex_ne (v % 16) (Nat.mod_lt _ (by decide))
      refine ⟨⟨v, true, ?_, hdec⟩, Or.inr ⟨ch 'u', _, rfl, ?_, ?_⟩⟩
      · have : [BSL, ch 'u', lowerhex (v / 4096 % 16), lowerhex (v / 256 % 16),
            lowerhex (v / 16 % 16), lowerhex (v % 16)] ++ t =
            BSL :: ch 'u' :: lowerhex (v / 4096 % 16) :: lowerhex (v / 256 % 16) ::
              lowerhex (v / 16 % 16) :: lowerhex (v % 16) :: t := rfl
        rw [this, UnquoteChar_backslash, afterBackslash_u4 v t g4 h2]
      · simp only [List.mem_cons, List.mem_singleton, List.not_mem_nil, or_false, not_or]
        exact ⟨fun e => l1.1 e.symm, fun e => l2.1 e.symm, fun e => l3.1 e.symm,
          fun e => l4.1 e.symm⟩
      · simp only [List.mem_cons, List.mem_singleton, List.not_mem_nil, or_false, not_or]
        exact ⟨fun e => l1.2 e.symm, fun e => l2.2 e.symm, fun e => l3.2 e.symm,
          fun e => l4.2 e.symm⟩
    | u8 v g1 g2 g3 g4 =>
      rw [h2] at g3
      simp only [if_true] at g3
      subst g3
      have hmax : v < 0x110000 := by
        unfold ValidRune at h2
        simp only [MaxRune] at h2
        split_ifs at h2 <;> omega
      have l1 := lowerhex_ne (v / 268435456 % 16) (Nat.mod_lt _ (by decide))
      have l2 := lowerhex_ne (v / 16777216 % 16) (Nat.mod_lt _ (by decide))
      have l3 := lowerhex_ne (v / 1048576 % 16) (Nat.mod_lt _ (by decide))
      have l4 := lowerhex_ne (v / 65536 % 16) (Nat.mod_lt _ (by decide))
      have l5 := lowerhex_ne (v / 4096 % 16) (Nat.mod_lt _ (by decide))
      have l6 := lowerhex_ne (v / 256 % 16) (Nat.mod_lt _ (by decide))
      have l7 := lowerhex_ne (v / 16 % 16) (Nat.mod_lt _ (by decide))
      have l8 := lowerhex_ne (v % 16) (Nat.mod_lt _ (by decide))
      refine ⟨⟨v, true, ?_, hdec⟩, Or.inr ⟨ch 'U', _, rfl, ?_, ?_⟩⟩
      · have : [BSL, ch 'U', lowerhex (v / 268435456 % 16), lowerhex (v / 16777216 % 16),
            lowerhex (v / 1048576 % 16), lowerhex (v / 65536 % 16), lowerhex (v / 4096 % 16),
            lowerhex (v / 256 % 16), lowerhex (v / 16 % 16), lowerhex (v % 16)] ++ t =
            BSL :: ch 'U' :: lowerhex (v / 268435456 % 16) :: lowerhex (v / 16777216 % 16) ::
              lowerhex (v / 1048576 % 16) :: lowerhex (v / 65536 % 16) ::
              lowerhex (v / 4096 % 16) :: lowerhex (v / 256 % 16) :: lowerhex (v / 16 % 16) ::
              lowerhex (v % 16) :: t := rfl
        rw [this, UnquoteChar_backslash, afterBackslash_u8 v t hmax h2]
      · simp only [List.mem_cons, List.mem_singleton, List.not_mem_nil, or_false, not_or]
        exact ⟨fun e => l1.1 e.symm, fun e => l2.1 e.symm, fun e => l3.1 e.symm,
          fun e => l4.1 e.symm, fun e => l5.1 e.symm, fun e => l6.1 e.symm,
          fun e => l7.1 e.symm, fun e => l8.1 e.symm⟩
      · simp only [List.mem_cons, List.mem_singleton, List.not_mem_nil, or_false, not_or]
        exact ⟨fun e => l1.2 e.symm, fun e => l2.2 e.symm, fun e => l3.2 e.symm,
          fun e => l4.2 e.symm, fun e => l5.2 e.symm, fun e => l6.2 e.symm,
          fun e => l7.2 e.symm, fun e => l8.2 e.symm⟩

theorem Quote_eq (table : Nat → Bool) (s : GoString) :
    Quote table s = DQ :: (quoteBody table s ++ [DQ]) := rfl

theorem unquoteLoop_step (fuel : Nat) (h : Byte) (x buf : GoString) (r : Nat) (mb : Bool)
    (rem : GoString) (h1 : h ≠ DQ) (h2 : h ≠ LF)
    (hu : UnquoteChar (h :: x) DQ = some (r, mb, rem)) :
    unquoteLoop DQ (fuel + 1) (h :: x) buf = unquoteLoop DQ fuel rem (buf ++ decodedBytes r mb) := by
  rw [unquoteLoop]
  simp only [hu]
  rw [if_neg h1, if_neg h2, if_neg (by decide)]
  unfold decodedBytes
  split_ifs <;> rfl

theorem unquoteLoop_stop (fuel : Nat) (t buf : GoString) :
    unquoteLoop DQ (fuel + 1) (DQ :: t) buf = some (buf, DQ :: t) := by
  rw [unquoteLoop]
  simp

/-- The first byte of a piece of a quoted string is neither the quote nor a
line feed. -/
theorem quoteChunk_head (table : Nat → Bool) (c : Nat × GoString) (hc : Chunk c)
    (hpos : 1 ≤ c.2.length) :
    ∃ h tl, quoteChunk table c = h :: tl ∧ h ≠ DQ ∧ h ≠ LF := by
  obtain ⟨_, hu⟩ := unit_roundtrip table c hc []
  have hne : quoteChunk table c ≠ [] := by
    rcases hu with ⟨he, _⟩ | ⟨x, tl, he, _⟩
    · rw [he]; intro e; rw [e] at hpos; simp at hpos
    · rw [he]; simp
  obtain ⟨h, tl, e⟩ := List.exists_cons_of_ne_nil hne
  refine ⟨h, tl, e, ?_, ?_⟩
  · rcases hu with ⟨_, hr, _⟩ | ⟨x, tl', he, _⟩
    · intro hq
      apply hr
      rw [e, hq]
      exact List.mem_cons_self _ _
    · rw [e] at he
      have : h = BSL := (List.cons.inj he).1
      rw [this]; decide
  · have := quoteChunk_visible table c h (by rw [e]; exact List.mem_cons_self _ _)
    exact visible_ne_LF h this

theorem quoteBody_cons (table : Nat → Bool) (r : Nat) (bs rest : GoString)
    (hch : chunks (bs ++ rest) = (r, bs) :: chunks rest) :
    quoteBody table (bs ++ rest) = quoteChunk table (r, bs) ++ quoteBody table rest := by
  unfold quoteBody
  rw [hch, List.flatMap_cons]

/-- The loop of `unquote` reads the body of a quoted string back to the string
and stops at the closing quote. -/
theorem unquoteLoop_body (table : Nat → Bool) (s : GoString) :
    ∀ buf t fuel, (quoteBody table s).length < fuel →
      unquoteLoop DQ fuel (quoteBody table s ++ DQ :: t) buf = some (buf ++ s, DQ :: t) := by
  induction s using chunks_induction with
  | h0 =>
    intro buf t fuel hf
    cases fuel with
    | zero => cases hf
    | succ k =>
      have : quoteBody table [] = [] := rfl
      rw [this, List.nil_append, unquoteLoop_stop, List.append_nil]
  | hstep r bs rest hc hpos hch ih =>
    intro buf t fuel hf
    rw [quoteBody_cons table r bs rest hch] at hf ⊢
    obtain ⟨h, tl, e, h1, h2⟩ := quoteChunk_head table (r, bs) hc hpos
    obtain ⟨⟨r', mb, hu, hd⟩, _⟩ := unit_roundtrip table (r, bs) hc (quoteBody table rest ++ DQ :: t)
    cases fuel with
    | zero => cases hf
    | succ k =>
      have hl : (quoteBody table rest).length < k := by
        rw [e] at hf
        simp only [List.length_append, List.length_cons] at hf
        omega
      rw [List.append_assoc]
      rw [e] at hu ⊢
      have e2 : h :: tl ++ (quoteBody table rest ++ DQ :: t) =
          h :: (tl ++ (quoteBody table rest ++ DQ :: t)) := rfl
      rw [e2] at hu ⊢
      rw [unquoteLoop_step k h _ buf r' mb _ h1 h2 hu, hd, ih _ t k hl, List.append_assoc]


theorem IndexByte_append (pre x : GoString) (c : Byte) (h : c ∉ pre) :
    IndexByte (pre ++ x) c = (IndexByte x c).map (fun i => i + pre.length) := by
  induction pre with
  | nil => simp
  | cons b pre ih =>
    have hb : b ≠ c := fun e => h (by rw [e]; exact List.mem_cons_self _ _)
    have hp : c ∉ pre := fun hm => h (List.mem_cons_of_mem _ hm)
    have e : IndexByte (b :: pre ++ x) c = (IndexByte (pre ++ x) c).map (fun i => i + 1) := by
      show IndexByte (b :: (pre ++ x)) c = _
      rw [IndexByte, if_neg hb]
    rw [e, ih hp]
    cases IndexByte x c with
    | none => rfl
    | some i => simp only [Option.map_some', List.length_cons, Nat.add_assoc]

theorem IndexByte_after (pre post : GoString) (c b : Byte) (hb : b ≠ c) (h : c ∉ pre) (e : Nat)
    (he : IndexByte (pre ++ b :: post) c = some e) : ∃ j, e = j + 1 + pre.length := by
  rw [IndexByte_append _ _ _ h, IndexByte, if_neg hb] at he
  cases hx : IndexByte post c with
  | none => rw [hx] at he; cases he
  | some j =>
    rw [hx] at he
    simp only [Option.map_some'] at he
    exact ⟨j, (Option.some.inj he).symm⟩

theorem IndexByte_head (x : GoString) (c : Byte) : IndexByte (c :: x) c = some 0 := by
  simp [IndexByte]

theorem IndexByte_of_mem (x : GoString) (c : Byte) (h : c ∈ x) : ∃ i, IndexByte x c = some i := by
  induction x with
  | nil => cases h
  | cons b x ih =>
    by_cases hb : b = c
    · exact ⟨0, by simp [IndexByte, hb]⟩
    · rcases List.mem_cons.mp h with h | h
      · exact absurd h.symm hb
      · obtain ⟨i, hi⟩ := ih h
        exact ⟨i + 1, by simp [IndexByte, hb, hi]⟩

/-- The body of a quoted string either is the string itself, free of quotes and
backslashes, or holds a backslash with no quote before it. -/
theorem quoteBody_shape (table : Nat → Bool) (s : GoString) :
    (quoteBody table s = s ∧ DQ ∉ quoteBody table s ∧ BSL ∉ quoteBody table s) ∨
    (∃ pre post, quoteBody table s = pre ++ BSL :: post ∧ DQ ∉ pre) := by
  induction s using chunks_induction with
  | h0 => exact Or.inl ⟨rfl, List.not_mem_nil _, List.not_mem_nil _⟩
  | hstep r bs rest hc hpos hch ih =>
    rw [quoteBody_cons table r bs rest hch]
    obtain ⟨_, hu⟩ := unit_roundtrip table (r, bs) hc []
    rcases hu with ⟨he, hq, hb⟩ | ⟨x, tl, he, _⟩
    · rcases ih with ⟨i1, i2, i3⟩ | ⟨pre, post, i1, i2⟩
      · left
        refine ⟨by rw [he, i1], ?_, ?_⟩
        · intro hm
          rcases List.mem_append.mp hm with hm | hm
          · exact hq hm
          · exact i2 hm
        · intro hm
          rcases List.mem_append.mp hm with hm | hm
          · exact hb hm
          · exact i3 hm
      · right
        refine ⟨quoteChunk table (r, bs) ++ pre, post, by rw [i1, List.append_assoc], ?_⟩
        intro hm
        rcases List.mem_append.mp hm with hm | hm
        · exact hq hm
        · exact i2 hm
    · right
      exact ⟨[], x :: tl ++ quoteBody table rest, by rw [he]; rfl, List.not_mem_nil _⟩

/-- `unquote` reads a string that `Quote` wrote back to the original and
leaves nothing of the input. -/
theorem unquote_Quote (table : Nat → Bool) (s : GoString) :
    unquote (Quote table s) = some (s, []) := by
  have hslow : unquoteLoop DQ ((Quote table s).length + 1) (quoteBody table s ++ [DQ]) [] =
      some (s, [DQ]) := by
    have := unquoteLoop_body table s [] [] ((Quote table s).length + 1) (by
      rw [Quote_eq]; simp only [List.length_cons, List.length_append]; omega)
    simpa using this
  have hmem : DQ ∈ quoteBody table s ++ [DQ] := by simp
  obtain ⟨e, he⟩ := IndexByte_of_mem _ _ hmem
  have hslowres : (match unquoteLoop DQ ((Quote table s).length + 1)
        (quoteBody table s ++ [DQ]) [] with
      | none => none
      | some (buf, rest) =>
        match rest with
        | [] => none
        | c :: rest => if c = DQ then some (buf, rest) else none) = some (s, []) := by
    rw [hslow]
    simp
  unfold unquote
  have h1 : ¬ (Quote table s).length < 2 := by
    rw [Quote_eq]; simp only [List.length_cons, List.length_append]; omega
  have h2 : (Quote table s).headD 0 = DQ := rfl
  have h3 : (Quote table s).drop 1 = quoteBody table s ++ [DQ] := rfl
  rw [if_neg h1]
  simp only [h2, h3, he]
  rw [if_neg (show ¬ DQ = BQ by decide)]
  simp only [true_or, if_true]
  split_ifs with hfast
  · -- the branch without escapes
    simp only [Bool.and_eq_true, Bool.not_eq_true'] at hfast
    obtain ⟨⟨hb, _⟩, _⟩ := hfast
    rcases quoteBody_shape table s with ⟨i1, i2, i3⟩ | ⟨pre, post, i1, i2⟩
    · have hidx : IndexByte (quoteBody table s ++ [DQ]) DQ = some (quoteBody table s).length := by
        rw [IndexByte_append _ _ _ i2, IndexByte_head]
        simp
      rw [hidx] at he
      cases he
      rw [Quote_eq]
      have t1 : (DQ :: (quoteBody table s ++ [DQ])).take ((quoteBody table s).length + 2 - 1) =
          DQ :: quoteBody table s := by
        simp
      have t2 : (DQ :: (quoteBody table s ++ [DQ])).drop ((quoteBody table s).length + 2) = [] := by
        simp
      rw [t1, t2, List.drop_succ_cons, List.drop_zero, i1]
    · exfalso
      have hidx : ∃ j, e = j + 1 + pre.length := by
        rw [i1, List.append_assoc, List.cons_append] at he
        exact IndexByte_after pre (post ++ [DQ]) DQ BSL (by decide) i2 e he
      obtain ⟨j, rfl⟩ := hidx
      have hin : BSL ∈ (Quote table s).take (j + 1 + pre.length + 2) := by
        rw [Quote_eq, i1]
        have e1 : DQ :: (pre ++ BSL :: post ++ [DQ]) = (DQ :: pre ++ [BSL]) ++ (post ++ [DQ]) := by
          simp
        rw [e1, List.take_append_eq_append_take]
        apply List.mem_append_left
        have hle : (DQ :: pre ++ [BSL]).length ≤ j + 1 + pre.length + 2 := by
          simp only [List.length_append, List.length_cons, List.length_nil]
          omega
        rw [List.take_of_length_le hle]
        simp
      have : containsByte ((Quote table s).take (j + 1 + pre.length + 2)) BSL = true := by
        unfold containsByte
        exact List.any_eq_true.mpr ⟨BSL, hin, by simp⟩
      rw [this] at hb
      cases hb
  · exact hslowres


theorem IsPrint_not_control (table : Nat → Bool) (r : Nat) (h : IsPrint table r = true) :
    isControl r = false := by
  unfold isControl
  by_cases hr : r ≤ 0xFF
  · unfold IsPrint at h
    rw [if_pos hr] at h
    by_cases h1 : 0x20 ≤ r ∧ r ≤ 0x7E
    · simp only [decide_eq_false_iff_not, Bool.or_eq_false_iff, Bool.and_eq_false_iff]
      simp; omega
    · rw [if_neg h1] at h
      by_cases h2 : 0xA1 ≤ r ∧ r ≤ 0xFF
      · simp; omega
      · rw [if_neg h2] at h; cases h
  · simp; omega

theorem printableAscii_lowerhex (d : Nat) (h : d < 16) : printableAscii (lowerhex d) := by
  have := lowerhex_range d h
  unfold printableAscii
  omega

theorem hexEscape_ascii (n : Nat) (h : n < 256) : ∀ x ∈ hexEscape n, printableAscii x := by
  intro x hx
  simp only [hexEscape, List.mem_cons, List.mem_singleton, List.not_mem_nil, or_false] at hx
  rcases hx with rfl | rfl | rfl | rfl
  · decide
  · decide
  · exact printableAscii_lowerhex _ (by omega)
  · exact printableAscii_lowerhex _ (by omega)

theorem simpleEscape_ascii (r : Nat) (e : Byte) (h : simpleEscape r = some e) :
    printableAscii e := by
  unfold simpleEscape at h
  split_ifs at h <;> (cases h; decide)

/-- The form of one piece of a quoted string: the encoding of a printable rune
other than the quote and the backslash, or an escape sequence of printable
ASCII characters. -/
theorem quoteChunk_form (table : Nat → Bool) (c : Nat × GoString) (hc : Chunk c) :
    (∃ r, quoteChunk table c = AppendRune r ∧ IsPrint table r = true ∧ isControl r = false ∧
      rawUnit (quoteChunk table c)) ∨
    (escapeUnit (quoteChunk table c) ∧ ∀ x ∈ quoteChunk table c, printableAscii x) := by
  obtain ⟨_, hu⟩ := unit_roundtrip table c hc []
  by_cases hq : c.2.length = 1 ∧ c.1 = RuneError
  · have e : quoteChunk table c = hexEscape (byteAt c.2 0) := by
      unfold quoteChunk; rw [if_pos hq]
    rw [e]
    have hlt : byteAt c.2 0 < 256 := by unfold byteAt; omega
    exact Or.inr ⟨hexEscape_escapeUnit _ hlt, hexEscape_ascii _ hlt⟩
  · have e : quoteChunk table c = appendEscapedRune table c.1 := by
      unfold quoteChunk; rw [if_neg hq]
    rw [e] at hu ⊢
    have hspec := appendEscapedRune_spec table c.1
    generalize appendEscapedRune table c.1 = out at hspec hu
    cases hspec with
    | backslashed h1 =>
      refine Or.inr ⟨⟨toByte c.1, [], rfl, by simp, by simp⟩, ?_⟩
      intro x hx
      simp only [List.mem_cons, List.mem_singleton, List.not_mem_nil, or_false] at hx
      rcases hx with rfl | rfl
      · decide
      · unfold printableAscii
        rw [toByte_val]
        omega
    | printable h1 h2 h3 =>
      rcases hu with ⟨_, hraw⟩ | ⟨x, tl, he, _⟩
      · exact Or.inl ⟨c.1, rfl, h3, IsPrint_not_control table c.1 h3, hraw⟩
      · exfalso
        have hv := AppendRune_print_visible table c.1 h3
        by_cases hr : 0x80 ≤ c.1
        · have := AppendRune_high c.1 hr BSL (by rw [he]; exact List.mem_cons_self _ _)
          exact absurd this (by decide)
        · unfold AppendRune at he
          rw [if_pos (by omega)] at he
          exact absurd (List.cons.inj he).2 (by simp)
    | simple e h1 h2 =>
      refine Or.inr ⟨⟨e, [], rfl, by simp, by simp⟩, ?_⟩
      intro x hx
      simp only [List.mem_cons, List.mem_singleton, List.not_mem_nil, or_false] at hx
      rcases hx with rfl | rfl
      · decide
      · exact simpleEscape_ascii _ _ h2
    | hex h1 h2 h3 =>
      exact Or.inr ⟨hexEscape_escapeUnit _ (Nat.mod_lt _ (by decide)),
        hexEscape_ascii _ (Nat.mod_lt _ (by decide))⟩
    | u4 v h1 h2 h3 h4 =>
      rcases hu with ⟨_, hraw⟩ | hesc
      · exact absurd (List.mem_cons_self _ _) hraw.2
      · refine Or.inr ⟨hesc, ?_⟩
        intro x hx
        simp only [List.mem_cons, List.mem_singleton, List.not_mem_nil, or_false] at hx
        rcases hx with rfl | rfl | rfl | rfl | rfl | rfl
        · decide
        · decide
        all_goals exact printableAscii_lowerhex _ (Nat.mod_lt _ (by decide))
    | u8 v h1 h2 h3 h4 =>
      rcases hu with ⟨_, hraw⟩ | hesc
      · exact absurd (List.mem_cons_self _ _) hraw.2
      · refine Or.inr ⟨hesc, ?_⟩
        intro x hx
        simp only [List.mem_cons, List.mem_singleton, List.not_mem_nil, or_false] at hx
        rcases hx with rfl | rfl | rfl | rfl | rfl | rfl | rfl | rfl | rfl | rfl
        · decide
        · decide
        all_goals exact printableAscii_lowerhex _ (Nat.mod_lt _ (by decide))

theorem Unquote_Quote (table : Nat → Bool) (s : GoString) :
    Unquote (Quote table s) = some s := by
  unfold Unquote
  rw [unquote_Quote]
  simp

/-- C8: a string that `appendValue` renders in quoted form is written as
`Quote` of it: a double quote, then for each rune of the value either the
encoding of a printable rune that is no control character, no quote and no
backslash, or an escape sequence of printable ASCII characters that starts with
a backslash and holds a quote or a further backslash only right after it, then
a double quote. No byte of the text is a line feed or another control
character, and `strconv.Unquote` reads the text back to exactly the value,
whatever bytes the value holds. -/
theorem quoted_value_roundtrip (f : TraditionFormatter) (env : Env) (b s : GoString)
    (h : f.needsQuoting s = true) :
    f.appendValue env b (Value.str s) = b ++ Quote env.printTable s ∧
    (∃ units : List GoString,
      Quote env.printTable s = [DQ] ++ units.flatten ++ [DQ] ∧
      units.length = (chunks s).length ∧
      ∀ u ∈ units,
        (∃ r, u = AppendRune r ∧ IsPrint env.printTable r = true ∧ isControl r = false ∧
          rawUnit u) ∨
        (escapeUnit u ∧ ∀ x ∈ u, printableAscii x)) ∧
    (∀ x ∈ Quote env.printTable s, 0x20 ≤ x.val ∧ x.val ≠ 0x7F) ∧
    Unquote (Quote env.printTable s) = some s := by
  refine ⟨?_, ?_, Quote_visible env.printTable s, Unquote_Quote env.printTable s⟩
  · rw [appendValue_def]
    simp [Sprint, h]
  · refine ⟨(chunks s).map (quoteChunk env.printTable), ?_, by simp, ?_⟩
    · unfold Quote
      rw [List.flatMap_def]
    · intro u hu
      obtain ⟨c, hc, rfl⟩ := List.mem_map.mp hu
      exact quoteChunk_form env.printTable c ((chunks_spec s).1 c hc)

/-- C8 at a string with a quote, a backslash, a line feed, a control character,
a non-ASCII rune and an invalid byte. -/
theorem quoted_value_roundtrip_witness :
    Quote sampleEnv.printTable awkwardString =
      asc "\"a \\\"b\\\\\\n\\x01" ++ [0xC3, 0xA9] ++ asc "\\xff\"" ∧
    Unquote (Quote sampleEnv.printTable awkwardString) = some awkwardString :=
  ⟨by decide,
    (quoted_value_roundtrip zeroFormatter sampleEnv [] awkwardString (by decide)).2.2.2⟩


/-! ## The coloured line -/

theorem header_eq (f : TraditionFormatter) (p : Package) (env : Env) (entry : Entry)
    (color : Int) (levelText source tsf : GoString) :
    header f p env entry color levelText source tsf =
      levelSegment color levelText ++ timeSegment f p env entry tsf ++ goidSegment f env ++
        source ++ asc " " ++ fmtPad44 entry.Message ++ asc " " := by
  unfold header timeSegment goidSegment
  cases f.ShowGoroutineId <;> cases f.DisableTimestamp <;> cases f.FullTimestamp <;>
    simp only [Bool.not_true, Bool.not_false, if_true, if_false, Bool.false_eq_true,
      List.append_assoc, List.append_nil, List.nil_append] <;> rfl

theorem foldl_coloredField_eq (f : TraditionFormatter) (env : Env) (entry : Entry)
    (color : Int) (keys : List GoString) (b : GoString) :
    keys.foldl (coloredField f env entry color) b =
      b ++ (keys.filter (fun k => k ≠ KEY_SOURCE)).flatMap (coloredToken f env entry color) := by
  induction keys generalizing b with
  | nil => simp
  | cons k ks ih =>
    rw [List.foldl_cons, ih]
    by_cases hk : k = KEY_SOURCE
    · simp [coloredField, hk]
    · have e : coloredField f env entry color b k = b ++ coloredToken f env entry color k := by
        unfold coloredField coloredToken
        rw [if_neg hk, appendValue_eq]
        simp only [List.append_assoc]
      rw [e]
      simp [hk, List.append_assoc]

/-- What `Format` returns in coloured mode, when it returns. -/
theorem Format_colored_line (f : TraditionFormatter) (p : Package) (env : Env) (entry : Entry)
    (out : GoString) (err : GoError) (h : (f.Format p env entry).2 = .ok (out, err))
    (hc : (f.Do p entry).isColored env = true) :
    out = f.coloredLine p env entry ∧ err = none ∧
    (f.DisableLevelTruncation = true ∨
      4 ≤ (ToUpper env.mapUpper (p.levelString entry.Level)).length) ∧
    ∀ t, entry.Data.get KEY_SOURCE ≠ Value.other t := by
  obtain ⟨herr, body, rfl, hbody⟩ := Format_ok f p env entry out err h
  rcases hbody with ⟨_, hcol⟩ | ⟨hp, _⟩
  · obtain ⟨levelText, source, hlt, hso, rfl⟩ := printColored_ok f p env _ entry _ _ body hcol
    have hl : levelText = levelLabel f p env entry ∧ (f.DisableLevelTruncation = true ∨
        4 ≤ (ToUpper env.mapUpper (p.levelString entry.Level)).length) := by
      unfold levelLabel
      cases hd : f.DisableLevelTruncation
      · rw [hd] at hlt
        simp only [Bool.not_false, if_true] at hlt
        unfold slice04 at hlt
        split_ifs at hlt with hlen
        cases hlt
        exact ⟨by simp, Or.inr (by omega)⟩
      · rw [hd] at hlt
        simp only [Bool.not_true, Bool.false_eq_true, if_false] at hlt
        cases hlt
        exact ⟨by simp, Or.inl rfl⟩
    have hs : source = sourceText entry ∧ ∀ t, entry.Data.get KEY_SOURCE ≠ Value.other t := by
      unfold sourceText
      cases hv : entry.Data.get KEY_SOURCE with
      | nil =>
        rw [hv] at hso
        simp only [ne_eq, not_true_eq_false, if_false] at hso
        cases hso
        exact ⟨rfl, fun t ht => by cases ht⟩
      | str s =>
        rw [hv] at hso
        simp only [ne_eq, reduceCtorEq, not_false_eq_true, if_true, assertString] at hso
        cases hso
        exact ⟨rfl, fun t ht => by cases ht⟩
      | other t =>
        rw [hv] at hso
        simp only [ne_eq, reduceCtorEq, not_false_eq_true, if_true, assertString] at hso
    refine ⟨?_, herr, hl.2, hs.2⟩
    unfold TraditionFormatter.coloredLine coloredFields
    rw [foldl_coloredField_eq, ← hl.1, ← hs.1]
  · rw [hc] at hp
    cases hp

/-! ## Decimal numbers -/

theorem decimalFuel_fuel (f1 f2 n : Nat) (h1 : n < f1) (h2 : n < f2) :
    decimalFuel f1 n = decimalFuel f2 n := by
  induction f1 generalizing f2 n with
  | zero => omega
  | succ a ih =>
    cases f2 with
    | zero => omega
    | succ b =>
      unfold decimalFuel
      by_cases h : n < 10
      · rw [if_pos h, if_pos h]
      · rw [if_neg h, if_neg h, ih b (n / 10) (by omega) (by omega)]

theorem decimal_small (n : Nat) (h : n < 10) : decimal n = [digit n] := by
  unfold decimal decimalFuel
  rw [if_pos h]
  rfl

theorem decimal_step (n : Nat) (h : 10 ≤ n) : decimal n = decimal (n / 10) ++ [digit (n % 10)] := by
  unfold decimal
  rw [decimalFuel]
  rw [if_neg (by omega), decimalFuel_fuel n (n / 10 + 1) (n / 10) (by omega) (by omega)]
  rfl

theorem fmt04d_small (k : Nat) (h : k ≤ 9999) : fmt04d (k : Int) = fourDigits k := by
  have hn : ¬ ((k : Int) < 0) := by omega
  unfold fmt04d fmtInteger fourDigits
  simp only [if_neg hn, Int.natAbs_ofNat]
  have z : ch '0' = digit 0 := rfl
  by_cases h1 : k < 10
  · rw [decimal_small k h1]
    have a1 : k / 1000 % 10 = 0 := by omega
    have a2 : k / 100 % 10 = 0 := by omega
    have a3 : k / 10 % 10 = 0 := by omega
    have a4 : k % 10 = k := by omega
    rw [a1, a2, a3, a4, z]
    rfl
  by_cases h2 : k < 100
  · rw [decimal_step k (by omega), decimal_small (k / 10) (by omega)]
    have a1 : k / 1000 % 10 = 0 := by omega
    have a2 : k / 100 % 10 = 0 := by omega
    have a3 : k / 10 % 10 = k / 10 := by omega
    rw [a1, a2, a3, z]
    rfl
  by_cases h3 : k < 1000
  · rw [decimal_step k (by omega), decimal_step (k / 10) (by omega),
      decimal_small (k / 10 / 10) (by omega)]
    have a1 : k / 1000 % 10 = 0 := by omega
    have a2 : k / 100 % 10 = k / 10 / 10 := by omega
    have a3 : k / 10 % 10 = k / 10 % 10 := rfl
    rw [a1, a2, z]
    rfl
  · rw [decimal_step k (by omega), decimal_step (k / 10) (by omega),
      decimal_step (k / 10 / 10) (by omega), decimal_small (k / 10 / 10 / 10) (by omega)]
    have a1 : k / 1000 % 10 = k / 10 / 10 / 10 := by omega
    have a2 : k / 100 % 10 = k / 10 / 10 % 10 := by omega
    rw [a1, a2]
    rfl

theorem elapsedSeconds_eq (p : Package) (entry : Entry) (k : Nat) (frac : Int)
    (hk : k ≤ 9999) (h0 : 0 ≤ frac) (h1 : frac < 1000000000)
    (ht : entry.Time = p.baseTimestamp + (k : Int) * 1000000000 + frac) :
    elapsedSeconds p entry = (k : Int) := by
  unfold elapsedSeconds timeSub
  have e : entry.Time - p.baseTimestamp = (k : Int) * 1000000000 + frac := by
    rw [ht]; ring
  rw [e]
  have hmin : min ((2 : Int) ^ 63 - 1) ((k : Int) * 1000000000 + frac) =
      (k : Int) * 1000000000 + frac := by
    apply min_eq_right
    norm_num
    omega
  rw [hmin]
  have hmax : max (-((2 : Int) ^ 63)) ((k : Int) * 1000000000 + frac) =
      (k : Int) * 1000000000 + frac := by
    apply max_eq_right
    norm_num
    omega
  rw [hmax, Int.tdiv_eq_ediv (by omega) (by omega)]
  omega

theorem decode_ascii (a : Byte) (rest : GoString) (h : a.val < 0x80) :
    DecodeRuneInString (a :: rest) = (a.val, 1) := by
  rw [decode_cons, first_ascii _ h]
  simp

theorem chunks_ascii (a : Byte) (rest : GoString) (h : a.val < 0x80) :
    chunks (a :: rest) = (a.val, [a]) :: chunks rest := by
  obtain ⟨r, bs, rest', e, _, hpos, hd, hch⟩ := chunks_cons a rest
  rw [decode_ascii a rest h] at hd
  have hr : r = a.val := (Prod.mk.inj hd).1.symm
  have hl : bs.length = 1 := (Prod.mk.inj hd).2.symm
  obtain ⟨x, rfl⟩ := List.length_eq_one.mp hl
  have e2 := List.cons.inj e
  rw [hch, hr, ← e2.1, e2.2]
  rfl

theorem RuneCount_ascii (s : GoString) (h : ∀ x ∈ s, x.val < 0x80) :
    RuneCountInString s = s.length := by
  unfold RuneCountInString
  induction s with
  | nil => rfl
  | cons a t ih =>
    rw [chunks_ascii a t (h a (List.mem_cons_self _ _)), List.length_cons, List.length_cons,
      ih (fun x hx => h x (List.mem_cons_of_mem _ hx))]

/-! ## Claims about the coloured line -/

/-- The rest of the leading segment after the level label. -/
theorem coloredLine_eq (f : TraditionFormatter) (p : Package) (env : Env) (entry : Entry) :
    f.coloredLine p env entry =
      entry.Buffer.getD [] ++ levelSegment (levelColor p entry.Level) (levelLabel f p env entry) ++
        timeSegment f p env entry
          (if f.TimestampFormat = [] then p.defaultTimestampFormat else f.TimestampFormat) ++
        goidSegment f env ++ sourceText entry ++ asc " " ++ fmtPad44 entry.Message ++ asc " " ++
        coloredFields f env entry (levelColor p entry.Level) ++ [LF] := by
  unfold TraditionFormatter.coloredLine
  rw [header_eq]
  simp only [List.append_assoc]

/-- In coloured mode `Format` returns the coloured line whenever the level label
can be cut and the `source` field is absent, nil or a string. -/
theorem Format_colored_total (f : TraditionFormatter) (p : Package) (env : Env) (entry : Entry)
    (hc : (f.Do p entry).isColored env = true)
    (hl : f.DisableLevelTruncation = true ∨
      4 ≤ (ToUpper env.mapUpper (p.levelString entry.Level)).length)
    (hs : ∀ t, entry.Data.get KEY_SOURCE ≠ Value.other t) :
    (f.Format p env entry).2 = .ok (f.coloredLine p env entry, none) := by
  obtain ⟨out, h⟩ := Format_returns f p env entry (Or.inr ⟨hl, hs⟩)
  rw [h, (Format_colored_line f p env entry out none h hc).1]

/-- C11: the colour is a function of the level alone, with four buckets: gray
for debug, yellow for warn, red for error, fatal and panic, blue for info and
every unrecognized level; a coloured line uses this one colour in the sequence
before the level bracket and in the sequence before every field key. -/
theorem level_color_buckets (f : TraditionFormatter) (p : Package) (env : Env) (entry : Entry)
    (hc : (f.Do p entry).isColored env = true)
    (hl : f.DisableLevelTruncation = true ∨
      4 ≤ (ToUpper env.mapUpper (p.levelString entry.Level)).length)
    (hs : ∀ t, entry.Data.get KEY_SOURCE ≠ Value.other t) :
    (levelColor p Level.DebugLevel = p.gray ∧ levelColor p Level.WarnLevel = p.yellow ∧
      levelColor p Level.ErrorLevel = p.red ∧ levelColor p Level.FatalLevel = p.red ∧
      levelColor p Level.PanicLevel = p.red ∧ levelColor p Level.InfoLevel = p.blue ∧
      ∀ n, levelColor p (Level.unrecognized n) = p.blue) ∧
    (f.Format p env entry).2 = .ok (entry.Buffer.getD [] ++
      ([ESC] ++ asc "[" ++ fmtD (levelColor p entry.Level) ++ asc "m[" ++
        levelLabel f p env entry ++ asc "] " ++ [ESC] ++ asc "[0m") ++
      timeSegment f p env entry
        (if f.TimestampFormat = [] then p.defaultTimestampFormat else f.TimestampFormat) ++
      goidSegment f env ++ sourceText entry ++ asc " " ++ fmtPad44 entry.Message ++ asc " " ++
      ((f.orderedKeys entry).filter (fun k => k ≠ KEY_SOURCE)).flatMap (fun k =>
        asc " " ++ [ESC] ++ asc "[" ++ fmtD (levelColor p entry.Level) ++ asc "m" ++ k ++
          [ESC] ++ asc "[0m=" ++ f.valueText env (entry.Data.get k)) ++ [LF], none) := by
  refine ⟨⟨rfl, rfl, rfl, rfl, rfl, rfl, fun n => rfl⟩, ?_⟩
  rw [Format_colored_total f p env entry hc hl hs, coloredLine_eq]
  rfl

/-- C11 at a warn record: yellow, code 33, before the bracket and before both
field keys. -/
theorem level_color_buckets_witness :
    (colorFormatter.Format samplePackage sampleEnv sourceEntry).2 = .ok (sourceEntryLine, none) ∧
    levelColor samplePackage sourceEntry.Level = 33 :=
  ⟨(level_color_buckets colorFormatter samplePackage sampleEnv sourceEntry rfl
      (Or.inr (by decide)) (fun t h => by cases h)).2, rfl⟩

/-- C13: in a coloured line the message stands in full, followed by as many
blanks as the message has runes fewer than 44 (none from 44 runes on), followed
by the blank that closes the leading segment; for a message of ASCII bytes the
number of runes is the number of bytes. -/
theorem message_padding (f : TraditionFormatter) (p : Package) (env : Env) (entry : Entry)
    (hc : (f.Do p entry).isColored env = true)
    (hl : f.DisableLevelTruncation = true ∨
      4 ≤ (ToUpper env.mapUpper (p.levelString entry.Level)).length)
    (hs : ∀ t, entry.Data.get KEY_SOURCE ≠ Value.other t) :
    (f.Format p env entry).2 = .ok (entry.Buffer.getD [] ++
      (levelSegment (levelColor p entry.Level) (levelLabel f p env entry) ++
        timeSegment f p env entry
          (if f.TimestampFormat = [] then p.defaultTimestampFormat else f.TimestampFormat) ++
        goidSegment f env ++ sourceText entry ++ [SP]) ++
      entry.Message ++ List.replicate (44 - RuneCountInString entry.Message) SP ++ [SP] ++
      coloredFields f env entry (levelColor p entry.Level) ++ [LF], none) ∧
    ((∀ x ∈ entry.Message, x.val < 0x80) → RuneCountInString entry.Message = entry.Message.length) ∧
    (RuneCountInString entry.Message = 3 →
      List.replicate (44 - RuneCountInString entry.Message) SP = List.replicate 41 SP) ∧
    (RuneCountInString entry.Message = 50 →
      List.replicate (44 - RuneCountInString entry.Message) SP = []) := by
  refine ⟨?_, RuneCount_ascii entry.Message, fun e => by rw [e], fun e => by rw [e]; rfl⟩
  rw [Format_colored_total f p env entry hc hl hs, coloredLine_eq]
  unfold fmtPad44
  have e : asc " " = [SP] := rfl
  rw [e]
  simp only [List.append_assoc]

/-- C13 at the message `abc`: 41 blanks of padding, then the closing blank and
the blank that opens the first field. -/
theorem message_padding_witness :
    (colorFormatter.Format samplePackage sampleEnv sourceEntry).2 = .ok (sourceEntryLine, none) ∧
    RuneCountInString sourceEntry.Message = 3 ∧
    List.replicate (44 - RuneCountInString sourceEntry.Message) SP = List.replicate 41 SP :=
  ⟨(message_padding colorFormatter samplePackage sampleEnv sourceEntry rfl
      (Or.inr (by decide)) (fun t h => by cases h)).1, by decide, rfl⟩

/-- C14: in a coloured line without `DisableTimestamp` and `FullTimestamp`, for
a record stamped `k` whole seconds (`k` up to 9999) and a fraction of a second
after `baseTimestamp`, the segment after the level label is `[dddd] ` with the
four decimal digits of `k`; under `DisableTimestamp` that segment is a single
blank and there is no bracket. -/
theorem elapsed_seconds_segment (f : TraditionFormatter) (p : Package) (env : Env)
    (entry : Entry) (k : Nat) (frac : Int)
    (hc : (f.Do p entry).isColored env = true)
    (hl : f.DisableLevelTruncation = true ∨
      4 ≤ (ToUpper env.mapUpper (p.levelString entry.Level)).length)
    (hs : ∀ t, entry.Data.get KEY_SOURCE ≠ Value.other t)
    (hk : k ≤ 9999) (h0 : 0 ≤ frac) (h1 : frac < 1000000000)
    (ht : entry.Time = p.baseTimestamp + (k : Int) * 1000000000 + frac) :
    (f.DisableTimestamp = false → f.FullTimestamp = false →
      (f.Format p env entry).2 = .ok (entry.Buffer.getD [] ++
        levelSegment (levelColor p entry.Level) (levelLabel f p env entry) ++
        (asc "[" ++ fourDigits k ++ asc "] ") ++
        goidSegment f env ++ sourceText entry ++ asc " " ++ fmtPad44 entry.Message ++ asc " " ++
        coloredFields f env entry (levelColor p entry.Level) ++ [LF], none)) ∧
    (f.DisableTimestamp = true →
      (f.Format p env entry).2 = .ok (entry.Buffer.getD [] ++
        levelSegment (levelColor p entry.Level) (levelLabel f p env entry) ++
        asc " " ++
        goidSegment f env ++ sourceText entry ++ asc " " ++ fmtPad44 entry.Message ++ asc " " ++
        coloredFields f env entry (levelColor p entry.Level) ++ [LF], none)) ∧
    fourDigits k = [digit (k / 1000 % 10), digit (k / 100 % 10), digit (k / 10 % 10),
      digit (k % 10)] := by
  have hline := Format_colored_total f p env entry hc hl hs
  rw [coloredLine_eq] at hline
  refine ⟨?_, ?_, rfl⟩
  · intro hd hf
    rw [hline]
    unfold timeSegment
    rw [hd, hf, elapsedSeconds_eq p entry k frac hk h0 h1 ht, fmt04d_small k hk]
    rfl
  · intro hd
    rw [hline]
    unfold timeSegment
    rw [hd]
    rfl

/-- C14 at a record stamped five seconds after start-up: the segment is `[0005] `. -/
theorem elapsed_seconds_segment_witness :
    (colorFormatter.Format samplePackage sampleEnv sourceEntry).2 = .ok (sourceEntryLine, none) ∧
    fourDigits 5 = asc "0005" ∧
    (fullLevelFormatter.Format samplePackage sampleEnv sourceEntry).2 =
      .ok (sourceEntryFullLine, none) :=
  ⟨(elapsed_seconds_segment colorFormatter samplePackage sampleEnv sourceEntry 5 0 rfl
      (Or.inr (by decide)) (fun t h => by cases h) (by decide) (by decide) (by decide)
      rfl).1 rfl rfl, by decide,
    (elapsed_seconds_segment fullLevelFormatter samplePackage sampleEnv sourceEntry 5 0 rfl
      (Or.inl rfl) (fun t h => by cases h) (by decide) (by decide) (by decide) rfl).2.1 rfl⟩

/-- A panic leaves `Format` only from `printColored`. -/
theorem Format_error (f : TraditionFormatter) (p : Package) (env : Env) (entry : Entry)
    (e : Panic) (h : (f.Format p env entry).2 = .error e) :
    f.printColored p env (entry.Buffer.getD []) entry (f.orderedKeys entry)
      (if f.TimestampFormat = [] then p.defaultTimestampFormat else f.TimestampFormat) =
      .error e := by
  cases hc : (f.Do p entry).isColored env
  · rw [Format_of_not_colored f p env entry hc] at h
    cases h
  · unfold TraditionFormatter.Format at h
    simp only [hc, Do_TimestampFormat, if_true, printColored_Do] at h
    cases hB : entry.Buffer <;> simp only [hB, Option.getD] at h ⊢ <;> split at h
    · rename_i e2 he
      cases h
      exact he
    · cases h
    · rename_i e2 he
      cases h
      exact he
    · cases h

/-- The two panics of `printColored`: the slice of a level name shorter than
four bytes, and the type assertion on a `source` that is no string. -/
theorem printColored_error (f : TraditionFormatter) (p : Package) (env : Env) (b : GoString)
    (entry : Entry) (keys : List GoString) (tsf : GoString) (e : Panic)
    (h : f.printColored p env b entry keys tsf = .error e) :
    (e = Panic.sliceBounds ∧ f.DisableLevelTruncation = false ∧
      (ToUpper env.mapUpper (p.levelString entry.Level)).length < 4) ∨
    (e = Panic.typeAssertion ∧ ∃ t, entry.Data.get KEY_SOURCE = Value.other t) := by
  unfold TraditionFormatter.printColored at h
  simp only at h
  split at h
  · rename_i e2 hl
    cases h
    left
    cases hd : f.DisableLevelTruncation
    · rw [hd] at hl
      simp only [Bool.not_false, if_true] at hl
      unfold slice04 at hl
      split_ifs at hl with hlen
      cases hl
      exact ⟨rfl, rfl, hlen⟩
    · rw [hd] at hl
      simp only [Bool.not_true, Bool.false_eq_true, if_false] at hl
      cases hl
  · split at h
    · rename_i e2 hs
      cases h
      right
      cases hv : entry.Data.get KEY_SOURCE with
      | nil =>
        rw [hv] at hs
        simp only [ne_eq, not_true_eq_false, if_false] at hs
        cases hs
      | str s =>
        rw [hv] at hs
        simp only [ne_eq, reduceCtorEq, not_false_eq_true, if_true, assertString] at hs
      | other t =>
        rw [hv] at hs
        simp only [ne_eq, reduceCtorEq, not_false_eq_true, if_true, assertString] at hs
        exact ⟨(Except.error.inj hs).symm, t, rfl⟩
    · cases h

theorem ToUpper_sampleLevelString (mapUpper : GoString → GoString) (l : Level) :
    ToUpper mapUpper (sampleLevelString l) = upperLevelName l := by
  cases l <;> rfl

/-- C12: with the level names `panic`, `fatal`, `error`, `warning`, `info`,
`debug` and `unknown`, the upper-cased name of every level, recognized or not,
has at least four bytes, so the slice `levelText[0:4]` is in range and `Format`
never panics on it; the label in the bracket of a coloured line is the first
four bytes of the upper-cased name (`PANI`, `FATA`, `ERRO`, `WARN`, `INFO`,
`DEBU`, `UNKN`), or under `DisableLevelTruncation` the whole name. -/
theorem level_label_truncation (f : TraditionFormatter) (p : Package) (env : Env)
    (entry : Entry) (hp : p.levelString = sampleLevelString) :
    4 ≤ (ToUpper env.mapUpper (p.levelString entry.Level)).length ∧
    ToUpper env.mapUpper (p.levelString entry.Level) = upperLevelName entry.Level ∧
    (f.DisableLevelTruncation = false →
      slice04 (ToUpper env.mapUpper (p.levelString entry.Level)) =
        .ok (levelLabel f p env entry) ∧
      levelLabel f p env entry = (upperLevelName entry.Level).take 4 ∧
      (levelLabel f p env entry).length = 4) ∧
    (f.DisableLevelTruncation = true → levelLabel f p env entry = upperLevelName entry.Level) ∧
    ((upperLevelName Level.InfoLevel).take 4 = asc "INFO" ∧
      (upperLevelName Level.DebugLevel).take 4 = asc "DEBU" ∧
      (upperLevelName Level.WarnLevel).take 4 = asc "WARN" ∧
      (upperLevelName Level.ErrorLevel).take 4 = asc "ERRO" ∧
      (upperLevelName Level.FatalLevel).take 4 = asc "FATA" ∧
      (upperLevelName Level.PanicLevel).take 4 = asc "PANI" ∧
      (∀ n, (upperLevelName (Level.unrecognized n)).take 4 = asc "UNKN") ∧
      upperLevelName Level.WarnLevel = asc "WARNING") ∧
    (f.Format p env entry).2 ≠ .error Panic.sliceBounds ∧
    ((f.Do p entry).isColored env = true →
      (∀ t, entry.Data.get KEY_SOURCE ≠ Value.other t) →
      ∃ rest, (f.Format p env entry).2 = .ok (entry.Buffer.getD [] ++
        ([ESC] ++ asc "[" ++ fmtD (levelColor p entry.Level) ++
          asc "m[" ++ levelLabel f p env entry ++ asc "] " ++ [ESC] ++ asc "[0m") ++ rest,
        none)) := by
  have hu : ToUpper env.mapUpper (p.levelString entry.Level) = upperLevelName entry.Level := by
    rw [hp]
    exact ToUpper_sampleLevelString env.mapUpper entry.Level
  have hlen : 4 ≤ (upperLevelName entry.Level).length := by
    cases entry.Level <;> simp +decide [upperLevelName]
  refine ⟨by rw [hu]; exact hlen, hu, ?_, ?_,
    ⟨rfl, rfl, rfl, rfl, rfl, rfl, fun n => rfl, rfl⟩, ?_, ?_⟩
  · intro hd
    unfold levelLabel slice04
    rw [hd, hu, if_neg (by omega)]
    simp only [Bool.false_eq_true, if_false, List.length_take, true_and]
    omega
  · intro hd
    unfold levelLabel
    rw [hd, hu]
    rfl
  · intro he
    rcases printColored_error f p env _ entry _ _ _ (Format_error f p env entry _ he) with
      ⟨_, _, hlt⟩ | ⟨hne, _⟩
    · rw [hu] at hlt
      omega
    · cases hne
  · intro hc hs
    rw [Format_colored_total f p env entry hc (Or.inr (by rw [hu]; exact hlen)) hs,
      coloredLine_eq]
    refine ⟨timeSegment f p env entry
        (if f.TimestampFormat = [] then p.defaultTimestampFormat else f.TimestampFormat) ++
      goidSegment f env ++ sourceText entry ++ asc " " ++ fmtPad44 entry.Message ++ asc " " ++
      coloredFields f env entry (levelColor p entry.Level) ++ [LF], ?_⟩
    unfold levelSegment
    simp only [List.append_assoc]

/-- C12 at a warn record: the label is `WARN`, and `WARNING` under
`DisableLevelTruncation`. -/
theorem level_label_truncation_witness :
    (colorFormatter.Format samplePackage sampleEnv sourceEntry).2 = .ok (sourceEntryLine, none) ∧
    (fullLevelFormatter.Format samplePackage sampleEnv sourceEntry).2 =
      .ok (sourceEntryFullLine, none) ∧
    levelLabel colorFormatter samplePackage sampleEnv sourceEntry = asc "WARN" ∧
    levelLabel fullLevelFormatter samplePackage sampleEnv sourceEntry = asc "WARNING" ∧
    4 ≤ (ToUpper sampleEnv.mapUpper (samplePackage.levelString sourceEntry.Level)).length :=
  ⟨rfl, rfl, rfl, rfl,
    (level_label_truncation colorFormatter samplePackage sampleEnv sourceEntry rfl).1⟩

/-- The index expression yields the nil interface for a key that is not in the bag. -/
theorem Fields_get_absent (data : Fields) (k : GoString) (h : k ∉ data.keys) :
    data.get k = Value.nil := by
  unfold Fields.get
  have : data.entries.find? (fun kv => kv.1 = k) = none := by
    rw [List.find?_eq_none]
    intro kv hkv hk
    apply h
    unfold Fields.keys
    have e : kv.1 = k := by simpa using hk
    rw [← e]
    exact List.mem_map_of_mem Prod.fst hkv
  rw [this]

/-- The ordered key sequence holds no key twice. -/
theorem orderedKeys_nodup (f : TraditionFormatter) (entry : Entry) :
    (f.orderedKeys entry).Nodup := by
  unfold TraditionFormatter.orderedKeys
  simp only
  split_ifs
  · exact (sortStrings_perm _).nodup_iff.mpr entry.Data.nodup
  · exact entry.Data.nodup

/-- A string of a list without repetition occurs in it once. -/
theorem count_of_nodup (l : List GoString) (k : GoString) (hn : l.Nodup) (hk : k ∈ l) :
    l.count k = 1 := by
  induction l with
  | nil => cases hk
  | cons x t ih =>
    rw [List.nodup_cons] at hn
    rw [List.count_cons]
    rcases List.mem_cons.mp hk with rfl | hm
    · rw [List.count_eq_zero_of_not_mem hn.1]
      simp
    · have hx : x ≠ k := fun e => hn.1 (e ▸ hm)
      rw [ih hn.2 hm]
      simp [hx]

/-- Every key of the bag is in the ordered key sequence. -/
theorem mem_orderedKeys_of_mem (f : TraditionFormatter) (entry : Entry) (k : GoString)
    (hk : k ∈ entry.Data.keys) : k ∈ f.orderedKeys entry := by
  unfold TraditionFormatter.orderedKeys
  simp only
  split_ifs
  · exact (sortStrings_perm _).mem_iff.mpr hk
  · exact hk

/-- C15: a coloured line is the buffer, the level and time segments, the value
of the `source` field (the string it holds, nothing when the field is absent), a
blank, the padded message, a blank, and then for each key of the ordered key
sequence other than `source`, in the order of that sequence and once each, a
blank, the key between the colour sequences, `=` and the text `appendValue`
writes for its value; `source` is not among those keys. -/
theorem colored_fields_skip_source (f : TraditionFormatter) (p : Package) (env : Env)
    (entry : Entry)
    (hc : (f.Do p entry).isColored env = true)
    (hl : f.DisableLevelTruncation = true ∨
      4 ≤ (ToUpper env.mapUpper (p.levelString entry.Level)).length)
    (hs : ∀ t, entry.Data.get KEY_SOURCE ≠ Value.other t) :
    (f.Format p env entry).2 = .ok (entry.Buffer.getD [] ++
      (levelSegment (levelColor p entry.Level) (levelLabel f p env entry) ++
        timeSegment f p env entry
          (if f.TimestampFormat = [] then p.defaultTimestampFormat else f.TimestampFormat) ++
        goidSegment f env ++ sourceText entry ++ asc " " ++ fmtPad44 entry.Message ++ asc " ") ++
      ((f.orderedKeys entry).filter (fun k => k ≠ KEY_SOURCE)).flatMap (fun k =>
        asc " " ++ [ESC] ++ asc "[" ++ fmtD (levelColor p entry.Level) ++ asc "m" ++ k ++
          [ESC] ++ asc "[0m=" ++ f.appendValue env [] (entry.Data.get k)) ++ [LF], none) ∧
    (∀ s, entry.Data.get KEY_SOURCE = Value.str s → sourceText entry = s) ∧
    (KEY_SOURCE ∉ entry.Data.keys → sourceText entry = []) ∧
    KEY_SOURCE ∉ (f.orderedKeys entry).filter (fun k => k ≠ KEY_SOURCE) ∧
    ((f.orderedKeys entry).filter (fun k => k ≠ KEY_SOURCE)).Sublist (f.orderedKeys entry) ∧
    (∀ k ∈ entry.Data.keys, k ≠ KEY_SOURCE →
      ((f.orderedKeys entry).filter (fun k => k ≠ KEY_SOURCE)).count k = 1) := by
  refine ⟨?_, ?_, ?_, ?_, List.filter_sublist _, ?_⟩
  · have e : coloredFields f env entry (levelColor p entry.Level) =
        ((f.orderedKeys entry).filter (fun k => k ≠ KEY_SOURCE)).flatMap (fun k =>
          asc " " ++ [ESC] ++ asc "[" ++ fmtD (levelColor p entry.Level) ++ asc "m" ++ k ++
            [ESC] ++ asc "[0m=" ++ f.appendValue env [] (entry.Data.get k)) := rfl
    rw [Format_colored_total f p env entry hc hl hs, coloredLine_eq, e]
    simp only [List.append_assoc]
  · intro s hs
    unfold sourceText
    rw [hs]
  · intro hs
    unfold sourceText
    rw [Fields_get_absent _ _ hs]
  · intro hm
    have := (List.mem_filter.mp hm).2
    simp at this
  · intro k hk hne
    apply count_of_nodup _ k ((orderedKeys_nodup f entry).filter _)
    rw [List.mem_filter]
    exact ⟨mem_orderedKeys_of_mem f entry k hk, by simpa using hne⟩

/-- C15 at a record with the fields `source`, `b` and `a`: the line carries
`main.go:3` before the message and the tokens of `a` and `b` after it. -/
theorem colored_fields_skip_source_witness :
    (colorFormatter.Format samplePackage sampleEnv sourceEntry).2 = .ok (sourceEntryLine, none) ∧
    colorFormatter.orderedKeys sourceEntry = [asc "a", asc "b", asc "source"] ∧
    (colorFormatter.orderedKeys sourceEntry).filter (fun k => k ≠ KEY_SOURCE) =
      [asc "a", asc "b"] ∧
    sourceText sourceEntry = asc "main.go:3" ∧
    sourceText noSourceEntry = [] :=
  ⟨(colored_fields_skip_source colorFormatter samplePackage sampleEnv sourceEntry rfl
      (Or.inr (by decide)) (fun t h => by cases h)).1, by decide, by decide,
    (colored_fields_skip_source colorFormatter samplePackage sampleEnv sourceEntry rfl
      (Or.inr (by decide)) (fun t h => by cases h)).2.1 (asc "main.go:3") rfl,
    (colored_fields_skip_source colorFormatter samplePackage sampleEnv noSourceEntry rfl
      (Or.inr (by decide)) (fun t h => by cases h)).2.2.1 (by decide)⟩

/-! ## Two calls on one record -/

theorem Format_fst (f : TraditionFormatter) (p : Package) (env : Env) (entry : Entry) :
    (f.Format p env entry).1 = f.Do p entry := by
  unfold TraditionFormatter.Format
  simp only
  split <;> rfl

/-- The function of `Do` runs once: a second `Do` leaves the formatter as it is. -/
theorem Do_Do (f : TraditionFormatter) (p : Package) (e e2 : Entry) :
    (f.Do p e).Do p e2 = f.Do p e := by
  cases h : f.onceDone <;> simp [TraditionFormatter.Do, h]

theorem Do_onceDone (f : TraditionFormatter) (p : Package) (e : Entry) :
    (f.Do p e).onceDone = true := by
  cases h : f.onceDone <;> simp [TraditionFormatter.Do, h]

theorem Do_orderedKeys (f : TraditionFormatter) (p : Package) (e e2 : Entry) :
    (f.Do p e).orderedKeys e2 = f.orderedKeys e2 := by
  obtain ⟨t, d, h⟩ := Do_eq f p e
  rw [h]
  rfl

/-- The index expression yields the value stored under the key. -/
theorem Fields_get_of_mem (data : Fields) (k : GoString) (v : Value)
    (h : (k, v) ∈ data.entries) : data.get k = v := by
  unfold Fields.get
  cases hf : data.entries.find? (fun kv => kv.1 = k) with
  | none =>
    rw [List.find?_eq_none] at hf
    exact absurd (hf (k, v) h) (by simp)
  | some kv =>
    have hm := List.mem_of_find?_eq_some hf
    have hk : kv.1 = k := by simpa using List.find?_some hf
    have := List.inj_on_of_nodup_map data.nodup hm h hk
    rw [this]

/-- The index expression does not depend on the order in which the bag is held. -/
theorem Fields_get_perm (d1 d2 : Fields) (h : d1.entries.Perm d2.entries) (k : GoString) :
    d1.get k = d2.get k := by
  by_cases hk : k ∈ d2.keys
  · unfold Fields.keys at hk
    obtain ⟨kv, hkv, rfl⟩ := List.mem_map.mp hk
    rw [Fields_get_of_mem d2 kv.1 kv.2 hkv, Fields_get_of_mem d1 kv.1 kv.2 (h.mem_iff.mpr hkv)]
  · have hk1 : k ∉ d1.keys := by
      intro hm
      apply hk
      unfold Fields.keys at hm ⊢
      exact (h.map Prod.fst).mem_iff.mp hm
    rw [Fields_get_absent d1 k hk1, Fields_get_absent d2 k hk]

/-- Sorting yields the same sequence for every order the keys come in. -/
theorem sortStrings_of_perm (k1 k2 : List GoString) (h : k1.Perm k2) (hn : k2.Nodup) :
    sortStrings k1 = sortStrings k2 := by
  have h1 := sortStrings_strict k1 (h.nodup_iff.mpr hn)
  have h2 := sortStrings_strict k2 hn
  have hp : (sortStrings k1).Perm (sortStrings k2) :=
    ((sortStrings_perm k1).trans h).trans (sortStrings_perm k2).symm
  haveI : IsAntisymm GoString (fun a b => strLess a b = true) :=
    ⟨fun a b hab hba => by rw [strLess_asymm a b hab] at hba; cases hba⟩
  exact List.eq_of_perm_of_sorted hp h1 h2

/-- What `Format` returns is settled by the formatter after `Do`, the ordered
keys, the time, the level, the message, the buffer and the values under the
keys. -/
theorem Format_congr (f g : TraditionFormatter) (p : Package) (env : Env) (e e2 : Entry)
    (hg : g.Do p e2 = f.Do p e) (hk : g.orderedKeys e2 = f.orderedKeys e)
    (hT : e2.Time = e.Time) (hL : e2.Level = e.Level) (hM : e2.Message = e.Message)
    (hB : e2.Buffer = e.Buffer) (hget : ∀ k, e2.Data.get k = e.Data.get k) :
    (g.Format p env e2).2 = (f.Format p env e).2 := by
  obtain ⟨L, D, T, lv, M, B⟩ := e
  obtain ⟨L2, D2, T2, lv2, M2, B2⟩ := e2
  simp only at hT hL hM hB hget
  subst hT hL hM hB
  unfold TraditionFormatter.Format
  simp only [hg, hk]
  unfold TraditionFormatter.printColored TraditionFormatter.printPlain header coloredField
    elapsedSeconds
  simp only [hget]

/-- C16, counterexample: with `DisableSorting` the line follows the order in
which `range` yields the keys of the map, which is not the same from one call to
the next; a first call that gets `a` before `b` and a second call on the same
record that gets `b` before `a` return different bytes. -/
theorem Format_twice_counterexample :
    swappedEntry.Data.entries.Perm pairEntry.Data.entries ∧
    swappedEntry.Time = pairEntry.Time ∧ swappedEntry.Level = pairEntry.Level ∧
    swappedEntry.Message = pairEntry.Message ∧ swappedEntry.Buffer = pairEntry.Buffer ∧
    swappedEntry.Logger = pairEntry.Logger ∧
    (unsortedFormatter.Format samplePackage sampleEnv pairEntry).2 =
      .ok (asc "level=info a=1 b=2\n", none) ∧
    ((unsortedFormatter.Format samplePackage sampleEnv pairEntry).1.Format samplePackage
      sampleEnv swappedEntry).2 = .ok (asc "level=info b=2 a=1\n", none) ∧
    ((unsortedFormatter.Format samplePackage sampleEnv pairEntry).1.Format samplePackage
      sampleEnv swappedEntry).2 ≠ (unsortedFormatter.Format samplePackage sampleEnv pairEntry).2 := by
  refine ⟨List.Perm.swap _ _ _, rfl, rfl, rfl, rfl, rfl, rfl, rfl, ?_⟩
  intro h
  have h2 := congrArg (fun r : Except Panic (GoString × GoError) =>
    match r with
    | .ok (o, _) => o
    | .error _ => []) h
  exact absurd h2 (by decide)

/-- C16, amended: a second `Format` call of the same formatter on the same
record (the same time, level, message and buffer bytes, the same fields in
whatever order the map yields them) returns what the first call returned, bytes
or panic, when the keys are sorted or the map yields them in the same order at
both calls; the logger of the record does not matter at the second call. -/
theorem Format_twice_same (f : TraditionFormatter) (p : Package) (env : Env) (e e2 : Entry)
    (hT : e2.Time = e.Time) (hL : e2.Level = e.Level) (hM : e2.Message = e.Message)
    (hB : e2.Buffer = e.Buffer) (hD : e2.Data.entries.Perm e.Data.entries)
    (hs : f.DisableSorting = false ∨ e2.Data.keys = e.Data.keys) :
    ((f.Format p env e).1.Format p env e2).2 = (f.Format p env e).2 ∧
    ((f.Format p env e).1.Format p env e2).1 = (f.Format p env e).1 := by
  rw [Format_fst f p env e]
  refine ⟨Format_congr f (f.Do p e) p env e e2 (Do_Do f p e e2) ?_ hT hL hM hB
    (Fields_get_perm _ _ hD), ?_⟩
  · rw [Do_orderedKeys]
    unfold TraditionFormatter.orderedKeys
    rcases hs with hs | hs
    · simp only [hs, Bool.not_false, if_true]
      exact sortStrings_of_perm _ _ (hD.map Prod.fst) e.Data.nodup
    · simp only [hs]
  · rw [Format_fst, Do_Do]

/-- C16 at a record with two fields that the map yields in either order: with
sorting, both calls return the same line. -/
theorem Format_twice_same_witness :
    ((relabelFormatter.Format samplePackage sampleEnv pairEntry).1.Format samplePackage
      sampleEnv swappedEntry).2 = (relabelFormatter.Format samplePackage sampleEnv pairEntry).2 ∧
    (relabelFormatter.Format samplePackage sampleEnv pairEntry).2 =
      .ok (asc "@level=info a=1 b=2\n", none) :=
  ⟨(Format_twice_same relabelFormatter samplePackage sampleEnv pairEntry swappedEntry rfl rfl
      rfl rfl (List.Perm.swap _ _ _) (Or.inl rfl)).1, rfl⟩

/-! ## The terminal check -/

/-- Once `Do` has run, `Format` calls leave the formatter as it is. -/
theorem formatCalls_done (g : TraditionFormatter) (p : Package) (env : Env)
    (entries : List Entry) (h : g.onceDone = true) : formatCalls g p env entries = g := by
  induction entries with
  | nil => rfl
  | cons e rest ih =>
    have e1 : (g.Format p env e).1 = g := by
      rw [Format_fst]
      simp [TraditionFormatter.Do, h]
    have e2 : formatCalls g p env (e :: rest) = formatCalls (g.Format p env e).1 p env rest := rfl
    rw [e2, e1, ih]

/-- C17: on a formatter whose `Once` has not run, the first `Format` call sets
`isTerminal` to the result of `checkIfTerminal` on the output stream of the
logger of that record (it leaves the field alone when the record has no logger)
and marks the `Once` as run; after every further sequence of `Format` calls, on
records of whatever logger and stream, the formatter is the one the first call
left, so `isTerminal` never changes again. -/
theorem isTerminal_set_once (f : TraditionFormatter) (p : Package) (env : Env) (first : Entry)
    (rest : List Entry) (h0 : f.onceDone = false) :
    (∀ logger, first.Logger = some logger →
      (f.Format p env first).1.isTerminal = p.checkIfTerminal logger.Out) ∧
    (first.Logger = none → (f.Format p env first).1.isTerminal = f.isTerminal) ∧
    (f.Format p env first).1.onceDone = true ∧
    formatCalls f p env (first :: rest) = (f.Format p env first).1 ∧
    (formatCalls f p env (first :: rest)).isTerminal = (f.Format p env first).1.isTerminal := by
  have e2 : formatCalls f p env (first :: rest) =
      formatCalls (f.Format p env first).1 p env rest := rfl
  have hd : (f.Format p env first).1.onceDone = true := by
    rw [Format_fst]
    exact Do_onceDone f p first
  have e3 := formatCalls_done _ p env rest hd
  refine ⟨?_, ?_, hd, by rw [e2, e3], by rw [e2, e3]⟩
  · intro logger hl
    rw [Format_fst]
    simp [TraditionFormatter.Do, TraditionFormatter.init, h0, hl]
  · intro hl
    rw [Format_fst]
    simp [TraditionFormatter.Do, TraditionFormatter.init, h0, hl]

/-- C17 at three calls: the first record goes to a terminal, the second to a
file, the third has no logger; `isTerminal` is true after all three. -/
theorem isTerminal_set_once_witness :
    (formatCalls zeroFormatter ttyPackage sampleEnv [ttyEntry, fileEntry, bareEntry]).isTerminal =
      (zeroFormatter.Format ttyPackage sampleEnv ttyEntry).1.isTerminal ∧
    (zeroFormatter.Format ttyPackage sampleEnv ttyEntry).1.isTerminal = true ∧
    ttyPackage.checkIfTerminal 2 = false :=
  ⟨(isTerminal_set_once zeroFormatter ttyPackage sampleEnv ttyEntry [fileEntry, bareEntry]
      rfl).2.2.2.2, rfl, rfl⟩

/-! ## The goroutine id -/

theorem TrimPrefix_append (pre x : GoString) : TrimPrefix (pre ++ x) pre = x := by
  unfold TrimPrefix
  have h : pre.isPrefixOf (pre ++ x) = true := by
    rw [List.isPrefixOf_iff_prefix]
    exact List.prefix_append pre x
  rw [if_pos h, List.drop_left]

theorem fieldsAux_cons (c : Nat × GoString) (rest : List (Nat × GoString)) (cur : GoString) :
    fieldsAux (c :: rest) cur =
      if IsSpace c.1 then (if cur.length = 0 then [] else [cur]) ++ fieldsAux rest []
      else fieldsAux rest (cur ++ c.2) := rfl

/-- A run of ASCII bytes that are no white space, closed by an ASCII white
space, is one field. -/
theorem fieldsAux_run (d : GoString) (w : Byte) (rest cur : GoString)
    (hd : ∀ a ∈ d, a.val < 0x80 ∧ IsSpace a.val = false)
    (hw : w.val < 0x80 ∧ IsSpace w.val = true) (hne : cur ++ d ≠ []) :
    fieldsAux (chunks (d ++ w :: rest)) cur = (cur ++ d) :: fieldsAux (chunks rest) [] := by
  induction d generalizing cur with
  | nil =>
    rw [List.nil_append, chunks_ascii w rest hw.1, fieldsAux_cons]
    simp only [hw.2, if_true]
    rw [List.append_nil] at hne ⊢
    have : cur.length ≠ 0 := fun h => hne (List.length_eq_zero.mp h)
    rw [if_neg this]
    rfl
  | cons a t ih =>
    have ha := hd a (List.mem_cons_self _ _)
    rw [List.cons_append, chunks_ascii a _ ha.1, fieldsAux_cons]
    simp only [ha.2, Bool.false_eq_true, if_false]
    rw [ih (cur ++ [a]) (fun x hx => hd x (List.mem_cons_of_mem _ hx)) (by simp)]
    simp

theorem digit_val (n : Nat) (h : n < 10) : (digit n).val = 0x30 + n := by
  unfold digit
  rw [toByte_val]
  omega

/-- Reading the decimal digits of a number gives the number back. -/
theorem foldl_decimal (n : Nat) :
    (decimal n).foldl (fun m (c : Byte) => m * 10 + (c.val - 0x30)) 0 = n := by
  induction n using Nat.strong_induction_on with
  | _ n ih =>
    by_cases h : n < 10
    · rw [decimal_small n h]
      simp only [List.foldl_cons, List.foldl_nil]
      rw [digit_val n h]
      omega
    · rw [decimal_step n (by omega), List.foldl_append, ih (n / 10) (by omega)]
      simp only [List.foldl_cons, List.foldl_nil]
      rw [digit_val _ (Nat.mod_lt _ (by decide))]
      omega

theorem decimal_ne_nil (n : Nat) : decimal n ≠ [] := by
  by_cases h : n < 10
  · rw [decimal_small n h]
    simp
  · rw [decimal_step n (by omega)]
    simp

theorem decimal_digits (n : Nat) : ∀ b ∈ decimal n, 0x30 ≤ b.val ∧ b.val ≤ 0x39 :=
  decimalFuel_digits _ n

/-- What `Atoi` returns for the decimal digits of a number: the number when it
is in the range of `int`, the error beyond. -/
theorem Atoi_decimal (n : Nat) :
    Atoi (decimal n) = if n < 2 ^ 63 then some (n : Int) else none := by
  have hne := decimal_ne_nil n
  have hdig := decimal_digits n
  have hlen : (decimal n).length ≠ 0 := fun h => hne (List.length_eq_zero.mp h)
  have hhead : ∀ c : Byte, (c = ch '-' ∨ c = ch '+') → (decimal n).head? ≠ some c := by
    intro c hc hh
    have hm : c ∈ decimal n := List.mem_of_mem_head? hh
    have := hdig c hm
    rcases hc with rfl | rfl
    · exact absurd this (by decide)
    · exact absurd this (by decide)
  have hall : (decimal n).all (fun c => decide (0x30 ≤ c.val ∧ c.val ≤ 0x39)) = true := by
    rw [List.all_eq_true]
    intro c hc
    exact decide_eq_true (hdig c hc)
  unfold Atoi
  rw [if_neg hlen]
  simp only [hhead (ch '-') (Or.inl rfl), hhead (ch '+') (Or.inr rfl), or_self, if_false,
    hlen, hall, if_true, foldl_decimal, decide_False, Bool.false_eq_true]

theorem digit_not_space (b : Byte) (h : 0x30 ≤ b.val ∧ b.val ≤ 0x39) :
    b.val < 0x80 ∧ IsSpace b.val = false := by
  refine ⟨by omega, ?_⟩
  unfold IsSpace
  rw [if_pos (by omega)]
  simp only [decide_eq_false_iff_not]
  omega

/-- The body of `GoId` on a stack text that starts with `goroutine `, a field of
ASCII bytes and an ASCII white space: `Atoi` of that field decides. -/
theorem GoIdBody_field (d : GoString) (w : Byte) (rest : GoString)
    (hd : ∀ a ∈ d, a.val < 0x80 ∧ IsSpace a.val = false) (hne : d ≠ [])
    (hw : w.val < 0x80 ∧ IsSpace w.val = true) :
    GoIdBody (asc "goroutine " ++ (d ++ w :: rest)) =
      match Atoi d with
      | some id => .ok id
      | none => .error Panic.explicit := by
  unfold GoIdBody strings_Fields
  rw [TrimPrefix_append, fieldsAux_run d w rest [] hd hw (by simpa using hne)]
  rfl

/-- C18: `GoId` is a total function of the stack text. On `goroutine `, the
decimal digits of a number `N` in the range of `int` and an ASCII white space it
returns `N`, whatever follows. When the body fails, it returns 0: when there is
no field after the prefix (the index `[0]` panics), when `Atoi` rejects the
first field (the explicit panic), so for digits of a number beyond the range of
`int`, for a field that is no number, and for the empty text. -/
theorem GoId_recovers :
    (∀ (N : Nat) (w : Byte) (rest : GoString), N < 2 ^ 63 → w.val < 0x80 → IsSpace w.val = true →
      GoIdBody (asc "goroutine " ++ (decimal N ++ w :: rest)) = .ok (N : Int) ∧
      GoId (asc "goroutine " ++ (decimal N ++ w :: rest)) = (N : Int)) ∧
    (∀ (N : Nat) (w : Byte) (rest : GoString), 2 ^ 63 ≤ N → w.val < 0x80 → IsSpace w.val = true →
      GoIdBody (asc "goroutine " ++ (decimal N ++ w :: rest)) = .error Panic.explicit ∧
      GoId (asc "goroutine " ++ (decimal N ++ w :: rest)) = 0) ∧
    (∀ stack, strings_Fields (TrimPrefix stack (asc "goroutine ")) = [] →
      GoIdBody stack = .error Panic.indexRange ∧ GoId stack = 0) ∧
    (∀ stack idField tl, strings_Fields (TrimPrefix stack (asc "goroutine ")) = idField :: tl →
      Atoi idField = none → GoIdBody stack = .error Panic.explicit ∧ GoId stack = 0) ∧
    (∀ stack e, GoIdBody stack = .error e → GoId stack = 0) ∧
    (∀ stack, ∃ id, GoId stack = id ∧ (GoIdBody stack = .ok id ∨ id = 0)) ∧
    GoId (asc "goroutine 7 [running]:\n") = 7 ∧
    GoId (asc "goroutine x [running]:\n") = 0 ∧
    GoId (asc "goroutine ") = 0 ∧
    GoId [] = 0 := by
  refine ⟨?_, ?_, ?_, ?_, ?_, ?_, by decide, by decide, by decide, by decide⟩
  · intro N w rest hN hw hs
    have hb := GoIdBody_field (decimal N) w rest
      (fun a ha => digit_not_space a (decimal_digits N a ha)) (decimal_ne_nil N) ⟨hw, hs⟩
    rw [Atoi_decimal, if_pos hN] at hb
    unfold GoId
    rw [hb]
    exact ⟨rfl, rfl⟩
  · intro N w rest hN hw hs
    have hb := GoIdBody_field (decimal N) w rest
      (fun a ha => digit_not_space a (decimal_digits N a ha)) (decimal_ne_nil N) ⟨hw, hs⟩
    rw [Atoi_decimal, if_neg (by omega)] at hb
    unfold GoId
    rw [hb]
    exact ⟨rfl, rfl⟩
  · intro stack h
    unfold GoId GoIdBody
    rw [h]
    exact ⟨rfl, rfl⟩
  · intro stack idField tl h ha
    simp [GoId, GoIdBody, h, ha]
  · intro stack e h
    unfold GoId
    rw [h]
  · intro stack
    unfold GoId
    cases h : GoIdBody stack with
    | ok id => exact ⟨id, rfl, Or.inl rfl⟩
    | error e => exact ⟨0, rfl, Or.inr rfl⟩

/-! ## The labels of a plain line -/

/-- The tokens of the plain line are those of its labels and values. -/
theorem plainTokens_eq_pairs (f : TraditionFormatter) (p : Package) (env : Env) (entry : Entry) :
    f.plainTokens p env entry (f.FieldMap.resolve p.FieldKeyTime)
        (f.FieldMap.resolve p.FieldKeyLevel) (f.FieldMap.resolve p.FieldKeyMsg) =
      (f.plainPairs p env entry).map (fun kv => f.token env kv.1 kv.2) := by
  unfold TraditionFormatter.plainTokens TraditionFormatter.plainPairs
  cases f.DisableTimestamp <;> by_cases hm : entry.Message = [] <;>
    simp [hm, List.map_append, Function.comp_def]

/-! ## The line feed of a plain line -/

/-- C20: in plain mode, for a record formatted into an empty buffer whose
field keys and resolved time, level and message labels hold no line feed,
`Format` returns a line with exactly one line feed, its last byte, whatever the
message and the values hold; a value whose text holds a line feed is written
in quoted form. -/
theorem plain_line_single_LF (f : TraditionFormatter) (p : Package) (env : Env) (entry : Entry)
    (hc : (f.Do p entry).isColored env = false) (hb : entry.Buffer.getD [] = [])
    (hk : ∀ k ∈ entry.Data.keys, LF ∉ k)
    (hT : LF ∉ f.FieldMap.resolve p.FieldKeyTime) (hL : LF ∉ f.FieldMap.resolve p.FieldKeyLevel)
    (hM : LF ∉ f.FieldMap.resolve p.FieldKeyMsg) :
    (∃ body, (f.Format p env entry).2 = .ok (body ++ [LF], none) ∧ LF ∉ body ∧
      (body ++ [LF]).count LF = 1 ∧ (body ++ [LF]).getLast? = some LF) ∧
    ∀ v, LF ∈ Sprint v → f.needsQuoting (Sprint v) = true ∧
      f.valueText env v = Quote env.printTable (Sprint v) ∧ LF ∉ f.valueText env v := by
  refine ⟨⟨f.printPlain p env [] entry (f.orderedKeys entry)
      (if f.TimestampFormat = [] then p.defaultTimestampFormat else f.TimestampFormat),
    ?_, ?_, ?_, by simp⟩, ?_⟩
  · rw [Format_of_not_colored f p env entry hc, printPlain_Do, hb]
  · rw [printPlain_eq]
    exact appendTokens_no_LF _ [] (by simp) (plainTokens_no_LF f p env entry _ _ _ hT hL hM hk)
  · have hn : LF ∉ f.printPlain p env [] entry (f.orderedKeys entry)
        (if f.TimestampFormat = [] then p.defaultTimestampFormat else f.TimestampFormat) := by
      rw [printPlain_eq]
      exact appendTokens_no_LF _ [] (by simp) (plainTokens_no_LF f p env entry _ _ _ hT hL hM hk)
    rw [List.count_append, List.count_eq_zero_of_not_mem hn]
    rfl
  · intro v hv
    have hq : f.needsQuoting (Sprint v) = true :=
      (needsQuoting_iff f (Sprint v)).mpr (Or.inr ⟨LF, hv, by decide⟩)
    refine ⟨hq, ?_, valueText_no_LF f env v⟩
    rw [valueText_def, if_pos hq]

/-- C20 at a record with line feeds in the message and in a field value. -/
theorem plain_line_single_LF_witness :
    (zeroFormatter.Format samplePackage sampleEnv newlineValueEntry).2 =
      .ok (asc "time=\"2024-03-01T00:00:00Z\" level=info k=\"x\\ny\" message=\"a\\nb\"\n",
        none) ∧
    (∃ body, (zeroFormatter.Format samplePackage sampleEnv newlineValueEntry).2 =
        .ok (body ++ [LF], none) ∧ LF ∉ body ∧
      (body ++ [LF]).count LF = 1 ∧ (body ++ [LF]).getLast? = some LF) :=
  ⟨rfl, (plain_line_single_LF zeroFormatter samplePackage sampleEnv newlineValueEntry rfl rfl
    (by decide) (by decide) (by decide) (by decide)).1⟩

/-! ## Line feeds in what a call writes -/

/-- Tokens without line feed are appended to any buffer without line feed. -/
theorem appendTokens_suffix_no_LF (ts : List GoString) (b : GoString)
    (h : ∀ t ∈ ts, LF ∉ t) : ∃ x, appendTokens b ts = b ++ x ∧ LF ∉ x := by
  by_cases hb : b = []
  · subst hb
    exact ⟨appendTokens [] ts, by simp, appendTokens_no_LF ts [] (List.not_mem_nil _) h⟩
  · refine ⟨ts.flatMap (fun t => SP :: t), appendTokens_of_ne_nil ts b hb, ?_⟩
    intro hm
    obtain ⟨t, ht, hmem⟩ := List.mem_flatMap.mp hm
    rcases List.mem_cons.mp hmem with e | hmem
    · exact absurd e (by decide)
    · exact h t ht hmem

/-- C10, amended: when no field key holds a line feed, the bytes a `Format`
call appends to the buffer of the record hold exactly one line feed, the last
byte, provided that in plain mode the labels the field map resolves for time,
level and message hold none, and that in coloured mode the message, a string
`source` value, the upper-cased level name and (under `FullTimestamp`) the
rendered time hold none; so the returned line holds exactly one line feed when
the buffer held none before the call, as a nil or empty buffer does. Line feeds
in field values, and in plain mode in the message and the rendered time, never
reach the line: such values are written in quoted form. -/
theorem Format_LF_only_at_end (f : TraditionFormatter) (p : Package) (env : Env)
    (entry : Entry) (out : GoString) (err : GoError)
    (hkeys : ∀ k ∈ entry.Data.keys, LF ∉ k)
    (hplain : (f.Do p entry).isColored env = false →
      LF ∉ f.FieldMap.resolve p.FieldKeyTime ∧ LF ∉ f.FieldMap.resolve p.FieldKeyLevel ∧
      LF ∉ f.FieldMap.resolve p.FieldKeyMsg)
    (hcol : (f.Do p entry).isColored env = true →
      LF ∉ entry.Message ∧ (∀ s, entry.Data.get KEY_SOURCE = Value.str s → LF ∉ s) ∧
      LF ∉ ToUpper env.mapUpper (p.levelString entry.Level) ∧
      (f.DisableTimestamp = false → f.FullTimestamp = true →
        LF ∉ env.timeFormat entry.Time
          (if f.TimestampFormat = [] then p.defaultTimestampFormat else f.TimestampFormat)))
    (h : (f.Format p env entry).2 = .ok (out, err)) :
    (∃ written, out = entry.Buffer.getD [] ++ written ++ [LF] ∧ LF ∉ written) ∧
    (LF ∉ entry.Buffer.getD [] →
      ∃ body, out = body ++ [LF] ∧ LF ∉ body ∧ out.count LF = 1) := by
  have main : ∃ written, out = entry.Buffer.getD [] ++ written ++ [LF] ∧ LF ∉ written := by
    obtain ⟨_, body, rfl, hbody⟩ := Format_ok f p env entry out err h
    rcases hbody with ⟨hc, hcolored⟩ | ⟨hc, rfl⟩
    · obtain ⟨hm, hsrc, hlev, htime⟩ := hcol hc
      obtain ⟨levelText, source, hlt, hso, rfl⟩ :=
        printColored_ok f p env _ entry _ _ body hcolored
      have hl : LF ∉ levelText := by
        split_ifs at hlt
        · unfold slice04 at hlt
          split_ifs at hlt
          cases hlt
          exact fun hmem => hlev (List.mem_of_mem_take hmem)
        · cases hlt
          exact hlev
      have hs : LF ∉ source := by
        split_ifs at hso with hnil
        · cases hv : entry.Data.get KEY_SOURCE with
          | nil => exact absurd hv hnil
          | str s =>
            rw [hv] at hso
            cases hso
            exact hsrc _ hv
          | other t =>
            rw [hv] at hso
            cases hso
        · cases hso
          exact List.not_mem_nil _
      refine ⟨(f.orderedKeys entry).foldl (coloredField f env entry (levelColor p entry.Level))
        (header f p env entry (levelColor p entry.Level) levelText source
          (if f.TimestampFormat = [] then p.defaultTimestampFormat else f.TimestampFormat)),
        ?_, ?_⟩
      · rw [foldl_coloredField_eq, foldl_coloredField_eq]
        simp only [List.append_assoc]
      · exact foldl_coloredField_no_LF f env entry _ _ _
          (header_no_LF f p env entry _ levelText source _ hl hs hm htime)
          (fun k hk => hkeys k (mem_orderedKeys f entry k hk))
    · obtain ⟨h1, h2, h3⟩ := hplain hc
      rw [printPlain_eq]
      obtain ⟨x, hx, hxn⟩ := appendTokens_suffix_no_LF _ (entry.Buffer.getD [])
        (plainTokens_no_LF f p env entry _ _ _ h1 h2 h3 hkeys)
      exact ⟨x, by rw [hx], hxn⟩
  refine ⟨main, ?_⟩
  intro hbuf
  obtain ⟨written, rfl, hw⟩ := main
  have hn : LF ∉ entry.Buffer.getD [] ++ written := asc_no_LF_append _ _ hbuf hw
  refine ⟨_, rfl, hn, ?_⟩
  rw [List.count_append, List.count_eq_zero_of_not_mem hn]
  rfl

/-- C10, amended, in plain mode at a record with line feeds in the message and
in a field value, in coloured mode at a record with fields, and at a record
whose buffer still holds an earlier line. -/
theorem Format_LF_only_at_end_witness :
    (∃ body, asc "time=\"2024-03-01T00:00:00Z\" level=info k=\"x\\ny\" message=\"a\\nb\"\n" =
      body ++ [LF] ∧ LF ∉ body ∧
      (asc "time=\"2024-03-01T00:00:00Z\" level=info k=\"x\\ny\" message=\"a\\nb\"\n").count LF
        = 1) ∧
    (∃ body, sourceEntryLine = body ++ [LF] ∧ LF ∉ body ∧ sourceEntryLine.count LF = 1) ∧
    (zeroFormatter.Format samplePackage sampleEnv reusedBufferEntry).2 =
      .ok (asc "level=info\n time=\"2024-03-01T00:00:00Z\" level=info\n", none) ∧
    (∃ written, asc "level=info\n time=\"2024-03-01T00:00:00Z\" level=info\n" =
      reusedBufferEntry.Buffer.getD [] ++ written ++ [LF] ∧ LF ∉ written) :=
  ⟨(Format_LF_only_at_end zeroFormatter samplePackage sampleEnv newlineValueEntry _ none
      (by decide) (fun _ => by decide) (fun hc => absurd hc (by decide)) rfl).2 (by decide),
    (Format_LF_only_at_end colorFormatter samplePackage sampleEnv sourceEntry sourceEntryLine none
      (by decide) (fun hc => absurd hc (by decide))
      (fun _ => ⟨by decide, fun s hs => by cases hs; decide, by decide,
        fun _ hf => absurd hf (by decide)⟩) rfl).2 (by decide),
    rfl,
    (Format_LF_only_at_end zeroFormatter samplePackage sampleEnv reusedBufferEntry _ none
      (by decide) (fun _ => by decide) (fun hc => absurd hc (by decide)) rfl).1⟩

/-! ## Reading the labels back from a plain line -/

theorem scan_key_cons (acc : GoString) (c : Byte) (rest : GoString) :
    scanLabels (.key acc) (c :: rest) =
      if c = ch '=' then acc :: scanLabels .start rest
      else if c = SP ∨ c = LF then scanLabels (.key []) rest
      else scanLabels (.key (acc ++ [c])) rest := rfl

theorem scan_start_cons (c : Byte) (rest : GoString) :
    scanLabels .start (c :: rest) =
      if c = DQ then scanLabels .quoted rest
      else if c = SP ∨ c = LF then scanLabels (.key []) rest
      else scanLabels .bare rest := rfl

theorem scan_bare_cons (c : Byte) (rest : GoString) :
    scanLabels .bare (c :: rest) =
      if c = SP ∨ c = LF then scanLabels (.key []) rest else scanLabels .bare rest := rfl

theorem scan_quoted_cons (c : Byte) (rest : GoString) :
    scanLabels .quoted (c :: rest) =
      if c = BSL then scanLabels .escaped rest
      else if c = DQ then scanLabels .bare rest
      else scanLabels .quoted rest := rfl

theorem scan_escaped_cons (c : Byte) (rest : GoString) :
    scanLabels .escaped (c :: rest) = scanLabels .quoted rest := rfl

/-- A label without `=`, space and line feed is read up to its `=`. -/
theorem scan_label (l acc rest : GoString)
    (h : ∀ c ∈ l, c ≠ ch '=' ∧ c ≠ SP ∧ c ≠ LF) :
    scanLabels (.key acc) (l ++ ch '=' :: rest) = (acc ++ l) :: scanLabels .start rest := by
  induction l generalizing acc with
  | nil => rw [List.nil_append, scan_key_cons, if_pos rfl, List.append_nil]
  | cons c t ih =>
    obtain ⟨h1, h2, h3⟩ := h c (List.mem_cons_self _ _)
    rw [List.cons_append, scan_key_cons, if_neg h1, if_neg (by simp [h2, h3]),
      ih _ (fun x hx => h x (List.mem_cons_of_mem _ hx))]
    simp

/-- A value without quotes is read up to the separator after it. -/
theorem scan_bare (v : GoString) (sep : Byte) (rest : GoString)
    (h : ∀ c ∈ v, c ≠ SP ∧ c ≠ LF) (hsep : sep = SP ∨ sep = LF) :
    scanLabels .bare (v ++ sep :: rest) = scanLabels (.key []) rest := by
  induction v with
  | nil => rw [List.nil_append, scan_bare_cons, if_pos hsep]
  | cons c t ih =>
    obtain ⟨h2, h3⟩ := h c (List.mem_cons_self _ _)
    rw [List.cons_append, scan_bare_cons, if_neg (by simp [h2, h3]),
      ih (fun x hx => h x (List.mem_cons_of_mem _ hx))]

/-- Inside a quoted value, bytes other than the quote and the backslash are
passed over. -/
theorem scan_quoted_raw (u t : GoString) (h1 : DQ ∉ u) (h2 : BSL ∉ u) :
    scanLabels .quoted (u ++ t) = scanLabels .quoted t := by
  induction u with
  | nil => rfl
  | cons c r ih =>
    have hc1 : c ≠ DQ := fun e => h1 (e ▸ List.mem_cons_self _ _)
    have hc2 : c ≠ BSL := fun e => h2 (e ▸ List.mem_cons_self _ _)
    rw [List.cons_append, scan_quoted_cons, if_neg hc2, if_neg hc1,
      ih (fun hm => h1 (List.mem_cons_of_mem _ hm)) (fun hm => h2 (List.mem_cons_of_mem _ hm))]

/-- Inside a quoted value, the body `%q` wrote is passed over as a whole. -/
theorem scan_quoteBody (table : Nat → Bool) (s t : GoString) :
    scanLabels .quoted (quoteBody table s ++ t) = scanLabels .quoted t := by
  induction s using chunks_induction with
  | h0 => rfl
  | hstep r bs rest hc hpos hch ih =>
    rw [quoteBody_cons table r bs rest hch, List.append_assoc]
    obtain ⟨_, hu⟩ := unit_roundtrip table (r, bs) hc []
    rcases hu with ⟨_, hq, hb⟩ | ⟨x, tl, he, hq, hb⟩
    · rw [scan_quoted_raw _ _ hq hb, ih]
    · rw [he, List.cons_append, List.cons_append, scan_quoted_cons, if_pos rfl,
        scan_escaped_cons, scan_quoted_raw _ _ hq hb, ih]

theorem safe_not_separator (b : Byte) (h : safeRune b.val = true) :
    b ≠ DQ ∧ b ≠ SP ∧ b ≠ LF := by
  refine ⟨?_, ?_, ?_⟩ <;> intro e <;> rw [e] at h <;> exact absurd h (by decide)

/-- The text of a value is read up to the separator after it. -/
theorem scan_value (f : TraditionFormatter) (env : Env) (v : Value) (sep : Byte)
    (rest : GoString) (hsep : sep = SP ∨ sep = LF) :
    scanLabels .start (f.valueText env v ++ sep :: rest) = scanLabels (.key []) rest := by
  have hq : sep ≠ DQ := by
    rcases hsep with rfl | rfl <;> decide
  rw [valueText_def]
  cases hn : f.needsQuoting (Sprint v)
  · simp only [Bool.false_eq_true, if_false]
    have hs := needsQuoting_false_bytes f _ hn
    cases hv : Sprint v with
    | nil => rw [List.nil_append, scan_start_cons, if_neg hq, if_pos hsep]
    | cons c t =>
      rw [hv] at hs
      obtain ⟨c1, c2, c3⟩ := safe_not_separator c (hs c (List.mem_cons_self _ _))
      rw [List.cons_append, scan_start_cons, if_neg c1, if_neg (by simp [c2, c3]),
        scan_bare t sep rest
          (fun x hx => (safe_not_separator x (hs x (List.mem_cons_of_mem _ hx))).2) hsep]
  · simp only [if_true]
    rw [Quote_eq, List.cons_append, scan_start_cons, if_pos rfl, List.append_assoc,
      scan_quoteBody, List.singleton_append, scan_quoted_cons,
      if_neg (by decide), if_pos rfl, scan_bare_cons, if_pos hsep]

/-- One token and the separator after it yield the label of the token. -/
theorem scan_token (f : TraditionFormatter) (env : Env) (l : GoString) (v : Value)
    (sep : Byte) (rest : GoString) (hl : ∀ c ∈ l, c ≠ ch '=' ∧ c ≠ SP ∧ c ≠ LF)
    (hsep : sep = SP ∨ sep = LF) :
    scanLabels (.key []) (f.token env l v ++ sep :: rest) = l :: scanLabels (.key []) rest := by
  unfold TraditionFormatter.token
  rw [List.append_assoc, List.append_assoc, List.singleton_append, scan_label l [] _ hl,
    scan_value f env v sep rest hsep, List.nil_append]

/-- The labels read from a line of tokens are the labels the tokens were
written with, when these hold no `=`, space or line feed. -/
theorem lineLabels_lineOf (f : TraditionFormatter) (env : Env) (ps : List (GoString × Value))
    (hne : ps ≠ []) (hl : ∀ kv ∈ ps, ∀ c ∈ kv.1, c ≠ ch '=' ∧ c ≠ SP ∧ c ≠ LF) :
    lineLabels (lineOf (ps.map (fun kv => f.token env kv.1 kv.2))) = ps.map Prod.fst := by
  unfold lineLabels lineOf
  cases ps with
  | nil => exact absurd rfl hne
  | cons q qs =>
    rw [List.map_cons, intercalate_cons_eq]
    clear hne
    induction qs generalizing q with
    | nil =>
      rw [List.map_nil, List.flatMap_nil, List.append_nil,
        scan_token f env q.1 q.2 LF [] (hl q (List.mem_cons_self _ _)) (Or.inr rfl)]
      rfl
    | cons r rs ih =>
      rw [List.map_cons, List.flatMap_cons, List.append_assoc, List.append_assoc,
        List.cons_append,
        scan_token f env q.1 q.2 SP _ (hl q (List.mem_cons_self _ _)) (Or.inl rfl),
        ← List.append_assoc, ih r (fun kv hkv => hl kv (List.mem_cons_of_mem _ hkv))]
      rfl

/-- The labels of the plain line hold no label twice when the three resolved
labels differ and no key of the bag equals one of them. -/
theorem plainPairs_nodup (f : TraditionFormatter) (p : Package) (env : Env) (entry : Entry)
    (htl : f.FieldMap.resolve p.FieldKeyTime ≠ f.FieldMap.resolve p.FieldKeyLevel)
    (htm : f.FieldMap.resolve p.FieldKeyTime ≠ f.FieldMap.resolve p.FieldKeyMsg)
    (hlm : f.FieldMap.resolve p.FieldKeyLevel ≠ f.FieldMap.resolve p.FieldKeyMsg)
    (hk : ∀ k ∈ entry.Data.keys, k ≠ f.FieldMap.resolve p.FieldKeyTime ∧
      k ≠ f.FieldMap.resolve p.FieldKeyLevel ∧ k ≠ f.FieldMap.resolve p.FieldKeyMsg) :
    ((f.plainPairs p env entry).map Prod.fst).Nodup := by
  have hn := orderedKeys_nodup f entry
  have hk2 : ∀ k ∈ f.orderedKeys entry, k ≠ f.FieldMap.resolve p.FieldKeyTime ∧
      k ≠ f.FieldMap.resolve p.FieldKeyLevel ∧ k ≠ f.FieldMap.resolve p.FieldKeyMsg :=
    fun k hkm => hk k (mem_orderedKeys f entry k hkm)
  have hT : f.FieldMap.resolve p.FieldKeyTime ∉ f.orderedKeys entry :=
    fun h => (hk2 _ h).1 rfl
  have hL : f.FieldMap.resolve p.FieldKeyLevel ∉ f.orderedKeys entry :=
    fun h => (hk2 _ h).2.1 rfl
  have hM : f.FieldMap.resolve p.FieldKeyMsg ∉ f.orderedKeys entry :=
    fun h => (hk2 _ h).2.2 rfl
  have e : (f.orderedKeys entry).map (Prod.fst ∘ fun k => (k, entry.Data.get k)) =
      f.orderedKeys entry := by
    simp [Function.comp_def]
  unfold TraditionFormatter.plainPairs
  cases f.DisableTimestamp <;> by_cases hm : entry.Message = [] <;>
    simp only [hm, if_true, if_false, List.map_append, List.map_cons, List.map_nil,
      List.map_map, e, List.nil_append, List.append_nil, Bool.false_eq_true,
      List.singleton_append, List.cons_append, List.nodup_cons, List.nodup_append,
      List.mem_cons, List.mem_append, List.mem_singleton, List.not_mem_nil, List.nodup_nil,
      List.Disjoint, or_false, not_or, not_false_eq_true, and_true, true_and]
  · exact ⟨⟨htl, hT⟩, hL, hn⟩
  · exact ⟨⟨htl, hT, htm⟩, ⟨hL, hlm⟩, hn, fun a ha e => hM (e ▸ ha)⟩
  · exact ⟨hL, hn⟩
  · exact ⟨⟨hL, hlm⟩, hn, fun a ha e => hM (e ▸ ha)⟩

/-- Every label of the plain line is a resolved label or a key of the bag. -/
theorem plainPairs_label (f : TraditionFormatter) (p : Package) (env : Env) (entry : Entry)
    (kv : GoString × Value) (h : kv ∈ f.plainPairs p env entry) :
    kv.1 = f.FieldMap.resolve p.FieldKeyTime ∨ kv.1 = f.FieldMap.resolve p.FieldKeyLevel ∨
      kv.1 = f.FieldMap.resolve p.FieldKeyMsg ∨ kv.1 ∈ entry.Data.keys := by
  unfold TraditionFormatter.plainPairs at h
  simp only [List.mem_append, List.mem_map, List.mem_singleton] at h
  rcases h with ((h | h) | h) | h
  · split at h
    · cases h
    · rw [List.mem_singleton.mp h]
      exact Or.inl rfl
  · rw [h]
    exact Or.inr (Or.inl rfl)
  · obtain ⟨k, hk, rfl⟩ := h
    exact Or.inr (Or.inr (Or.inr (mem_orderedKeys f entry k hk)))
  · split at h
    · cases h
    · rw [List.mem_singleton.mp h]
      exact Or.inr (Or.inr (Or.inl rfl))

theorem plainPairs_ne_nil (f : TraditionFormatter) (p : Package) (env : Env) (entry : Entry) :
    f.plainPairs p env entry ≠ [] := by
  unfold TraditionFormatter.plainPairs
  simp

/-- C19, counterexample: in plain mode a record with a field named `level` is
rendered `level=info level=x`, and a record with a field named `a level` is
rendered `level=info a level=x`; in both lines two tokens carry the label
`level`, although the labels the field map resolves the time, the level and the
message to are three different strings. -/
theorem duplicate_label_counterexample :
    (noTimeFormatter.Format samplePackage sampleEnv clashEntry).2 =
      .ok (asc "level=info level=x\n", none) ∧
    lineLabels (asc "level=info level=x\n") = [asc "level", asc "level"] ∧
    ¬ (lineLabels (asc "level=info level=x\n")).Nodup ∧
    (noTimeFormatter.Format samplePackage sampleEnv spaceKeyEntry).2 =
      .ok (asc "level=info a level=x\n", none) ∧
    lineLabels (asc "level=info a level=x\n") = [asc "level", asc "level"] ∧
    ¬ (lineLabels (asc "level=info a level=x\n")).Nodup ∧
    noTimeFormatter.FieldMap.resolve samplePackage.FieldKeyTime ≠
      noTimeFormatter.FieldMap.resolve samplePackage.FieldKeyLevel ∧
    noTimeFormatter.FieldMap.resolve samplePackage.FieldKeyTime ≠
      noTimeFormatter.FieldMap.resolve samplePackage.FieldKeyMsg ∧
    noTimeFormatter.FieldMap.resolve samplePackage.FieldKeyLevel ≠
      noTimeFormatter.FieldMap.resolve samplePackage.FieldKeyMsg := by
  have e1 : lineLabels (asc "level=info level=x\n") = [asc "level", asc "level"] := by decide
  have e2 : lineLabels (asc "level=info a level=x\n") = [asc "level", asc "level"] := by decide
  refine ⟨rfl, e1, ?_, rfl, e2, ?_, by decide, by decide, by decide⟩
  · rw [e1]
    simp
  · rw [e2]
    simp

/-- C19, amended: in plain mode, for a record formatted into an empty buffer,
when the labels the field map resolves the time, the level and the message to
are pairwise distinct, no key of the field bag equals one of them, and neither
these labels nor the keys hold a space, a `=` or a line feed, `Format` returns
the plain line, the labels read back from the bytes of that line are the
resolved labels and the keys in the order they were written, and no two tokens
of the line carry the same label. -/
theorem plain_labels_distinct (f : TraditionFormatter) (p : Package) (env : Env) (entry : Entry)
    (hc : (f.Do p entry).isColored env = false) (hb : entry.Buffer.getD [] = [])
    (htl : f.FieldMap.resolve p.FieldKeyTime ≠ f.FieldMap.resolve p.FieldKeyLevel)
    (htm : f.FieldMap.resolve p.FieldKeyTime ≠ f.FieldMap.resolve p.FieldKeyMsg)
    (hlm : f.FieldMap.resolve p.FieldKeyLevel ≠ f.FieldMap.resolve p.FieldKeyMsg)
    (hk : ∀ k ∈ entry.Data.keys, k ≠ f.FieldMap.resolve p.FieldKeyTime ∧
      k ≠ f.FieldMap.resolve p.FieldKeyLevel ∧ k ≠ f.FieldMap.resolve p.FieldKeyMsg)
    (hkc : ∀ k ∈ entry.Data.keys, ∀ c ∈ k, c ≠ ch '=' ∧ c ≠ SP ∧ c ≠ LF)
    (htc : ∀ c ∈ f.FieldMap.resolve p.FieldKeyTime, c ≠ ch '=' ∧ c ≠ SP ∧ c ≠ LF)
    (hlc : ∀ c ∈ f.FieldMap.resolve p.FieldKeyLevel, c ≠ ch '=' ∧ c ≠ SP ∧ c ≠ LF)
    (hmc : ∀ c ∈ f.FieldMap.resolve p.FieldKeyMsg, c ≠ ch '=' ∧ c ≠ SP ∧ c ≠ LF) :
    (f.Format p env entry).2 = .ok (f.plainLine p env entry, none) ∧
    f.plainLine p env entry =
      lineOf ((f.plainPairs p env entry).map (fun kv => f.token env kv.1 kv.2)) ∧
    lineLabels (f.plainLine p env entry) = (f.plainPairs p env entry).map Prod.fst ∧
    (lineLabels (f.plainLine p env entry)).Nodup := by
  have e : f.plainLine p env entry =
      lineOf ((f.plainPairs p env entry).map (fun kv => f.token env kv.1 kv.2)) := by
    unfold TraditionFormatter.plainLine
    rw [plainTokens_eq_pairs]
  have hclean : ∀ kv ∈ f.plainPairs p env entry, ∀ c ∈ kv.1, c ≠ ch '=' ∧ c ≠ SP ∧ c ≠ LF := by
    intro kv hkv
    rcases plainPairs_label f p env entry kv hkv with h | h | h | h
    · rw [h]; exact htc
    · rw [h]; exact hlc
    · rw [h]; exact hmc
    · exact hkc _ h
  have hl : lineLabels (f.plainLine p env entry) = (f.plainPairs p env entry).map Prod.fst := by
    rw [e]
    exact lineLabels_lineOf f env _ (plainPairs_ne_nil f p env entry) hclean
  refine ⟨Format_plain_line f p env entry hc hb, e, hl, ?_⟩
  rw [hl]
  exact plainPairs_nodup f p env entry htl htm hlm hk

/-- C19 at a record with the fields `b` and `a`, the value of `b` holding a
space: five tokens under five labels. -/
theorem plain_labels_distinct_witness :
    (zeroFormatter.Format samplePackage sampleEnv sampleEntry).2 =
      .ok (asc "time=\"2024-03-01T00:00:00Z\" level=info a=5 b=\"x y\" message=hello\n",
        none) ∧
    lineLabels (asc "time=\"2024-03-01T00:00:00Z\" level=info a=5 b=\"x y\" message=hello\n") =
      [asc "time", asc "level", asc "a", asc "b", asc "message"] ∧
    (lineLabels (zeroFormatter.plainLine samplePackage sampleEnv sampleEntry)).Nodup :=
  ⟨(plain_labels_distinct zeroFormatter samplePackage sampleEnv sampleEntry rfl rfl
      (by decide) (by decide) (by decide) (by decide) (by decide) (by decide) (by decide)
      (by decide)).1, by decide,
    (plain_labels_distinct zeroFormatter samplePackage sampleEnv sampleEntry rfl rfl
      (by decide) (by decide) (by decide) (by decide) (by decide) (by decide) (by decide)
      (by decide)).2.2.2⟩

end Logrus
